import Mathlib

set_option maxRecDepth 20000

/-!
# Image Point Mapper: a shallow embedding of `src/script.js`

The class `ImagePointMapper` is embedded as a record `State` together with one
Lean function per method.  JavaScript objects have identity: the point list,
the selection and the history snapshots hold *references* to point objects, and
a drag or a rename mutates the object in place.  The embedding therefore keeps
an explicit heap (`State.heap`) of point objects; a reference is an index into
the heap.  `JSON.parse(JSON.stringify(..))` allocates fresh objects.

Conventions of the embedding

* strings are lists of characters (`JSString`);
* pointer positions and point coordinates are exact integers (CSS pixels); the
  position of a pending click may be fractional;
* the numbers read from ID suffixes and the scale of the CSV export are IEEE
  double-precision numbers: `parseInt`, `+`, `/`, `*` round to the nearest
  double, ties to even, and `String(n)` writes the shortest decimal that reads
  back as `n`;
* `Set` is an insertion-ordered list without duplicates;
* `confirm(..)` is a Boolean argument: the answer the user gives if asked;
* rendering, DOM updates and notifications have no effect on the modelled
  state and are left out; the `timestamp` of a snapshot is written and never
  read, and is left out as well.
-/

namespace ImagePointMapper

/-! ## Strings -/

/-- A JavaScript string, as its sequence of characters. -/
abbrev JSString := List Char

/-- The white space and line terminator characters removed by
`String.prototype.trim` and skipped by `parseInt`. -/
def isJsWhitespace (c : Char) : Bool :=
  let n := c.toNat
  n == 9 || n == 10 || n == 11 || n == 12 || n == 13 || n == 32 || n == 160 ||
  n == 5760 || (8192 ≤ n && n ≤ 8202) || n == 8232 || n == 8233 || n == 8239 ||
  n == 8287 || n == 12288 || n == 65279

/-- The character class `[A-Za-z0-9]`. -/
def isAlnum (c : Char) : Bool :=
  let n := c.toNat
  (48 ≤ n && n ≤ 57) || (65 ≤ n && n ≤ 90) || (97 ≤ n && n ≤ 122)

/-- The character class `[A-Z0-9]`. -/
def isUpperAlnum (c : Char) : Bool :=
  let n := c.toNat
  (48 ≤ n && n ≤ 57) || (65 ≤ n && n ≤ 90)

/-- The method `s.trim()`. -/
def trim (s : JSString) : JSString :=
  ((s.dropWhile isJsWhitespace).reverse.dropWhile isJsWhitespace).reverse

/-- The expression `s.includes('-')`. -/
def includesDash (s : JSString) : Bool := s.contains '-'

/-- The expression `s.split('-')[0]`. -/
def splitDash0 (s : JSString) : JSString := s.takeWhile (fun c => c != '-')

/-- The expression `s.split('-')[1]`; `none` is `undefined`. -/
def splitDash1 (s : JSString) : Option JSString :=
  match s.dropWhile (fun c => c != '-') with
  | [] => none
  | _ :: rest => some (rest.takeWhile (fun c => c != '-'))

/-- The method `s.startsWith(p)`. -/
def startsWith (s p : JSString) : Bool := p.isPrefixOf s

/-- The value of a digit character in `parseInt`: `0-9`, `a-z`, `A-Z`. -/
def digitValue (c : Char) : Option Nat :=
  let n := c.toNat
  if 48 ≤ n ∧ n ≤ 57 then some (n - 48)
  else if 97 ≤ n ∧ n ≤ 122 then some (n - 87)
  else if 65 ≤ n ∧ n ≤ 90 then some (n - 55)
  else none

/-- Whether `c` is a digit of the given radix. -/
def isRadixDigit (radix : Nat) (c : Char) : Bool :=
  match digitValue c with
  | some d => decide (d < radix)
  | none => false

/-- The mathematical value of a digit string in the given radix. -/
def digitsValue (radix : Nat) (ds : List Char) : Nat :=
  ds.foldl (fun acc c => acc * radix + (digitValue c).getD 0) 0

/-- The sign step of `parseInt`: an optional leading `-` or `+`;  the flag tells
whether the sign is negative. -/
def stripSign (s : JSString) : Bool × JSString :=
  match s with
  | '-' :: t => (true, t)
  | '+' :: t => (false, t)
  | _ => (false, s)

/-- The radix step of `parseInt` without radix argument: a leading `0x` or `0X`
is removed and selects radix 16, otherwise the radix is 10. -/
def stripHexPrefix (s : JSString) : Nat × JSString :=
  match s with
  | '0' :: 'x' :: t => (16, t)
  | '0' :: 'X' :: t => (16, t)
  | _ => (10, s)

/-- The integer `parseInt(s)` reads, before it is converted to a Number: leading
white space is skipped, then an optional sign, then an optional `0x`/`0X`
(radix 16), then the longest run of digits; `none` is `NaN`. -/
def parseIntMath (s : JSString) : Option Int :=
  let signed := stripSign (s.dropWhile isJsWhitespace)
  let based := stripHexPrefix signed.2
  let ds := based.2.takeWhile (isRadixDigit based.1)
  if ds.isEmpty then none
  else
    let v : Int := (digitsValue based.1 ds : Nat)
    some (if signed.1 then -v else v)

/-- Decimal digits of `n`, most significant first, in front of `acc`. -/
def natDigits : Nat → Nat → List Char → List Char
  | 0, _, acc => acc
  | fuel + 1, n, acc =>
    let acc1 := Char.ofNat (48 + n % 10) :: acc
    if n / 10 = 0 then acc1 else natDigits fuel (n / 10) acc1

/-- The decimal text of a natural number. -/
def natToString (n : Nat) : JSString := natDigits (n + 1) n []

/-- The conversion `String(n)` / `n.toString()` of an integer. -/
def intToString : Int → JSString
  | Int.ofNat n => natToString n
  | Int.negSucc n => '-' :: natToString (n + 1)

/-! ## Numbers -/

/-- The number of binary digits of `n`, by halving. -/
def bitLengthAux : Nat → Nat → Nat
  | 0, _ => 0
  | fuel + 1, n => if n = 0 then 0 else bitLengthAux fuel (n / 2) + 1

/-- The number of binary digits of `n`. -/
def bitLength (n : Nat) : Nat := bitLengthAux n n

/-- The binary exponent of the quotient `n / d` of two positive naturals: the
integer `k` with `2 ^ k ≤ n / d < 2 ^ (k + 1)`. -/
def binaryExponent (n d : Nat) : Int :=
  let l : Int := (bitLength n : Int) - (bitLength d : Int)
  let above : Bool :=
    if 0 ≤ l then decide (d * 2 ^ l.toNat ≤ n) else decide (d ≤ n * 2 ^ (-l).toNat)
  if above then l else l - 1

/-- The integer nearest to the quotient `num / den`, the even one of two that
are equally near. -/
def nearestEven (num den : Nat) : Nat :=
  let q := num / den
  let r := num % den
  if den < 2 * r ∨ (2 * r = den ∧ q % 2 = 1) then q + 1 else q

/-- The double nearest to the quotient `n / d` of two naturals, `d` positive,
ties to even: `some (m, e)` is the value `m * 2 ^ e`, where `e` is the exponent
of the last bit of a 53-bit significand and at least `-1074`; `none` is an
overflow to infinity. -/
def roundQuot (n d : Nat) : Option (Nat × Int) :=
  if n = 0 then some (0, 0)
  else
    let e : Int := max (binaryExponent n d) (-1022) - 52
    let m := nearestEven (if 0 ≤ e then n else n * 2 ^ (-e).toNat)
      (if 0 ≤ e then d * 2 ^ e.toNat else d)
    if 1024 < (bitLength m : Int) + e then none else some (m, e)

/-- A Number whose value is an integer, or an infinity: the values of
`parseInt`, `Math.max` over them, `+ 1` and `Math.round`. -/
inductive JSNumber where
  | negInf
  | finite (v : Int)
  | posInf
deriving DecidableEq, Repr

/-- The double nearest to a natural number; `none` is infinity. -/
def roundNat (a : Nat) : Option Nat :=
  match roundQuot a 1 with
  | none => none
  | some (m, e) => some (if 0 ≤ e then m * 2 ^ e.toNat else m / 2 ^ (-e).toNat)

/-- The Number for a mathematical integer: the nearest double. -/
def toDouble (n : Int) : JSNumber :=
  match roundNat n.natAbs with
  | none => if n < 0 then JSNumber.negInf else JSNumber.posInf
  | some a => JSNumber.finite (if n < 0 then -(a : Int) else a)

/-- The Number is not negative: a finite value of at least zero, or
`Infinity`. -/
def JSNumber.IsNonneg : JSNumber → Prop
  | JSNumber.negInf => False
  | JSNumber.finite v => 0 ≤ v
  | JSNumber.posInf => True

/-- The function `parseInt(s)` without radix argument: the Number for the
integer read, which is the nearest double; `none` is `NaN`. -/
def parseInt (s : JSString) : Option JSNumber := (parseIntMath s).map toDouble

/-- The larger of two Numbers. -/
def JSNumber.max : JSNumber → JSNumber → JSNumber
  | JSNumber.posInf, _ => JSNumber.posInf
  | _, JSNumber.posInf => JSNumber.posInf
  | JSNumber.negInf, b => b
  | a, JSNumber.negInf => a
  | JSNumber.finite x, JSNumber.finite y => JSNumber.finite (Max.max x y)

/-- The function `Math.max(...xs)`; it is `-Infinity` without arguments. -/
def mathMax (xs : List JSNumber) : JSNumber := xs.foldl JSNumber.max JSNumber.negInf

/-- The sum `x + 1` of doubles. -/
def JSNumber.addOne : JSNumber → JSNumber
  | JSNumber.negInf => JSNumber.negInf
  | JSNumber.posInf => JSNumber.posInf
  | JSNumber.finite v => toDouble (v + 1)

/-- The search of `String(a)` for the decimal with the fewest significant digits
that reads back as the double `a`: with `k` significant digits the candidates
are the two multiples of `10 ^ (digits - k)` around `a`; of two that read back
as `a` the closer one is taken, the one with an even last digit on a tie. -/
def shortestFrom (a digits : Nat) : Nat → Nat → Nat
  | 0, _ => a
  | fuel + 1, k =>
    let p := digits - k
    let lo := a / 10 ^ p * 10 ^ p
    let hi := lo + 10 ^ p
    let okLo := decide (roundNat lo = some a)
    let okHi := decide (roundNat hi = some a)
    if okLo && okHi then
      if a - lo < hi - a then lo
      else if hi - a < a - lo then hi
      else if (lo / 10 ^ p) % 2 = 0 then lo else hi
    else if okLo then lo
    else if okHi then hi
    else shortestFrom a digits fuel (k + 1)

/-- The shortest decimal that reads back as the double `a`. -/
def shortestDecimal (a : Nat) : Nat :=
  shortestFrom a (natToString a).length (natToString a).length 1

/-- The digits without the zeros at the end. -/
def stripTrailingZeros (ds : List Char) : List Char :=
  (ds.reverse.dropWhile (fun c => c == '0')).reverse

/-- The text of a decimal `c` in the format of `String`: all digits up to 21
digits, otherwise the significant digits with an exponent. -/
def formatDecimal (c : Nat) : JSString :=
  let ds := natToString c
  let n := ds.length
  if n ≤ 21 then ds
  else
    match stripTrailingZeros ds with
    | [] => ds
    | [d] => d :: 'e' :: '+' :: natToString (n - 1)
    | d :: rest => d :: '.' :: (rest ++ 'e' :: '+' :: natToString (n - 1))

/-- The conversion `String(a)` of a double that is a natural number. -/
def natText (a : Nat) : JSString := formatDecimal (shortestDecimal a)

/-- The conversion `String(x)` / `x.toString()` of a Number. -/
def numberToString : JSNumber → JSString
  | JSNumber.negInf => "-Infinity".toList
  | JSNumber.posInf => "Infinity".toList
  | JSNumber.finite v => if v < 0 then '-' :: natText v.natAbs else natText v.toNat

/-- The text of a Number that may be `NaN` (`none`). -/
def numberText : Option JSNumber → JSString
  | none => "NaN".toList
  | some x => numberToString x

/-- Any double: `NaN`, an infinity, or the finite value `m * 2 ^ e` with its
sign (a zero has `m = 0`). -/
inductive Double where
  | nan
  | inf (negative : Bool)
  | finite (negative : Bool) (m : Nat) (e : Int)
deriving DecidableEq, Repr

/-- The double nearest to the quotient `n / d`, with the given sign. -/
def Double.ofQuot (negative : Bool) (n d : Nat) : Double :=
  match roundQuot n d with
  | none => Double.inf negative
  | some (m, e) => Double.finite negative m e

/-- The double for a mathematical integer. -/
def Double.ofInt (n : Int) : Double := Double.ofQuot (decide (n < 0)) n.natAbs 1

/-- The quotient `a / b` of doubles. -/
def Double.div : Double → Double → Double
  | Double.nan, _ => Double.nan
  | _, Double.nan => Double.nan
  | Double.inf _, Double.inf _ => Double.nan
  | Double.inf s, Double.finite t _ _ => Double.inf (s != t)
  | Double.finite s _ _, Double.inf t => Double.finite (s != t) 0 0
  | Double.finite s m e, Double.finite t m2 e2 =>
    if m2 = 0 then
      if m = 0 then Double.nan else Double.inf (s != t)
    else if e2 ≤ e then Double.ofQuot (s != t) (m * 2 ^ (e - e2).toNat) m2
    else Double.ofQuot (s != t) m (m2 * 2 ^ (e2 - e).toNat)

/-- The product `a * b` of doubles. -/
def Double.mul : Double → Double → Double
  | Double.nan, _ => Double.nan
  | _, Double.nan => Double.nan
  | Double.inf s, Double.inf t => Double.inf (s != t)
  | Double.inf s, Double.finite t m _ => if m = 0 then Double.nan else Double.inf (s != t)
  | Double.finite s m _, Double.inf t => if m = 0 then Double.nan else Double.inf (s != t)
  | Double.finite s m e, Double.finite t m2 e2 =>
    if 0 ≤ e + e2 then Double.ofQuot (s != t) (m * m2 * 2 ^ (e + e2).toNat) 1
    else Double.ofQuot (s != t) (m * m2) (2 ^ (-(e + e2)).toNat)

/-- The function `Math.round` on a double: the floor of `x + 1 / 2`, computed
exactly; `none` is `NaN`. -/
def Double.round : Double → Option JSNumber
  | Double.nan => none
  | Double.inf s => some (if s then JSNumber.negInf else JSNumber.posInf)
  | Double.finite s m e =>
    let signed : Int := if s then -(m : Int) else m
    some (JSNumber.finite
      (if 0 ≤ e then signed * 2 ^ e.toNat
       else (2 * signed + 2 ^ (-e).toNat) / (2 * 2 ^ (-e).toNat)))

/-! ## Arrays -/

/-- Relative index resolution of `Array.prototype.slice`. -/
def relIndex (len : Nat) (k : Int) : Nat :=
  if k < 0 then (len + k).toNat else min k.toNat len

/-- The method `a.slice(start, stop)`. -/
def arraySlice {α : Type} (a : List α) (start stop : Int) : List α :=
  (a.take (relIndex a.length stop)).drop (relIndex a.length start)

/-- The method `a.slice(start)`. -/
def arraySliceFrom {α : Type} (a : List α) (start : Int) : List α :=
  a.drop (relIndex a.length start)

/-- The indexing `a[i]` with a number index; `none` is `undefined`. -/
def arrayGet {α : Type} (a : List α) (i : Int) : Option α :=
  if i < 0 then none else a[i.toNat]?

/-- The method `set.add(x)` on an insertion-ordered set. -/
def setAdd {α : Type} [DecidableEq α] (s : List α) (x : α) : List α :=
  if x ∈ s then s else s ++ [x]

/-- The method `set.delete(x)`. -/
def setDelete {α : Type} [DecidableEq α] (s : List α) (x : α) : List α :=
  s.filter (fun y => y != x)

/-! ## Data model -/

/-- A point object `{ point_id, x, y }`. -/
structure Point where
  point_id : JSString
  x : Int
  y : Int
deriving DecidableEq, Repr

/-- A reference to a point object: its index in the heap. -/
abbrev Ref := Nat

/-- A history entry built by `saveState`: `points` is the deep copy (values),
`selectedPoints` is the copied set of references to the objects that were live
when the snapshot was taken. -/
structure HistoryEntry where
  points : List Point
  selectedPoints : List Ref
  prefixes : List JSString
  action : JSString
deriving DecidableEq, Repr

/-- The object `this.selectionBox`. -/
structure SelectionBox where
  startX : Int
  startY : Int
  endX : Int
  endY : Int
deriving DecidableEq, Repr

/-- The part of `this.settings` read by the modelled methods. -/
structure Settings where
  clickTolerance : Int
  confirmDelete : Bool
  includeOriginalCoords : Bool
  includePointType : Bool
  csvDelimiter : JSString
  historySize : Int
deriving DecidableEq, Repr

/-- The default settings of `loadSettings`. -/
def defaultSettings : Settings :=
  { clickTolerance := 15, confirmDelete := true, includeOriginalCoords := true,
    includePointType := true, csvDelimiter := [','], historySize := 50 }

/-- The loaded image: its intrinsic width and height. -/
structure Image where
  width : Int
  height : Int
deriving DecidableEq, Repr

/-- The fields of an `ImagePointMapper` instance, with the heap of point
objects made explicit. -/
structure State where
  heap : List Point
  points : List Ref
  selectedPoints : List Ref
  currentImage : Option Image
  canvasWidth : Int
  canvasHeight : Int
  pendingClick : Option (ℚ × ℚ)
  isDragging : Bool
  dragOffset : Int × Int
  lastMousePos : Int × Int
  isMultiSelecting : Bool
  selectionBox : Option SelectionBox
  filterType : JSString
  prefixes : List JSString
  history : List HistoryEntry
  historyIndex : Int
  maxHistorySize : Int
  contextMenuTarget : Option Ref
  editingPoint : Option Ref
  settings : Settings
deriving DecidableEq, Repr

/-- The state built by the constructor, for the settings found in storage. -/
def initialState (settings : Settings) : State :=
  { heap := [], points := [], selectedPoints := [], currentImage := none,
    canvasWidth := 0, canvasHeight := 0, pendingClick := none,
    isDragging := false, dragOffset := (0, 0), lastMousePos := (0, 0),
    isMultiSelecting := false, selectionBox := none, filterType := "all".toList,
    prefixes := [], history := [], historyIndex := -1,
    maxHistorySize := settings.historySize, contextMenuTarget := none,
    editingPoint := none, settings := settings }

/-- The object a reference points to. -/
def State.deref (s : State) (r : Ref) : Point :=
  s.heap.getD r { point_id := [], x := 0, y := 0 }

/-- The point list by value: what `JSON.stringify(this.points)` records. -/
def State.pointValues (s : State) : List Point := s.points.map s.deref

/-- The `point_id` of every entry of the point list, in order. -/
def State.pointIds (s : State) : List JSString :=
  s.points.map (fun r => (s.deref r).point_id)

/-- The namespace prefix of a point id:
`id.includes('-') ? id.split('-')[0] : ''`. -/
def namespaceOf (id : JSString) : JSString :=
  if includesDash id then splitDash0 id else []

/-! ## History -/

/-- The object `state` built at the start of `saveState`. -/
def snapshot (s : State) (action : JSString) : HistoryEntry :=
  { points := s.pointValues, selectedPoints := s.selectedPoints,
    prefixes := s.prefixes, action := action }

/-- The history of `saveState` after the redo branch is cut and the snapshot is
pushed, before the size limit is applied. -/
def pushedHistory (s : State) (action : JSString) : List HistoryEntry :=
  (if s.historyIndex < (s.history.length : Int) - 1 then
      arraySlice s.history 0 (s.historyIndex + 1)
    else s.history) ++ [snapshot s action]

/-- The method `saveState(action)`. -/
def saveState (s : State) (action : JSString) : State :=
  let h2 := pushedHistory s action
  if (h2.length : Int) > s.maxHistorySize then
    let h3 := arraySliceFrom h2 (-s.maxHistorySize)
    { s with history := h3, historyIndex := (h3.length : Int) - 1 }
  else
    { s with history := h2, historyIndex := (h2.length : Int) - 1 }

/-- The method `restoreState(state)`: the point list becomes a list of freshly
allocated copies, the selection and the prefixes are copied from the entry. -/
def restoreState (s : State) (state : HistoryEntry) : State :=
  { s with
    heap := s.heap ++ state.points
    points := List.range' s.heap.length state.points.length
    selectedPoints := state.selectedPoints
    prefixes := state.prefixes }

/-- The method `undo()`.  Reading `.points` of a missing entry throws after the
index has been decremented. -/
def undo (s : State) : State :=
  if s.historyIndex > 0 then
    let s1 := { s with historyIndex := s.historyIndex - 1 }
    match arrayGet s1.history s1.historyIndex with
    | some e => restoreState s1 e
    | none => s1
  else s

/-- The method `redo()`. -/
def redo (s : State) : State :=
  if s.historyIndex < (s.history.length : Int) - 1 then
    let s1 := { s with historyIndex := s.historyIndex + 1 }
    match arrayGet s1.history s1.historyIndex with
    | some e => restoreState s1 e
    | none => s1
  else s

/-! ## Prefix registry -/

/-- The characters `toUpperCase` produces for one character, restricted to what
can survive the filter `[A-Z0-9]`: ASCII letters, and the characters whose
upper-case form contains an ASCII letter. -/
def upperChar (c : Char) : List Char :=
  let n := c.toNat
  if 97 ≤ n ∧ n ≤ 122 then [Char.ofNat (n - 32)]
  else if n = 0x131 then ['I']
  else if n = 0x17F then ['S']
  else if n = 0xDF then ['S', 'S']
  else if n = 0x149 then [Char.ofNat 0x2BC, 'N']
  else if n = 0x1F0 then ['J', Char.ofNat 0x30C]
  else if n = 0x1E96 then ['H', Char.ofNat 0x331]
  else if n = 0x1E97 then ['T', Char.ofNat 0x308]
  else if n = 0x1E98 then ['W', Char.ofNat 0x30A]
  else if n = 0x1E99 then ['Y', Char.ofNat 0x30A]
  else if n = 0x1E9A then ['A', Char.ofNat 0x2BE]
  else if n = 0xFB00 then ['F', 'F']
  else if n = 0xFB01 then ['F', 'I']
  else if n = 0xFB02 then ['F', 'L']
  else if n = 0xFB03 then ['F', 'F', 'I']
  else if n = 0xFB04 then ['F', 'F', 'L']
  else if n = 0xFB05 then ['S', 'T']
  else if n = 0xFB06 then ['S', 'T']
  else [c]

/-- The method `s.toUpperCase()`, up to characters outside `[A-Z0-9]`. -/
def toUpperCase (s : JSString) : JSString := s.flatMap upperChar

/-- The method `addPrefix(prefix)` with its return value. -/
def addPrefix (s : State) (raw : JSString) : State × Bool :=
  if raw.isEmpty then (s, false)
  else
    let pfx := (toUpperCase (trim raw)).filter isUpperAlnum
    if pfx.length = 0 ∨ pfx.length > 10 then (s, false)
    else if pfx ∈ s.prefixes then (s, false)
    else ({ s with prefixes := setAdd s.prefixes pfx }, true)

/-- The filter of `removePrefix`:
`p.point_id.includes('-') && p.point_id.startsWith(prefix)`. -/
def matchesPrefix (pfx : JSString) (id : JSString) : Bool :=
  includesDash id && startsWith id pfx

/-- The loop of `removePrefix` over `pointsToRemove`: each point found in the
point list is spliced out and deleted from the selection. -/
def removePoints (s : State) (toRemove : List Ref) : State :=
  toRemove.foldl
    (fun acc r =>
      if r ∈ acc.points then
        { acc with points := acc.points.erase r,
                   selectedPoints := setDelete acc.selectedPoints r }
      else acc)
    s

/-- The method `removePrefix(prefix)` with its return value; `answer` is the
reply to the confirmation dialog, read only when the dialog is shown. -/
def removePrefix (s : State) (pfx : JSString) (answer : Bool) : State × Bool :=
  let usedPrefixes := s.pointIds.map namespaceOf
  if pfx ∈ usedPrefixes ∧ answer = false then (s, false)
  else
    let s1 := { s with prefixes := setDelete s.prefixes pfx }
    if pfx ∈ usedPrefixes then
      let pointsToRemove := s1.points.filter (fun r => matchesPrefix pfx (s1.deref r).point_id)
      let s2 := removePoints s1 pointsToRemove
      (saveState s2 ("Remove prefix ".toList ++ pfx ++ " and its points".toList), true)
    else (s1, true)

/-! ## Visibility and hit test -/

/-- The method `getVisiblePoints()`. -/
def getVisiblePoints (s : State) : List Ref :=
  if s.filterType = "all".toList then s.points
  else s.points.filter (fun r => namespaceOf (s.deref r).point_id = s.filterType)

/-- The method `getPointAtPosition(x, y)`; `none` is `undefined`.  The test
`Math.sqrt(dx ** 2 + dy ** 2) <= tolerance` is decided on the squares. -/
def getPointAtPosition (s : State) (x y : Int) : Option Ref :=
  let tolerance := s.settings.clickTolerance
  s.points.find? (fun r =>
    let point := s.deref r
    if s.filterType ≠ "all".toList ∧ namespaceOf point.point_id ≠ s.filterType then false
    else
      decide (0 ≤ tolerance ∧
        (point.x - x) ^ 2 + (point.y - y) ^ 2 ≤ tolerance ^ 2))

/-! ## Pointer events -/

/-- A mouse event together with the canvas bounding rectangle at that time. -/
structure MouseEvent where
  clientX : Int
  clientY : Int
  rectLeft : Int
  rectTop : Int
  button : Nat
  ctrlKey : Bool
  metaKey : Bool
  shiftKey : Bool
deriving DecidableEq, Repr

/-- The test of the selection rectangle used by `selectPointsInRange` and
`updateSelectionBox`. -/
def inRect (minX maxX minY maxY : Int) (p : Point) : Bool :=
  decide (p.x ≥ minX ∧ p.x ≤ maxX ∧ p.y ≥ minY ∧ p.y ≤ maxY)

/-- The method `selectPointsInRange(x, y)`. -/
def selectPointsInRange (s : State) (x y : Int) : State :=
  match s.selectedPoints.getLast? with
  | none => s
  | some last =>
    let lastSelected := s.deref last
    let minX := min lastSelected.x x
    let maxX := max lastSelected.x x
    let minY := min lastSelected.y y
    let maxY := max lastSelected.y y
    let selected := s.points.foldl
      (fun sel r => if inRect minX maxX minY maxY (s.deref r) then setAdd sel r else sel)
      s.selectedPoints
    { s with selectedPoints := selected }

/-- The method `onCanvasClick(event)`. -/
def onCanvasClick (s : State) (ev : MouseEvent) : State :=
  if s.currentImage.isNone ∨ s.isDragging = true then s
  else
    let x := ev.clientX - ev.rectLeft
    let y := ev.clientY - ev.rectTop
    let clickedPoint := getPointAtPosition s x y
    if ev.ctrlKey = true ∨ ev.metaKey = true then
      match clickedPoint with
      | some p =>
        if p ∈ s.selectedPoints then { s with selectedPoints := setDelete s.selectedPoints p }
        else { s with selectedPoints := setAdd s.selectedPoints p }
      | none => s
    else if ev.shiftKey = true ∧ s.selectedPoints.length > 0 then
      selectPointsInRange s x y
    else
      match clickedPoint with
      | some p => { s with selectedPoints := [p] }
      | none => { s with selectedPoints := [], pendingClick := some ((x : ℚ), (y : ℚ)) }

/-- The method `showContextMenu(x, y, point)`. -/
def showContextMenu (s : State) (point : Option Ref) : State :=
  { s with contextMenuTarget := point }

/-- The method `hideContextMenu()`. -/
def hideContextMenu (s : State) : State :=
  { s with contextMenuTarget := none }

/-- The method `onRightClick(event)`. -/
def onRightClick (s : State) (ev : MouseEvent) : State :=
  if s.currentImage.isNone then s
  else
    let x := ev.clientX - ev.rectLeft
    let y := ev.clientY - ev.rectTop
    match getPointAtPosition s x y with
    | some p =>
      let s1 := if p ∈ s.selectedPoints then s else { s with selectedPoints := [p] }
      showContextMenu s1 (some p)
    | none => s

/-- The method `onMouseDown(event)`. -/
def onMouseDown (s : State) (ev : MouseEvent) : State :=
  if s.currentImage.isNone ∨ ev.button ≠ 0 then s
  else
    let x := ev.clientX - ev.rectLeft
    let y := ev.clientY - ev.rectTop
    let s1 := { s with lastMousePos := (ev.clientX, ev.clientY) }
    match getPointAtPosition s1 x y with
    | some p =>
      if p ∈ s1.selectedPoints then
        { s1 with isDragging := true,
                  dragOffset := (x - (s1.deref p).x, y - (s1.deref p).y) }
      else s1
    | none =>
      if ev.ctrlKey = false ∧ ev.metaKey = false then
        { s1 with isMultiSelecting := true,
                  selectionBox := some { startX := x, startY := y, endX := x, endY := y },
                  selectedPoints := [] }
      else s1

/-- The body of the drag loop of `onMouseMove` for one point object: translate,
then clamp each axis with `Math.max(15, Math.min(extent - 15, v))`. -/
def dragPoint (width height deltaX deltaY : Int) (p : Point) : Point :=
  { p with x := max 15 (min (width - 15) (p.x + deltaX)),
           y := max 15 (min (height - 15) (p.y + deltaY)) }

/-- In-place update of the object behind a reference. -/
def heapModify (heap : List Point) (r : Ref) (f : Point → Point) : List Point :=
  heap.modify f r

/-- The method `updateSelectionBox()`. -/
def updateSelectionBox (s : State) : State :=
  match s.selectionBox with
  | none => s
  | some box =>
    let minX := min box.startX box.endX
    let maxX := max box.startX box.endX
    let minY := min box.startY box.endY
    let maxY := max box.startY box.endY
    let selected := s.points.foldl
      (fun sel r => if inRect minX maxX minY maxY (s.deref r) then setAdd sel r else sel)
      []
    { s with selectedPoints := selected }

/-- The method `onMouseMove(event)`; the assignment to `lastMousePos` that ends
the method is written at the end of each branch.  Writing `endX` of a missing
selection box throws, which leaves the state as it was. -/
def onMouseMove (s : State) (ev : MouseEvent) : State :=
  if s.currentImage.isNone then s
  else
    let x := ev.clientX - ev.rectLeft
    let y := ev.clientY - ev.rectTop
    if s.isDragging = true ∧ s.selectedPoints.length > 0 then
      let prevX := s.lastMousePos.1 - ev.rectLeft
      let prevY := s.lastMousePos.2 - ev.rectTop
      let deltaX := x - prevX
      let deltaY := y - prevY
      let heap1 := s.selectedPoints.foldl
        (fun heap r => heapModify heap r (dragPoint s.canvasWidth s.canvasHeight deltaX deltaY))
        s.heap
      { s with heap := heap1, lastMousePos := (ev.clientX, ev.clientY) }
    else if s.isMultiSelecting = true then
      match s.selectionBox with
      | some box =>
        let s1 := updateSelectionBox { s with selectionBox := some { box with endX := x, endY := y } }
        { s1 with lastMousePos := (ev.clientX, ev.clientY) }
      | none => s
    else
      { s with lastMousePos := (ev.clientX, ev.clientY) }

/-- The method `onMouseUp(event)`. -/
def onMouseUp (s : State) : State :=
  let s1 :=
    if s.isDragging = true ∧ s.selectedPoints.length > 0 then
      saveState s ("Move ".toList ++ natToString s.selectedPoints.length ++ " point(s)".toList)
    else s
  { s1 with isDragging := false, isMultiSelecting := false, selectionBox := none }

/-! ## Point store -/

/-- The numeric suffixes of the points under `pfx`, as computed by
`duplicatePoint`, `showModal` and the prefix-change handler:
`filter(startsWith(pfx + '-'))`, `map(split('-')[1])`,
`filter(id => id && !isNaN(parseInt(id)))`, `map(parseInt)`. -/
def prefixedNumbers (s : State) (pfx : JSString) : List JSNumber :=
  ((s.pointIds.filter (fun id => startsWith id (pfx ++ ['-']))).map splitDash1).filterMap
    (fun seg =>
      match seg with
      | some id => if id.isEmpty then none else parseInt id
      | none => none)

/-- The numeric IDs of the unprefixed points:
`filter(!includes('-') && !isNaN(parseInt(id)))`, `map(parseInt)`,
`filter(!isNaN)`. -/
def unprefixedNumbers (s : State) : List JSNumber :=
  (s.pointIds.filter (fun id => !includesDash id && (parseInt id).isSome)).filterMap parseInt

/-- The expression `ids.length > 0 ? Math.max(...ids) + 1 : 1`. -/
def nextNumber (ids : List JSNumber) : JSNumber :=
  if ids.length > 0 then (mathMax ids).addOne else JSNumber.finite 1

/-- The ID computed by `duplicatePoint` for a duplicate of a point with the
given id. -/
def duplicateId (s : State) (id : JSString) : JSString :=
  if includesDash id then
    let pfx := splitDash0 id
    pfx ++ ['-'] ++ numberToString (nextNumber (prefixedNumbers s pfx))
  else
    numberToString (nextNumber (unprefixedNumbers s))

/-- The method `duplicatePoint(point)`; `none` is a falsy argument. -/
def duplicatePoint (s : State) (point : Option Ref) : State :=
  match point with
  | none => s
  | some p =>
    let src := s.deref p
    let newPoint : Point :=
      { point_id := duplicateId s src.point_id, x := src.x + 30, y := src.y + 30 }
    let r := s.heap.length
    let s1 := { s with heap := s.heap ++ [newPoint], points := s.points ++ [r],
                       selectedPoints := [r] }
    saveState s1 ("Duplicate point ".toList ++ src.point_id)

/-- The method `deletePoint(point)`. -/
def deletePoint (s : State) (point : Option Ref) : State :=
  match point with
  | none => s
  | some p =>
    if p ∈ s.points then
      let s1 := { s with points := s.points.erase p,
                         selectedPoints := setDelete s.selectedPoints p }
      saveState s1 ("Delete point ".toList ++ (s.deref p).point_id)
    else s

/-- The method `selectAll()`. -/
def selectAll (s : State) : State :=
  { s with selectedPoints := (getVisiblePoints s).foldl setAdd [] }

/-- The method `deselectAll()`. -/
def deselectAll (s : State) : State :=
  { s with selectedPoints := [] }

/-- The method `deleteSelected()`; `answer` is the reply to the confirmation
dialog, read only when `confirmDelete` is set. -/
def deleteSelected (s : State) (answer : Bool) : State :=
  if s.selectedPoints.length = 0 then s
  else
    let count := s.selectedPoints.length
    if s.settings.confirmDelete = false ∨ answer = true then
      let points1 := s.selectedPoints.foldl
        (fun pts r => if r ∈ pts then pts.erase r else pts)
        s.points
      let s1 := { s with points := points1, selectedPoints := [] }
      saveState s1 ("Delete ".toList ++ natToString count ++ " point(s)".toList)
    else s

/-- The method `clearAll()`. -/
def clearAll (s : State) (answer : Bool) : State :=
  if s.points.length = 0 then s
  else if s.settings.confirmDelete = false ∨ answer = true then
    let s1 := { s with points := [], selectedPoints := [], history := [], historyIndex := -1 }
    saveState s1 "Clear all points".toList
  else s

/-- The method `setFilter(type)`. -/
def setFilter (s : State) (type : JSString) : State :=
  { s with filterType := type, selectedPoints := [] }

/-- The method `closeModal()`. -/
def closeModal (s : State) : State :=
  { s with pendingClick := none, editingPoint := none }

/-- The method `editPoint(point)`. -/
def editPoint (s : State) (point : Option Ref) : State :=
  match point with
  | none => s
  | some p => { s with editingPoint := some p }

/-- The actions of the context menu. -/
inductive MenuAction where
  | edit
  | duplicate
  | delete
deriving DecidableEq, Repr

/-- The method `handleContextMenuAction(action)`: the menu is hidden first,
then the action is given `this.contextMenuTarget`. -/
def handleContextMenuAction (s : State) (action : MenuAction) : State :=
  let s1 := hideContextMenu s
  match action with
  | MenuAction.edit => editPoint s1 s1.contextMenuTarget
  | MenuAction.duplicate => duplicatePoint s1 s1.contextMenuTarget
  | MenuAction.delete => deletePoint s1 s1.contextMenuTarget

/-- The point id built by `addPoint` from the selected prefix and the cleaned
id: `` prefix ? `${prefix}-${cleanId}` : cleanId ``. -/
def makePointId (pfx cleanId : JSString) : JSString :=
  if pfx.isEmpty then cleanId else pfx ++ ['-'] ++ cleanId

/-- The function `Math.round` on a finite number, given as a fraction: the
floor of `v + 1 / 2`, that is the nearest integer, halves going up. -/
def mathRound (v : ℚ) : Int := (2 * v.num + v.den) / (2 * v.den)

/-- The method `addPoint(event)`; `pfx` and `rawId` are the values of the form
fields `pointPrefix` and `pointId`. -/
def addPoint (s : State) (pfx rawId : JSString) : State :=
  let id := trim rawId
  if id.isEmpty then s
  else
    let cleanId := id.filter isAlnum
    if cleanId.length = 0 then s
    else
      let pointId := makePointId pfx cleanId
      match s.editingPoint with
      | some e =>
        if s.points.any (fun p => (s.deref p).point_id = pointId ∧ p ≠ e) then s
        else
          let oldId := (s.deref e).point_id
          let s1 := { s with heap := heapModify s.heap e (fun o => { o with point_id := pointId }) }
          let s2 := saveState s1 ("Edit point ".toList ++ oldId ++ " to ".toList ++ pointId)
          closeModal s2
      | none =>
        if s.points.any (fun p => (s.deref p).point_id = pointId) then s
        else
          match s.pendingClick with
          | none => s
          | some click =>
            let newPoint : Point :=
              { point_id := pointId, x := mathRound click.1, y := mathRound click.2 }
            let r := s.heap.length
            let s1 := { s with heap := s.heap ++ [newPoint], points := s.points ++ [r],
                               selectedPoints := [r] }
            let s2 := saveState s1 ("Add point ".toList ++ pointId)
            closeModal s2

/-! ## Image load and settings -/

/-- The `img.onload` callback of `loadImageFromFile`; the canvas size is the
image size scaled to the container. -/
def imageLoaded (s : State) (img : Image) (canvasWidth canvasHeight : Int) : State :=
  let s1 := { s with currentImage := some img, canvasWidth := canvasWidth,
                     canvasHeight := canvasHeight, points := [], selectedPoints := [],
                     history := [], historyIndex := -1 }
  saveState s1 "Load image".toList

/-- The method `applySettings()` for the settings read from the form, followed
by `applySettingsToApp()`. -/
def applySettings (s : State) (settings : Settings) : State :=
  { s with settings := settings, maxHistorySize := settings.historySize }

/-! ## The editor as a transition system -/

/-- The events the editor reacts to. -/
inductive Action where
  | addPrefix (raw : JSString)
  | removePrefix (pfx : JSString) (answer : Bool)
  | undo
  | redo
  | imageLoaded (img : Image) (canvasWidth canvasHeight : Int)
  | canvasClick (ev : MouseEvent)
  | rightClick (ev : MouseEvent)
  | mouseDown (ev : MouseEvent)
  | mouseMove (ev : MouseEvent)
  | mouseUp
  | hideContextMenu
  | contextMenuAction (a : MenuAction)
  | editPoint (point : Option Ref)
  | duplicatePoint (point : Option Ref)
  | deletePoint (point : Option Ref)
  | selectAll
  | deselectAll
  | deleteSelected (answer : Bool)
  | clearAll (answer : Bool)
  | setFilter (type : JSString)
  | closeModal
  | addPoint (pfx rawId : JSString)
  | applySettings (settings : Settings)
deriving DecidableEq, Repr

/-- The effect of one event. -/
def step (s : State) : Action → State
  | Action.addPrefix raw => (addPrefix s raw).1
  | Action.removePrefix pfx answer => (removePrefix s pfx answer).1
  | Action.undo => undo s
  | Action.redo => redo s
  | Action.imageLoaded img w h => imageLoaded s img w h
  | Action.canvasClick ev => onCanvasClick s ev
  | Action.rightClick ev => onRightClick s ev
  | Action.mouseDown ev => onMouseDown s ev
  | Action.mouseMove ev => onMouseMove s ev
  | Action.mouseUp => onMouseUp s
  | Action.hideContextMenu => hideContextMenu s
  | Action.contextMenuAction a => handleContextMenuAction s a
  | Action.editPoint point => editPoint s point
  | Action.duplicatePoint point => duplicatePoint s point
  | Action.deletePoint point => deletePoint s point
  | Action.selectAll => selectAll s
  | Action.deselectAll => deselectAll s
  | Action.deleteSelected answer => deleteSelected s answer
  | Action.clearAll answer => clearAll s answer
  | Action.setFilter type => setFilter s type
  | Action.closeModal => closeModal s
  | Action.addPoint pfx rawId => addPoint s pfx rawId
  | Action.applySettings settings => applySettings s settings

/-- A point argument handed to a method is an object that exists. -/
def validArg (s : State) : Option Ref → Bool
  | none => true
  | some p => decide (p < s.heap.length)

/-- Whether an event can occur in a state: a method called with a point is
called with an existing point object. -/
def Action.admissible (s : State) : Action → Bool
  | Action.editPoint point => validArg s point
  | Action.duplicatePoint point => validArg s point
  | Action.deletePoint point => validArg s point
  | _ => true

/-- The state after a sequence of events. -/
def run (s : State) (actions : List Action) : State := actions.foldl step s

/-- Whether every event of a sequence can occur when its turn comes. -/
def admissibleRun : State → List Action → Bool
  | _, [] => true
  | s, a :: rest => a.admissible s && admissibleRun (step s a) rest

/-- The states of the editor: those the constructor builds and those an event
leads to. -/
inductive Reachable : State → Prop where
  | init (settings : Settings) : Reachable (initialState settings)
  | step {s : State} (a : Action) : Reachable s → a.admissible s = true → Reachable (step s a)

/-! ## ID suggestion of the add flow -/

/-- The values `showModal()` writes to the form fields `pointPrefix` and
`pointId` when it opens the add flow (`isEdit` false): without prefixes the
next unprefixed number, otherwise the first prefix of the set and its next
number. -/
def showModalFields (s : State) : JSString × JSString :=
  match s.prefixes with
  | [] => ([], numberToString (nextNumber (unprefixedNumbers s)))
  | firstPrefix :: _ =>
    (firstPrefix, numberToString (nextNumber (prefixedNumbers s firstPrefix)))

/-- The value the `change` handler of `pointPrefix` writes to the field
`pointId` for the selected prefix. -/
def prefixChangeSuggestion (s : State) (pfx : JSString) : JSString :=
  let existingIds := if pfx.isEmpty then unprefixedNumbers s else prefixedNumbers s pfx
  if existingIds.length > 0 then numberToString (mathMax existingIds).addOne else "1".toList

/-- The suffix of a point id in the words of the data model: what follows the
prefix and its `-`, or the whole id when there is no prefix. -/
def idSuffix (id : JSString) : JSString :=
  if includesDash id then (id.dropWhile (fun c => c != '-')).drop 1 else id

/-! ## Hit test, in the words of the specification -/

/-- A point is visible iff the filter is `all` or its namespace prefix equals
the filter. -/
def isVisible (s : State) (r : Ref) : Bool :=
  decide (s.filterType = "all".toList ∨ namespaceOf (s.deref r).point_id = s.filterType)

/-- The point lies within the click tolerance of `(x, y)`, decided on the squared
distance. -/
def withinTolerance (s : State) (x y : Int) (r : Ref) : Bool :=
  decide (0 ≤ s.settings.clickTolerance ∧
    ((s.deref r).x - x) ^ 2 + ((s.deref r).y - y) ^ 2 ≤ s.settings.clickTolerance ^ 2)

/-! ## Snapshots of mutating actions -/

/-- The step from `s` to `t` commits exactly one snapshot, taken after the
mutation: the history of `t` is that of `s` followed by one entry, the index
points to it, and the entry holds the point list and the prefix set of `t`. -/
def CommitsOne (s t : State) : Prop :=
  ∃ e, t.history = s.history ++ [e] ∧ t.historyIndex = (s.history.length : Int) ∧
    e.points = t.pointValues ∧ e.prefixes = t.prefixes

/-- The states reached from the initial state by `saveState` with any label
and by any event, `undo`, `redo`, `clearAll` and image load among them. -/
inductive HistoryReachable : State → Prop where
  | init (settings : Settings) : HistoryReachable (initialState settings)
  | saveState {s : State} (action : JSString) :
      HistoryReachable s → HistoryReachable (saveState s action)
  | step {s : State} (a : Action) : HistoryReachable s → HistoryReachable (step s a)

/-- The range of `historyIndex`: below the history length, `-1` exactly when the
history is empty. -/
def HistoryIndexInRange (s : State) : Prop :=
  s.historyIndex < (s.history.length : Int) ∧
    (s.history = [] → s.historyIndex = -1) ∧ (s.history ≠ [] → 0 ≤ s.historyIndex)

/-! ## Snapshot-producing actions -/

/-- What a snapshot records of a state: the point list by value, the selection
and the prefix set. -/
def stateView (s : State) : List Point × List Ref × List JSString :=
  (s.pointValues, s.selectedPoints, s.prefixes)

/-- What a history entry holds, its label apart. -/
def entryView (e : HistoryEntry) : List Point × List Ref × List JSString :=
  (e.points, e.selectedPoints, e.prefixes)

/-- A state change that does not touch the history, its index or its limit. -/
def HistoryNeutral (f : State → State) : Prop :=
  ∀ s, (f s).history = s.history ∧ (f s).historyIndex = s.historyIndex ∧
    (f s).maxHistorySize = s.maxHistorySize

/-- A state change that does not touch what a snapshot records. -/
def ViewNeutral (f : State → State) : Prop := ∀ s, stateView (f s) = stateView s

/-- The shape of a mutating method: a change of the editor state, `saveState`
with a label, then clean-up such as `closeModal`. -/
structure Commit where
  change : State → State
  label : JSString
  finish : State → State

/-- Running a snapshot-producing action. -/
def Commit.apply (c : Commit) (s : State) : State :=
  c.finish (saveState (c.change s) c.label)

/-- The change and the clean-up leave the history alone, and the clean-up
leaves alone what the snapshot recorded. -/
def Commit.WellFormed (c : Commit) : Prop :=
  HistoryNeutral c.change ∧ HistoryNeutral c.finish ∧ ViewNeutral c.finish

/-- The state after a sequence of snapshot-producing actions. -/
def commitAll (s : State) (cs : List Commit) : State :=
  cs.foldl (fun acc c => c.apply acc) s

/-- The states passed through: the start, then the state after each action. -/
def commitTrace : State → List Commit → List State
  | s, [] => [s]
  | s, c :: rest => s :: commitTrace (c.apply s) rest

/-! ## Example sessions -/

/-- A left-button mouse event at canvas position `(x, y)`, the canvas sitting at
the origin of the viewport, no modifier key held. -/
def mouseAt (x y : Int) : MouseEvent :=
  { clientX := x, clientY := y, rectLeft := 0, rectTop := 0, button := 0,
    ctrlKey := false, metaKey := false, shiftKey := false }

/-- The events of a click at `(x, y)`: button down, button up, click. -/
def clickAt (x y : Int) : List Action :=
  [Action.mouseDown (mouseAt x y), Action.mouseUp, Action.canvasClick (mouseAt x y)]

/-- Loading an 800 by 600 image shown at full size. -/
def loadDemoImage : Action := Action.imageLoaded { width := 800, height := 600 } 800 600

/-- A session: load an image, then place the unprefixed points `1` at
`(100, 100)` and `2` at `(200, 200)`. -/
def sessionTwoPoints : List Action :=
  [loadDemoImage] ++ clickAt 100 100 ++ [Action.addPoint [] "1".toList] ++
    clickAt 200 200 ++ [Action.addPoint [] "2".toList]

/-- The state at the end of `sessionTwoPoints`, default settings. -/
def stateTwoPoints : State := run (initialState defaultSettings) sessionTwoPoints

/-- The state of `stateTwoPoints` after a further click on empty space at
`(300, 300)`: the add-point form is open for that location. -/
def stateTwoPointsPending : State := run stateTwoPoints (clickAt 300 300)

/-- A session on a canvas 20 wide and 20 high: place point `1` at `(10, 10)`
and press the button on it, which starts a drag. -/
def sessionTinyDrag : List Action :=
  [Action.imageLoaded { width := 20, height := 20 } 20 20] ++ clickAt 10 10 ++
    [Action.addPoint [] "1".toList, Action.mouseDown (mouseAt 10 10)]

/-- The state at the end of `sessionTinyDrag`. -/
def stateTinyDrag : State := run (initialState defaultSettings) sessionTinyDrag

/-- A session on the 800 by 600 canvas: place point `1` at `(100, 100)` and
press the button on it, which starts a drag. -/
def sessionDrag : List Action :=
  [loadDemoImage] ++ clickAt 100 100 ++
    [Action.addPoint [] "1".toList, Action.mouseDown (mouseAt 100 100)]

/-- The state at the end of `sessionDrag`. -/
def stateDrag : State := run (initialState defaultSettings) sessionDrag

/-- The bounds a drag keeps a point in: each coordinate is at least 15, and at
most the extent minus 15 when the extent is at least 30. -/
def Clamped (width height : Int) (p : Point) : Prop :=
  15 ≤ p.x ∧ 15 ≤ p.y ∧ (30 ≤ width → p.x ≤ width - 15) ∧ (30 ≤ height → p.y ≤ height - 15)

instance Clamped.decidable (width height : Int) (p : Point) : Decidable (Clamped width height p) := by
  unfold Clamped
  exact inferInstance

/-- A session with the prefixes `LOC` and `LOCAL`: place `LOC-1` at
`(100, 100)` and `LOCAL-1` at `(200, 200)`. -/
def sessionLocLocal : List Action :=
  [loadDemoImage, Action.addPrefix "LOC".toList, Action.addPrefix "LOCAL".toList] ++
    clickAt 100 100 ++ [Action.addPoint "LOC".toList "1".toList] ++
    clickAt 200 200 ++ [Action.addPoint "LOCAL".toList "1".toList]

/-- The state at the end of `sessionLocLocal`. -/
def stateLocLocal : State := run (initialState defaultSettings) sessionLocLocal

/-- The state of `stateTwoPoints` after the prefix `A` is added. -/
def stateTwoPointsPrefixA : State := step stateTwoPoints (Action.addPrefix "A".toList)

/-- The settings with a history of capacity 2. -/
def smallHistory : Settings := { defaultSettings with historySize := 2 }

/-- Action A: place point `1` at `(100, 100)`, after the image load. -/
def sessionA : List Action :=
  [loadDemoImage] ++ clickAt 100 100 ++ [Action.addPoint [] "1".toList]

/-- Action B after A: place point `2` at `(200, 200)`. -/
def sessionAB : List Action :=
  sessionA ++ clickAt 200 200 ++ [Action.addPoint [] "2".toList]

/-- Action C after A and B: place point `3` at `(300, 300)`. -/
def sessionABC : List Action :=
  sessionAB ++ clickAt 300 300 ++ [Action.addPoint [] "3".toList]

/-- The state immediately after A, history capacity 2. -/
def stateAfterA : State := run (initialState smallHistory) sessionA

/-- The state immediately after B, history capacity 2. -/
def stateAfterB : State := run (initialState smallHistory) sessionAB

/-- The state immediately after C, history capacity 2. -/
def stateAfterC : State := run (initialState smallHistory) sessionABC

/-- A snapshot-producing action in the shape of a successful `addPoint`: append
a new point object, select it, snapshot, close the form. -/
def placePoint (id : JSString) (x y : Int) : Commit :=
  { change := fun s =>
      { s with heap := s.heap ++ [{ point_id := id, x := x, y := y }],
               points := s.points ++ [s.heap.length],
               selectedPoints := [s.heap.length] }
    label := "Add point ".toList ++ id
    finish := closeModal }

/-- The actions A, B, C as snapshot-producing actions. -/
def commitsABC : List Commit :=
  [placePoint "1".toList 100 100, placePoint "2".toList 200 200, placePoint "3".toList 300 300]

/-- A session with the prefix `LOC`: place `LOC-1` at `(100, 100)`. -/
def sessionLoc1 : List Action :=
  [loadDemoImage, Action.addPrefix "LOC".toList] ++ clickAt 100 100 ++
    [Action.addPoint "LOC".toList "1".toList]

/-- The state at the end of `sessionLoc1`. -/
def stateLoc1 : State := run (initialState defaultSettings) sessionLoc1

/-- A session without prefixes: place the point `5` at `(100, 100)`. -/
def sessionFive : List Action :=
  [loadDemoImage] ++ clickAt 100 100 ++ [Action.addPoint [] "5".toList]

/-- The state at the end of `sessionFive`. -/
def stateFive : State := run (initialState defaultSettings) sessionFive

/-- A right-button event at canvas position `(x, y)`. -/
def rightButtonAt (x y : Int) : MouseEvent := { mouseAt x y with button := 2 }

/-- The state of `stateTwoPoints` after a right click on point `1`: the context
menu is open for that point. -/
def stateMenuOpen : State := step stateTwoPoints (Action.rightClick (rightButtonAt 100 100))

/-- The state of `stateTwoPoints` after point `1` was handed to `editPoint`. -/
def stateEditing : State := editPoint stateTwoPoints (some 0)

/-- The state of `stateTwoPoints` after select-all. -/
def stateAllSelected : State := selectAll stateTwoPoints

/-! ## The uniqueness invariant -/

/-- The `point_id` of the object behind a reference. -/
def idAt (heap : List Point) (r : Nat) : JSString :=
  (heap.getD r { point_id := [], x := 0, y := 0 }).point_id

/-- The invariant behind ID uniqueness: every entry of the point list is an
allocated object, the `point_id`s along the point list are pairwise distinct,
and so are those of every history entry. -/
def HeapWellFormed (heap : List Point) (points : List Nat) (history : List HistoryEntry) : Prop :=
  (∀ r : Nat, r ∈ points → r < heap.length) ∧ (points.map (idAt heap)).Nodup ∧
    ∀ e ∈ history, (e.points.map Point.point_id).Nodup

/-- The invariant of a state. -/
def State.Inv (s : State) : Prop := HeapWellFormed s.heap s.points s.history

instance HeapWellFormed.decidable (heap : List Point) (points : List Nat)
    (history : List HistoryEntry) : Decidable (HeapWellFormed heap points history) := by
  unfold HeapWellFormed
  exact inferInstance

/-- Decimal digit characters. -/
def isDecDigit (c : Char) : Prop := 48 ≤ c.toNat ∧ c.toNat ≤ 57

instance isDecDigit.decidable (c : Char) : Decidable (isDecDigit c) := by
  unfold isDecDigit
  exact inferInstance

/-! ## CSV export -/

/-- The line terminator written after the header and after every row. -/
def newline : Char := Char.ofNat 10

/-- The method `fields.join(sep)` on an array of strings. -/
def arrayJoin (sep : JSString) : List JSString → JSString
  | [] => []
  | [a] => a
  | a :: b :: rest => a ++ sep ++ arrayJoin sep (b :: rest)

/-- The text `join` writes for a coordinate: `String(v)`. -/
def coordText (v : Int) : JSString := numberToString (toDouble v)

/-- The text of `Math.round(v * (num / den))` as `join` writes it, in double
arithmetic: the quotient is rounded to a double, then the product is. -/
def scaledText (v num den : Int) : JSString :=
  numberText
    (Double.round (Double.mul (Double.ofInt v) (Double.div (Double.ofInt num) (Double.ofInt den))))

/-- The array `headers` of `exportCSV`. -/
def csvHeaders (settings : Settings) : List JSString :=
  let headers := ["point_id".toList, "x".toList, "y".toList]
  let headers1 :=
    if settings.includePointType = true then headers ++ ["point_type".toList] else headers
  if settings.includeOriginalCoords = true then
    headers1 ++ ["original_x".toList, "original_y".toList]
  else headers1

/-- The array `row` built by `exportCSV` for one point.  Reading `width` of a
missing image throws: `none`. -/
def csvRow (s : State) (point : Point) : Option (List JSString) :=
  let pointType :=
    if includesDash point.point_id then splitDash0 point.point_id else "POINT".toList
  let row := [point.point_id, coordText point.x, coordText point.y]
  let row1 := if s.settings.includePointType = true then row ++ [pointType] else row
  if s.settings.includeOriginalCoords = true then
    match s.currentImage with
    | none => none
    | some image =>
      some (row1 ++ [scaledText point.x image.width s.canvasWidth,
                     scaledText point.y image.height s.canvasHeight])
  else some row1

/-- The method `exportCSV()`: the text handed to the download, `none` when
nothing is exported. -/
def exportCSV (s : State) : Option JSString :=
  if s.points.length = 0 then none
  else
    let csv := arrayJoin s.settings.csvDelimiter (csvHeaders s.settings) ++ [newline]
    s.points.foldl
      (fun acc r =>
        acc.bind (fun text =>
          (csvRow s (s.deref r)).map
            (fun row => text ++ (arrayJoin s.settings.csvDelimiter row ++ [newline]))))
      (some csv)

/-! ## CSV content, in the words of the specification -/

/-- The header fields: `point_id`, `x`, `y`, then `point_type` if configured,
then `original_x`, `original_y` if configured. -/
def csvHeaderSpec (settings : Settings) : List JSString :=
  ["point_id".toList, "x".toList, "y".toList] ++
    (if settings.includePointType = true then ["point_type".toList] else []) ++
    (if settings.includeOriginalCoords = true then
      ["original_x".toList, "original_y".toList] else [])

/-- The fields of the row of a point: `point_id`, `x`, `y`, then (if configured)
the namespace prefix or `POINT` for an unprefixed point, then (if configured)
the original coordinates written by `original`. -/
def csvRowSpec (settings : Settings) (original : Point → List JSString) (p : Point) :
    List JSString :=
  [p.point_id, coordText p.x, coordText p.y] ++
    (if settings.includePointType = true then
      [if includesDash p.point_id then namespaceOf p.point_id else "POINT".toList]
     else []) ++
    (if settings.includeOriginalCoords = true then original p else [])

/-- The original coordinates as exactly rounded quotients:
`round(x * originalWidth / displayWidth)` and
`round(y * originalHeight / displayHeight)`. -/
def originalExact (originalWidth originalHeight displayWidth displayHeight : Int)
    (p : Point) : List JSString :=
  [coordText (round ((p.x : ℚ) * originalWidth / displayWidth)),
   coordText (round ((p.y : ℚ) * originalHeight / displayHeight))]

/-- The original coordinates in double arithmetic:
`Math.round(x * (originalWidth / displayWidth))` and
`Math.round(y * (originalHeight / displayHeight))`, where the quotient and the
product are each rounded to the nearest double. -/
def originalDoubles (originalWidth originalHeight displayWidth displayHeight : Int)
    (p : Point) : List JSString :=
  [scaledText p.x originalWidth displayWidth, scaledText p.y originalHeight displayHeight]

/-! ## Prefix registry, in the words of the specification -/

/-- The raw prefix trimmed, upper-cased and stripped of every character outside
`A-Z` and `0-9`. -/
def normalizedPrefix (raw : JSString) : JSString :=
  (toUpperCase (trim raw)).filter isUpperAlnum

/-- A string of 1 to 10 characters from `A-Z0-9`. -/
def ValidPrefix (p : JSString) : Prop :=
  1 ≤ p.length ∧ p.length ≤ 10 ∧ ∀ c ∈ p, isUpperAlnum c = true

instance ValidPrefix.decidable (p : JSString) : Decidable (ValidPrefix p) := by
  unfold ValidPrefix
  exact inferInstance

/-- Every prefix of the registry and of every history entry is valid. -/
def RegistryValid (prefixes : List JSString) (history : List HistoryEntry) : Prop :=
  (∀ p ∈ prefixes, ValidPrefix p) ∧ ∀ e ∈ history, ∀ p ∈ e.prefixes, ValidPrefix p

/-! ## Example sessions: selection, export and gestures -/

/-- A left-button event at canvas position `(x, y)` with Shift held. -/
def shiftAt (x y : Int) : MouseEvent := { mouseAt x y with shiftKey := true }

/-- The state of `stateTwoPoints` while a selection box is drawn from
`(250, 250)` back to `(50, 50)`. -/
def stateBoxSelecting : State :=
  run stateTwoPoints [Action.mouseDown (mouseAt 250 250), Action.mouseMove (mouseAt 50 50)]

/-- The settings of the export example: point type on, original coordinates
off, comma as delimiter. -/
def exportSettings : Settings := { defaultSettings with includeOriginalCoords := false }

/-- A session with the export settings and the prefix `LOC`: place `LOC-1` at
`(10, 20)`. -/
def sessionExport : List Action :=
  [Action.applySettings exportSettings, loadDemoImage, Action.addPrefix "LOC".toList] ++
    clickAt 10 20 ++ [Action.addPoint "LOC".toList "1".toList]

/-- The state at the end of `sessionExport`. -/
def stateExport : State := run (initialState defaultSettings) sessionExport

/-- A session with the default settings on a 1200 by 900 image shown 800 wide
and 600 high: place the point `1` at `(11, 21)`. -/
def sessionScaled : List Action :=
  [Action.imageLoaded { width := 1200, height := 900 } 800 600] ++ clickAt 11 21 ++
    [Action.addPoint [] "1".toList]

/-- The state at the end of `sessionScaled`. -/
def stateScaled : State := run (initialState defaultSettings) sessionScaled

/-- The state of `stateLocLocal` with the filter `LOC` active: `LOCAL-1` is
hidden. -/
def stateLocFiltered : State := step stateLocLocal (Action.setFilter "LOC".toList)

/-- A drag that is given up: point `1` is dragged from `(100, 100)` to
`(150, 150)`, Escape is pressed while the button is down (`closeModal`,
`deselectAll`, `hideContextMenu`), and the button is released; the click event
that ends the gesture selects the point again. -/
def sessionAbandonedDrag : List Action :=
  sessionDrag ++
    [Action.mouseMove (mouseAt 150 150), Action.closeModal, Action.deselectAll,
     Action.hideContextMenu, Action.mouseUp, Action.canvasClick (mouseAt 150 150)]

/-- The state at the end of `sessionAbandonedDrag`. -/
def stateAbandonedDrag : State := run (initialState defaultSettings) sessionAbandonedDrag

/-- The state of `stateDrag` after the pointer moved to `(150, 150)`: point `1`
is being dragged and sits at `(150, 150)`. -/
def stateDragged : State := step stateDrag (Action.mouseMove (mouseAt 150 150))

/-- The label `saveState` is given by `onMouseUp` for `n` selected points. -/
def moveLabel (n : Nat) : JSString :=
  "Move ".toList ++ natToString n ++ " point(s)".toList

/-! ## ID allocation rule, in the words of the specification -/

/-- The suffix is an integer: a non-empty run of decimal digits. -/
def isInteger (t : JSString) : Bool := !t.isEmpty && t.all (fun c => decide (isDecDigit c))

/-- The integers among the suffixes of the ids of the namespace `ns`. -/
def namespaceIntegers (ids : List JSString) (ns : JSString) : List Nat :=
  (ids.filter (fun id => namespaceOf id = ns)).filterMap
    (fun id => if isInteger (idSuffix id) then some (digitsValue 10 (idSuffix id)) else none)

/-- The next ID of a namespace: `max(parsed) + 1`, and `1` when no suffix is an
integer. -/
def allocationRule (ids : List JSString) (ns : JSString) : Nat :=
  match namespaceIntegers ids ns with
  | [] => 1
  | x :: rest => rest.foldl max x + 1

/-! ## Example sessions: numeric ids and scaled export -/

/-- A session without prefixes: place the points `12abc`, `0x1F`, `abc` and
`007`. -/
def sessionMixedIds : List Action :=
  [loadDemoImage] ++ clickAt 100 100 ++ [Action.addPoint [] "12abc".toList] ++
    clickAt 200 200 ++ [Action.addPoint [] "0x1F".toList] ++
    clickAt 300 300 ++ [Action.addPoint [] "abc".toList] ++
    clickAt 400 400 ++ [Action.addPoint [] "007".toList]

/-- The state at the end of `sessionMixedIds`. -/
def stateMixedIds : State := run (initialState defaultSettings) sessionMixedIds

/-- A session without prefixes: place the point `9007199254740992` (2 to the
power 53) at `(100, 100)`. -/
def sessionLargeId : List Action :=
  [loadDemoImage] ++ clickAt 100 100 ++ [Action.addPoint [] "9007199254740992".toList]

/-- The state at the end of `sessionLargeId`. -/
def stateLargeId : State := run (initialState defaultSettings) sessionLargeId

/-- The state of `stateLargeId` after its point is duplicated. -/
def stateLargeIdDuplicated : State := step stateLargeId (Action.duplicatePoint (some 0))

/-- A session with the default settings on a 3024 by 3024 image shown 320 wide
and 320 high: place the point `1` at `(50, 50)`. -/
def sessionPhoto : List Action :=
  [Action.imageLoaded { width := 3024, height := 3024 } 320 320] ++ clickAt 50 50 ++
    [Action.addPoint [] "1".toList]

/-- The state at the end of `sessionPhoto`. -/
def statePhoto : State := run (initialState defaultSettings) sessionPhoto

/-- The state of `stateTwoPoints` with a click pending at the fractional
position `(301 / 2, 1502 / 5)`. -/
def stateFractionalClick : State :=
  { stateTwoPoints with
    pendingClick := some ({ num := 301, den := 2, den_nz := by decide, reduced := by decide },
                          { num := 1502, den := 5, den_nz := by decide, reduced := by decide }) }

/-! ## Auxiliary facts: strings -/

theorem filter_dropWhile_disjoint (p q : Char → Bool) (h : ∀ c, p c = true → q c = false)
    (l : List Char) : (l.dropWhile p).filter q = l.filter q := by
  induction l with
  | nil => rfl
  | cons a l ih =>
    by_cases hp : p a = true
    · simp [List.dropWhile_cons, hp, List.filter_cons, h a hp, ih]
    · simp [List.dropWhile_cons, hp]

theorem isAlnum_of_whitespace (c : Char) (h : isJsWhitespace c = true) : isAlnum c = false := by
  unfold isJsWhitespace at h
  unfold isAlnum
  simp only [Bool.or_eq_true, Bool.and_eq_true, beq_iff_eq, decide_eq_true_eq] at h
  simp only [Bool.or_eq_false_iff, Bool.and_eq_false_iff, decide_eq_false_iff_not]
  omega

theorem filter_isAlnum_trim (s : JSString) : (trim s).filter isAlnum = s.filter isAlnum := by
  unfold trim
  rw [List.filter_reverse, filter_dropWhile_disjoint _ _ isAlnum_of_whitespace,
    List.filter_reverse, List.reverse_reverse,
    filter_dropWhile_disjoint _ _ isAlnum_of_whitespace]

/-! ## Failed `addPoint` -/

/-- C2: a failed `addPoint` changes nothing.  If the raw id cleaned of
non-alphanumeric characters is empty, or no point is being edited and a point
with the computed `point_id` already exists, `addPoint` returns the state it was
given: point list, selection, history entries and `historyIndex` included. -/
theorem addPoint_failed_unchanged (s : State) (pfx rawId : JSString)
    (h : rawId.filter isAlnum = [] ∨
      (s.editingPoint = none ∧ makePointId pfx (rawId.filter isAlnum) ∈ s.pointIds)) :
    addPoint s pfx rawId = s := by
  unfold addPoint
  simp only [filter_isAlnum_trim]
  split
  · rfl
  · split
    · rfl
    · rcases h with h | ⟨hedit, hmem⟩
      · simp_all
      · rw [hedit]
        simp only
        have : (s.points.any fun p => decide ((s.deref p).point_id
            = makePointId pfx (rawId.filter isAlnum))) = true := by
          simp only [State.pointIds, List.mem_map] at hmem
          obtain ⟨r, hr, hid⟩ := hmem
          simp only [List.any_eq_true, decide_eq_true_eq]
          exact ⟨r, hr, hid⟩
        rw [if_pos this]

/-- Witness of `addPoint_failed_unchanged`: with the points `1` and `2` placed
and the form open for a new location, submitting ` 2 ` (a duplicate) and
submitting `--` (nothing alphanumeric) both leave the state as it is. -/
theorem addPoint_failed_unchanged_witness :
    stateTwoPointsPending.pendingClick = some (300, 300) ∧
    stateTwoPointsPending.editingPoint = none ∧
    makePointId [] (" 2 ".toList.filter isAlnum) ∈ stateTwoPointsPending.pointIds ∧
    addPoint stateTwoPointsPending [] " 2 ".toList = stateTwoPointsPending ∧
    addPoint stateTwoPointsPending "LOC".toList "--".toList = stateTwoPointsPending :=
  ⟨by decide, by decide, by decide,
    addPoint_failed_unchanged stateTwoPointsPending [] " 2 ".toList
      (Or.inr ⟨by decide, by decide⟩),
    addPoint_failed_unchanged stateTwoPointsPending "LOC".toList "--".toList
      (Or.inl (by decide))⟩

/-! ## Auxiliary facts: history -/

theorem map_getD_append_range' (d : Point) (m l : List Point) :
    (List.range' l.length m.length).map (fun r => (l ++ m).getD r d) = m := by
  induction m generalizing l with
  | nil => rfl
  | cons a m ih =>
    have h1 : (l ++ a :: m).getD l.length d = a := by
      rw [List.getD_eq_getElem?_getD, List.getElem?_append_right (le_refl _)]
      simp
    have h2 := ih (l ++ [a])
    simp only [List.length_append, List.length_singleton, List.append_assoc,
      List.singleton_append] at h2
    simp only [List.length_cons, List.range'_succ, List.map_cons, h1, h2]

theorem restoreState_pointValues (s : State) (e : HistoryEntry) :
    (restoreState s e).pointValues = e.points := by
  simp only [State.pointValues, restoreState]
  exact map_getD_append_range' _ e.points s.heap

theorem saveState_eq (s : State) (action : JSString) :
    saveState s action = { s with history := (saveState s action).history,
                                  historyIndex := ((saveState s action).history.length : Int) - 1 } := by
  unfold saveState
  simp only
  split <;> rfl

theorem saveState_history (s : State) (action : JSString) :
    (saveState s action).history
      = if ((pushedHistory s action).length : Int) > s.maxHistorySize then
          arraySliceFrom (pushedHistory s action) (-s.maxHistorySize)
        else pushedHistory s action := by
  unfold saveState
  simp only
  split <;> rfl

theorem saveState_pointValues (s : State) (action : JSString) :
    (saveState s action).pointValues = s.pointValues := by
  rw [saveState_eq]
  rfl

theorem saveState_historyIndex (s : State) (action : JSString) :
    (saveState s action).historyIndex = ((saveState s action).history.length : Int) - 1 := by
  rw [saveState_eq]

theorem arraySlice_zero {α : Type} (a : List α) (stop : Int) (h : -1 ≤ stop - 1)
    (h2 : stop ≤ a.length) : arraySlice a 0 stop = a.take stop.toNat := by
  unfold arraySlice relIndex
  have h0 : ¬ (stop < 0) := by omega
  simp only [h0, if_false, lt_self_iff_false, Int.toNat_zero, Nat.zero_min, List.drop_zero]
  congr 1
  omega

/-! ## History navigation -/

/-- C4: `undo` is a complete no-op when `historyIndex <= 0`; otherwise it
decrements `historyIndex` by one and the point list (by value) and the prefix
set become exactly those of the entry at the new index.  `redo` is a complete
no-op when `historyIndex >= history.length - 1`; otherwise it increments
`historyIndex` by one and restores the entry there.  Neither changes the
history entries. -/
theorem history_navigation (s : State) :
    (s.historyIndex ≤ 0 → undo s = s) ∧
    (∀ e, 0 < s.historyIndex → arrayGet s.history (s.historyIndex - 1) = some e →
      (undo s).historyIndex = s.historyIndex - 1 ∧ (undo s).pointValues = e.points ∧
      (undo s).prefixes = e.prefixes) ∧
    ((s.history.length : Int) - 1 ≤ s.historyIndex → redo s = s) ∧
    (∀ e, s.historyIndex < (s.history.length : Int) - 1 →
      arrayGet s.history (s.historyIndex + 1) = some e →
      (redo s).historyIndex = s.historyIndex + 1 ∧ (redo s).pointValues = e.points ∧
      (redo s).prefixes = e.prefixes) ∧
    (undo s).history = s.history ∧ (redo s).history = s.history := by
  refine ⟨?_, ?_, ?_, ?_, ?_, ?_⟩
  · intro h
    unfold undo
    rw [if_neg (by omega)]
  · intro e hpos he
    unfold undo
    rw [if_pos hpos]
    simp only [he]
    exact ⟨rfl, restoreState_pointValues _ e, rfl⟩
  · intro h
    unfold redo
    rw [if_neg (by omega)]
  · intro e hlt he
    unfold redo
    rw [if_pos hlt]
    simp only [he]
    exact ⟨rfl, restoreState_pointValues _ e, rfl⟩
  · unfold undo
    split
    · simp only
      split <;> rfl
    · rfl
  · unfold redo
    split
    · simp only
      split <;> rfl
    · rfl

/-- Witness of `history_navigation`: in the initial state undo and redo are
no-ops; after the points `1` and `2` were placed, undo moves the index from 2
to 1 and restores the entry recorded after point `1`, and redo moves it back. -/
theorem history_navigation_witness :
    undo (initialState defaultSettings) = initialState defaultSettings ∧
    redo (initialState defaultSettings) = initialState defaultSettings ∧
    stateTwoPoints.historyIndex = 2 ∧
    ((undo stateTwoPoints).historyIndex = stateTwoPoints.historyIndex - 1 ∧
      (undo stateTwoPoints).pointValues = [{ point_id := "1".toList, x := 100, y := 100 }] ∧
      (undo stateTwoPoints).prefixes = []) ∧
    (redo (undo stateTwoPoints)).historyIndex = (undo stateTwoPoints).historyIndex + 1 :=
  ⟨(history_navigation (initialState defaultSettings)).1 (by decide),
    (history_navigation (initialState defaultSettings)).2.2.1 (by decide),
    by decide,
    (history_navigation stateTwoPoints).2.1
      { points := [{ point_id := "1".toList, x := 100, y := 100 }], selectedPoints := [0],
        prefixes := [], action := "Add point 1".toList }
      (by decide) (by decide),
    ((history_navigation (undo stateTwoPoints)).2.2.2.1
      { points := [{ point_id := "1".toList, x := 100, y := 100 },
                   { point_id := "2".toList, x := 200, y := 200 }],
        selectedPoints := [1], prefixes := [], action := "Add point 2".toList }
      (by decide) (by decide)).1⟩

/-! ## Snapshots -/

/-- C5: a snapshot taken after an undo prunes the redo branch.  When
`historyIndex = i` with `-1 <= i < history.length - 1`, the history after
`saveState` is the old entries `0..i` followed by the new snapshot when these
`i + 2` entries fit the size limit, and a final segment of that list otherwise;
`historyIndex` is at the last entry and a following `redo` is a no-op. -/
theorem saveState_prunes_redo (s : State) (action : JSString)
    (hlo : -1 ≤ s.historyIndex) (hhi : s.historyIndex < (s.history.length : Int) - 1) :
    (s.historyIndex + 2 ≤ s.maxHistorySize →
      (saveState s action).history
        = s.history.take (s.historyIndex + 1).toNat ++ [snapshot s action]) ∧
    (∃ k, (saveState s action).history
        = (s.history.take (s.historyIndex + 1).toNat ++ [snapshot s action]).drop k) ∧
    (saveState s action).historyIndex = ((saveState s action).history.length : Int) - 1 ∧
    redo (saveState s action) = saveState s action := by
  have hp : pushedHistory s action
      = s.history.take (s.historyIndex + 1).toNat ++ [snapshot s action] := by
    unfold pushedHistory
    rw [if_pos hhi, arraySlice_zero _ _ (by omega) (by omega)]
  have hlen : ((pushedHistory s action).length : Int) = s.historyIndex + 2 := by
    rw [hp, List.length_append, List.length_take, List.length_singleton]
    omega
  refine ⟨?_, ?_, saveState_historyIndex s action, ?_⟩
  · intro hfit
    rw [saveState_history, if_neg (by omega), hp]
  · rw [saveState_history, hp]
    split
    · exact ⟨_, rfl⟩
    · exact ⟨0, rfl⟩
  · unfold redo
    rw [if_neg]
    have := saveState_historyIndex s action
    omega

/-- Witness of `saveState_prunes_redo`: after the points `1` and `2` were placed
and one undo, the index is 1 of 3 entries; a snapshot then leaves the entries 0
and 1 followed by the new one, and redo does nothing. -/
theorem saveState_prunes_redo_witness :
    (undo stateTwoPoints).historyIndex = 1 ∧ (undo stateTwoPoints).history.length = 3 ∧
    (saveState (undo stateTwoPoints) "Move 1 point(s)".toList).history
      = (undo stateTwoPoints).history.take 2
          ++ [snapshot (undo stateTwoPoints) "Move 1 point(s)".toList] ∧
    redo (saveState (undo stateTwoPoints) "Move 1 point(s)".toList)
      = saveState (undo stateTwoPoints) "Move 1 point(s)".toList :=
  have h := saveState_prunes_redo (undo stateTwoPoints) "Move 1 point(s)".toList
    (by decide) (by decide)
  ⟨by decide, by decide, h.1 (by decide), h.2.2.2⟩

theorem relIndex_le (len : Nat) (k : Int) : relIndex len k ≤ len := by
  unfold relIndex
  split <;> omega

theorem relIndex_lt (len : Nat) (k : Int) (h : k < len) (hlen : 0 < len) :
    relIndex len k < len := by
  unfold relIndex
  split <;> omega

theorem pushedHistory_length_le (s : State) (action : JSString) :
    (pushedHistory s action).length ≤ s.history.length + 1 := by
  unfold pushedHistory arraySlice
  split
  · simp only [List.length_append, List.length_drop, List.length_take, List.length_singleton]
    have := relIndex_le s.history.length (s.historyIndex + 1)
    omega
  · simp

theorem pushedHistory_of_full (s : State) (action : JSString)
    (h : s.history.length < (pushedHistory s action).length) :
    pushedHistory s action = s.history ++ [snapshot s action] := by
  unfold pushedHistory arraySlice at *
  split
  · rename_i hlt
    rw [if_pos hlt] at h
    simp only [List.length_append, List.length_drop, List.length_take,
      List.length_singleton] at h
    by_cases hzero : s.history.length = 0
    · have hnil : s.history = [] := List.length_eq_zero.mp hzero
      simp [hnil]
    · have hpos : 0 < s.history.length := by omega
      have := relIndex_lt s.history.length (s.historyIndex + 1) (by omega) hpos
      omega
  · rfl

/-- C6: the history is bounded.  For a maximum size `N >= 1` and a history of
length at most `N`, the history after `saveState` has length at most `N` and
`historyIndex` is its length minus one; when the push exceeds `N`, the pushed
history is the whole old history followed by the snapshot, and the entries kept
are exactly its last `N` entries, in order. -/
theorem saveState_bounded (s : State) (action : JSString) (N : Nat) (hN : 1 ≤ N)
    (hmax : s.maxHistorySize = N) (hlen : s.history.length ≤ N) :
    (saveState s action).history.length ≤ N ∧
    (saveState s action).historyIndex = ((saveState s action).history.length : Int) - 1 ∧
    (N < (pushedHistory s action).length →
      pushedHistory s action = s.history ++ [snapshot s action] ∧
      (saveState s action).history
        = (s.history ++ [snapshot s action]).drop (s.history.length + 1 - N) ∧
      (saveState s action).history.length = N) := by
  have hpl := pushedHistory_length_le s action
  have hhist := saveState_history s action
  rw [hmax] at hhist
  have hdrop : arraySliceFrom (pushedHistory s action) (-(N : Int))
      = (pushedHistory s action).drop ((pushedHistory s action).length - N) := by
    unfold arraySliceFrom relIndex
    rw [if_pos (by omega)]
    congr 1
    omega
  rw [hdrop] at hhist
  refine ⟨?_, saveState_historyIndex s action, ?_⟩
  · rw [hhist]
    split
    · rw [List.length_drop]
      omega
    · omega
  · intro hex
    have hfull := pushedHistory_of_full s action (by omega)
    rw [if_pos (by omega)] at hhist
    refine ⟨hfull, ?_, ?_⟩
    · rw [hhist, hfull]
      simp
    · rw [hhist, List.length_drop]
      omega

/-- Witness of `saveState_bounded`: with capacity 2 and the two entries held
after B, a further snapshot keeps two entries, the newer old one and the new
one. -/
theorem saveState_bounded_witness :
    stateAfterB.maxHistorySize = 2 ∧ stateAfterB.history.length = 2 ∧
    (saveState stateAfterB "Move 1 point(s)".toList).history.length ≤ 2 ∧
    (saveState stateAfterB "Move 1 point(s)".toList).history
      = (stateAfterB.history ++ [snapshot stateAfterB "Move 1 point(s)".toList]).drop 1 :=
  have h := saveState_bounded stateAfterB "Move 1 point(s)".toList 2 (by decide)
    (by decide) (by decide)
  ⟨by decide, by decide, h.1, (h.2.2 (by decide)).2.1⟩

/-! ## Reachability of example sessions -/

theorem reachable_run (s : State) (actions : List Action) (hs : Reachable s)
    (h : admissibleRun s actions = true) : Reachable (run s actions) := by
  induction actions generalizing s with
  | nil => exact hs
  | cons a rest ih =>
    simp only [admissibleRun, Bool.and_eq_true] at h
    exact ih (step s a) (Reachable.step a hs h.1) h.2

/-! ## Dragging -/

theorem heapModify_length (heap : List Point) (r : Ref) (f : Point → Point) :
    (heapModify heap r f).length = heap.length := by
  simp [heapModify]

theorem heapModify_getD_eq (heap : List Point) (r : Ref) (f : Point → Point) (d : Point)
    (h : r < heap.length) : (heapModify heap r f).getD r d = f (heap.getD r d) := by
  simp [heapModify, List.getD_eq_getElem?_getD, List.getElem?_modify_eq,
    List.getElem?_eq_getElem h]

theorem heapModify_getD_ne (heap : List Point) (r i : Ref) (f : Point → Point) (d : Point)
    (h : r ≠ i) : (heapModify heap r f).getD i d = heap.getD i d := by
  simp [heapModify, List.getD_eq_getElem?_getD, List.getElem?_modify_ne _ _ h]

theorem dragPoint_clamped (width height deltaX deltaY : Int) (p : Point) :
    Clamped width height (dragPoint width height deltaX deltaY p) := by
  unfold Clamped dragPoint
  simp only
  refine ⟨le_max_left _ _, le_max_left _ _, ?_, ?_⟩
  · intro h
    exact max_le (by omega) (min_le_left _ _)
  · intro h
    exact max_le (by omega) (min_le_left _ _)

theorem dragLoop_clamped (width height deltaX deltaY : Int) (d : Point) (r : Ref)
    (selected : List Ref) (heap : List Point) (hr : r < heap.length)
    (h : r ∈ selected ∨ Clamped width height (heap.getD r d)) :
    Clamped width height
      ((selected.foldl
        (fun heap r => heapModify heap r (dragPoint width height deltaX deltaY)) heap).getD r d) := by
  induction selected generalizing heap with
  | nil =>
    rcases h with h | h
    · simp at h
    · exact h
  | cons a rest ih =>
    simp only [List.foldl_cons]
    apply ih
    · rw [heapModify_length]
      exact hr
    · by_cases hra : a = r
      · right
        subst hra
        rw [heapModify_getD_eq _ _ _ _ hr]
        exact dragPoint_clamped _ _ _ _ _
      · rcases h with h | h
        · left
          rcases List.mem_cons.mp h with h | h
          · exact absurd h.symm hra
          · exact h
        · right
          rw [heapModify_getD_ne _ _ _ _ _ hra]
          exact h

/-- C9, amended: after the pointer-move handler has run in the dragging state,
every selected point has `x >= 15` and `y >= 15`, and, per axis, `x <= width -
15` when the canvas is at least 30 wide and `y <= height - 15` when it is at
least 30 high, whatever the cursor delta. -/
theorem drag_keeps_points_clamped (s : State) (ev : MouseEvent) (r : Ref)
    (himg : s.currentImage.isSome = true) (hdrag : s.isDragging = true)
    (hsel : r ∈ s.selectedPoints) (hobj : r < s.heap.length) :
    Clamped s.canvasWidth s.canvasHeight ((onMouseMove s ev).deref r) := by
  have hlen : s.selectedPoints.length > 0 := List.length_pos_of_mem hsel
  have hnone : ¬ (s.currentImage.isNone = true) := by
    cases hc : s.currentImage <;> simp_all
  unfold onMouseMove
  rw [if_neg hnone]
  simp only [hdrag, hlen, and_self, if_true, State.deref]
  exact dragLoop_clamped _ _ _ _ _ r _ _ hobj (Or.inl hsel)

/-- Witness of `drag_keeps_points_clamped`: on the 800 by 600 canvas, dragging
the point at `(100, 100)` by `(5000, -5000)` leaves it inside the bounds. -/
theorem drag_keeps_points_clamped_witness :
    stateDrag.currentImage.isSome = true ∧ stateDrag.isDragging = true ∧
    0 ∈ stateDrag.selectedPoints ∧ 0 < stateDrag.heap.length ∧
    Clamped stateDrag.canvasWidth stateDrag.canvasHeight
      ((onMouseMove stateDrag (mouseAt 5100 (-4900))).deref 0) :=
  ⟨by decide, by decide, by decide, by decide,
    drag_keeps_points_clamped stateDrag (mouseAt 5100 (-4900)) 0
      (by decide) (by decide) (by decide) (by decide)⟩

/-- C9 as stated fails on a narrow canvas: in a reachable dragging state on a
canvas 20 wide and 20 high, after a pointer move the selected point has
`x = 15` and `y = 15`, above `width - 15 = 5` and `height - 15 = 5`. -/
theorem drag_clamp_counterexample :
    Reachable stateTinyDrag ∧ stateTinyDrag.isDragging = true ∧
    0 ∈ stateTinyDrag.selectedPoints ∧ 0 ∈ stateTinyDrag.points ∧
    stateTinyDrag.canvasWidth = 20 ∧ stateTinyDrag.canvasHeight = 20 ∧
    ((onMouseMove stateTinyDrag (mouseAt 12 10)).deref 0).x = 15 ∧
    ((onMouseMove stateTinyDrag (mouseAt 12 10)).deref 0).y = 15 ∧
    ¬ (((onMouseMove stateTinyDrag (mouseAt 12 10)).deref 0).x ≤ stateTinyDrag.canvasWidth - 15) ∧
    ¬ (((onMouseMove stateTinyDrag (mouseAt 12 10)).deref 0).y ≤ stateTinyDrag.canvasHeight - 15) :=
  ⟨reachable_run _ _ (Reachable.init defaultSettings) (by decide),
    by decide, by decide, by decide, by decide, by decide, by decide, by decide,
    by decide, by decide⟩

/-! ## Prefix removal -/

/-- C10, the code at a failing input: with the points `LOC-1` and `LOCAL-1`,
the confirmed `removePrefix("LOC")` deletes both points, although the namespace
prefix of `LOCAL-1` is `LOCAL`; the prefix set keeps `LOCAL`, and a declined
confirmation changes nothing. -/
theorem removePrefix_deletes_longer_prefix :
    Reachable stateLocLocal ∧
    stateLocLocal.pointIds = ["LOC-1".toList, "LOCAL-1".toList] ∧
    stateLocLocal.prefixes = ["LOC".toList, "LOCAL".toList] ∧
    namespaceOf "LOCAL-1".toList = "LOCAL".toList ∧
    (removePrefix stateLocLocal "LOC".toList true).1.pointIds = [] ∧
    (removePrefix stateLocLocal "LOC".toList true).1.prefixes = ["LOCAL".toList] ∧
    (removePrefix stateLocLocal "LOC".toList false).1 = stateLocLocal :=
  ⟨reachable_run _ _ (Reachable.init defaultSettings) (by decide),
    by decide, by decide, by decide, by decide, by decide, by decide⟩

/-! ## Selection after a restore -/

theorem reachable_stateTwoPoints : Reachable stateTwoPoints :=
  reachable_run _ _ (Reachable.init defaultSettings) (by decide)

/-- C8, the code at a failing input: after placing the points `1` and `2`, an
undo restores a point list made of one fresh object while the selection holds
the object that was live when the snapshot was taken; the selected object is
not in the point list, and `deleteSelected` then removes nothing from it. -/
theorem selection_stale_after_undo :
    Reachable (undo stateTwoPoints) ∧
    (undo stateTwoPoints).selectedPoints = [0] ∧
    (undo stateTwoPoints).points = [2] ∧
    ¬ (∀ r ∈ (undo stateTwoPoints).selectedPoints, r ∈ (undo stateTwoPoints).points) ∧
    (deleteSelected (undo stateTwoPoints) true).points = (undo stateTwoPoints).points ∧
    (deleteSelected (undo stateTwoPoints) true).pointIds = ["1".toList] :=
  ⟨Reachable.step Action.undo reachable_stateTwoPoints rfl,
    by decide, by decide, by decide, by decide, by decide⟩

/-! ## Redo after undo -/

theorem arrayGet_some {α : Type} (a : List α) (i : Int) (e : α) (h : arrayGet a i = some e) :
    0 ≤ i ∧ i < a.length := by
  unfold arrayGet at h
  split at h
  · simp at h
  · have := (List.getElem?_eq_some_iff.mp h).1
    omega

theorem arrayGet_isSome {α : Type} (a : List α) (i : Int) (h0 : 0 ≤ i) (h1 : i < a.length) :
    ∃ e, arrayGet a i = some e := by
  unfold arrayGet
  rw [if_neg (by omega)]
  have hlt : i.toNat < a.length := by omega
  exact ⟨a[i.toNat], List.getElem?_eq_getElem hlt⟩

theorem arrayGet_append_last {α : Type} (l : List α) (x : α) :
    arrayGet (l ++ [x]) (((l ++ [x]).length : Int) - 1) = some x := by
  unfold arrayGet
  rw [if_neg (by simp)]
  have : (((l ++ [x]).length : Int) - 1).toNat = l.length := by simp
  rw [this, List.getElem?_append_right (le_refl _)]
  simp

theorem saveState_current_entry (s : State) (action : JSString)
    (hN : 1 ≤ s.maxHistorySize) :
    arrayGet (saveState s action).history (saveState s action).historyIndex
      = some (snapshot s action) := by
  rw [saveState_historyIndex, saveState_history]
  have hp : ∃ l, pushedHistory s action = l ++ [snapshot s action] := ⟨_, rfl⟩
  obtain ⟨l, hl⟩ := hp
  rw [hl]
  split
  · rename_i hgt
    unfold arraySliceFrom relIndex
    rw [if_pos (by omega)]
    have hk : ((↑(l ++ [snapshot s action]).length + -s.maxHistorySize).toNat) ≤ l.length := by
      simp only [List.length_append, List.length_singleton]
      omega
    rw [List.drop_append_of_le_length hk]
    exact arrayGet_append_last _ _
  · exact arrayGet_append_last _ _

/-- C3, amended: for every state in which undo is available and whose point
list (by value) and prefix set are those recorded in the history entry at
`historyIndex`, as they are right after a snapshot or a restore, `undo`
followed by `redo` yields a state with the same point list (by value), prefix
set, history and `historyIndex`. -/
theorem redo_undo_lossless (s : State) (e : HistoryEntry) (hpos : 0 < s.historyIndex)
    (he : arrayGet s.history s.historyIndex = some e)
    (hpoints : s.pointValues = e.points) (hprefixes : s.prefixes = e.prefixes) :
    (redo (undo s)).pointValues = s.pointValues ∧
    (redo (undo s)).prefixes = s.prefixes ∧
    (redo (undo s)).history = s.history ∧
    (redo (undo s)).historyIndex = s.historyIndex := by
  have hrange := arrayGet_some _ _ _ he
  obtain ⟨e0, he0⟩ := arrayGet_isSome s.history (s.historyIndex - 1) (by omega) (by omega)
  have hundo : undo s = restoreState { s with historyIndex := s.historyIndex - 1 } e0 := by
    unfold undo
    rw [if_pos hpos]
    simp only [he0]
  have hredo : redo (undo s)
      = restoreState { undo s with historyIndex := s.historyIndex } e := by
    unfold redo
    have hidx : (undo s).historyIndex = s.historyIndex - 1 := by rw [hundo]; rfl
    have hhist : (undo s).history = s.history := by rw [hundo]; rfl
    rw [if_pos (by rw [hidx, hhist]; omega)]
    simp only [hidx, hhist, sub_add_cancel, he]
  rw [hredo]
  refine ⟨?_, ?_, ?_, rfl⟩
  · rw [restoreState_pointValues, hpoints]
  · exact hprefixes.symm
  · rw [hundo]
    rfl

/-- Witness of `redo_undo_lossless`: the state after the points `1` and `2`
were placed. -/
theorem redo_undo_lossless_witness :
    0 < stateTwoPoints.historyIndex ∧
    (redo (undo stateTwoPoints)).pointValues = stateTwoPoints.pointValues ∧
    (redo (undo stateTwoPoints)).prefixes = stateTwoPoints.prefixes :=
  have h := redo_undo_lossless stateTwoPoints
    { points := [{ point_id := "1".toList, x := 100, y := 100 },
                 { point_id := "2".toList, x := 200, y := 200 }],
      selectedPoints := [1], prefixes := [], action := "Add point 2".toList }
    (by decide) (by decide) (by decide) (by decide)
  ⟨by decide, h.1, h.2.1⟩

/-- C3 as stated fails: the state reached by placing two points and then adding
the prefix `A` has undo available, and `undo` followed by `redo` loses the
prefix, which no snapshot has recorded. -/
theorem redo_undo_counterexample :
    Reachable stateTwoPointsPrefixA ∧ 0 < stateTwoPointsPrefixA.historyIndex ∧
    stateTwoPointsPrefixA.prefixes = ["A".toList] ∧
    (redo (undo stateTwoPointsPrefixA)).prefixes = [] ∧
    (redo (undo stateTwoPointsPrefixA)).prefixes ≠ stateTwoPointsPrefixA.prefixes :=
  ⟨Reachable.step (Action.addPrefix "A".toList) reachable_stateTwoPoints rfl,
    by decide, by decide, by decide, by decide⟩

/-! ## Undo across an eviction -/

theorem saveState_view (s : State) (action : JSString) :
    stateView (saveState s action) = stateView s := by
  rw [saveState_eq]
  rfl

theorem saveState_maxHistorySize (s : State) (action : JSString) :
    (saveState s action).maxHistorySize = s.maxHistorySize := by
  rw [saveState_eq]

theorem restoreState_view (s : State) (e : HistoryEntry) :
    stateView (restoreState s e) = entryView e := by
  simp only [stateView, entryView, restoreState_pointValues]
  rfl

theorem saveState_at_head (s : State) (action : JSString) (N : Nat)
    (hmax : s.maxHistorySize = N) (hhead : s.historyIndex = (s.history.length : Int) - 1) :
    (saveState s action).history <:+ s.history ++ [snapshot s action] ∧
    ((saveState s action).history.length = min N (s.history.length + 1) ∨ N = 0) := by
  have hp : pushedHistory s action = s.history ++ [snapshot s action] := by
    unfold pushedHistory
    rw [if_neg (by omega)]
  rw [saveState_history, hp, hmax]
  split
  · rename_i hgt
    simp only [List.length_append, List.length_singleton] at hgt
    unfold arraySliceFrom relIndex
    refine ⟨List.drop_suffix _ _, ?_⟩
    by_cases h0 : N = 0
    · exact Or.inr h0
    · left
      rw [if_pos (by omega)]
      simp only [List.length_drop, List.length_append, List.length_singleton]
      omega
  · rename_i hle
    simp only [List.length_append, List.length_singleton] at hle
    refine ⟨List.suffix_refl _, Or.inl ?_⟩
    simp only [List.length_append, List.length_singleton]
    omega

theorem commit_apply_facts (c : Commit) (hc : c.WellFormed) (s : State) :
    (c.apply s).history = (saveState (c.change s) c.label).history ∧
    (c.apply s).historyIndex = (saveState (c.change s) c.label).historyIndex ∧
    (c.apply s).maxHistorySize = s.maxHistorySize ∧
    stateView (c.apply s) = stateView (c.change s) := by
  obtain ⟨h1, h2, h3⟩ := hc
  unfold Commit.apply
  refine ⟨(h2 _).1, (h2 _).2.1, ?_, ?_⟩
  · rw [(h2 _).2.2, saveState_maxHistorySize, (h1 s).2.2]
  · rw [h3, saveState_view]

theorem commitAll_history (N : Nat) (hN : 1 ≤ N) (cs : List Commit)
    (hwf : ∀ c ∈ cs, c.WellFormed) :
    ∀ (s : State) (prev : List (List Point × List Ref × List JSString)),
      s.maxHistorySize = N → s.historyIndex = (s.history.length : Int) - 1 →
      s.history.map entryView <:+ prev ++ [stateView s] →
      s.history.length = min N (prev.length + 1) →
      (commitAll s cs).maxHistorySize = N ∧
      (commitAll s cs).historyIndex = ((commitAll s cs).history.length : Int) - 1 ∧
      (commitAll s cs).history.map entryView <:+ prev ++ (commitTrace s cs).map stateView ∧
      (commitAll s cs).history.length = min N (prev.length + (cs.length + 1)) := by
  induction cs with
  | nil =>
    intro s prev hmax hhead hsuf hlen
    exact ⟨hmax, hhead, hsuf, hlen⟩
  | cons c rest ih =>
    intro s prev hmax hhead hsuf hlen
    have hc : c.WellFormed := hwf c (List.mem_cons_self _ _)
    obtain ⟨a1, a2, a3, a4⟩ := commit_apply_facts c hc s
    obtain ⟨n1, n2, n3⟩ := hc.1 s
    have hsave := saveState_at_head (c.change s) c.label N (by rw [n3, hmax])
      (by rw [n2, n1]; exact hhead)
    rw [n1] at hsave
    have hview : entryView (snapshot (c.change s) c.label) = stateView (c.apply s) := by
      rw [a4]
      rfl
    have step1 : (c.apply s).history.map entryView
        <:+ (prev ++ [stateView s]) ++ [stateView (c.apply s)] := by
      rw [a1]
      have h1 := List.IsSuffix.map entryView hsave.1
      rw [List.map_append, List.map_singleton, hview] at h1
      obtain ⟨pre, hpre⟩ := hsuf
      refine List.IsSuffix.trans h1 ⟨pre, ?_⟩
      rw [← List.append_assoc, hpre]
    have step2 : (c.apply s).history.length = min N ((prev ++ [stateView s]).length + 1) := by
      rw [a1]
      rcases hsave.2 with h | h
      · rw [h, hlen]
        simp only [List.length_append, List.length_singleton]
        omega
      · omega
    have := ih (fun c hc => hwf c (List.mem_cons_of_mem _ hc)) (c.apply s)
      (prev ++ [stateView s]) (by rw [a3, hmax]) (by rw [a2, a1]; exact saveState_historyIndex _ _)
      step1 step2
    simp only [commitAll, List.foldl_cons, commitTrace, List.map_cons, List.length_cons]
    simp only [commitAll, List.append_assoc, List.singleton_append, List.length_append,
      List.length_singleton] at this
    refine ⟨this.1, this.2.1, this.2.2.1, ?_⟩
    rw [this.2.2.2]
    omega

theorem commitTrace_length (cs : List Commit) :
    ∀ s : State, (commitTrace s cs).length = cs.length + 1 := by
  induction cs with
  | nil => intro s; rfl
  | cons c rest ih => intro s; simp [commitTrace, ih]

theorem commitTrace_last (cs : List Commit) :
    ∀ s : State, (commitTrace s cs)[cs.length]? = some (commitAll s cs) := by
  induction cs with
  | nil => intro s; rfl
  | cons c rest ih =>
    intro s
    simp only [commitTrace, List.length_cons, List.getElem?_cons_succ, commitAll,
      List.foldl_cons]
    exact ih (c.apply s)

theorem undo_at_zero (s : State) (h : s.historyIndex ≤ 0) : undo s = s := by
  unfold undo
  rw [if_neg (by omega)]

theorem undo_pos (s : State) (e : HistoryEntry) (hpos : 0 < s.historyIndex)
    (he : arrayGet s.history (s.historyIndex - 1) = some e) :
    undo s = restoreState { s with historyIndex := s.historyIndex - 1 } e := by
  unfold undo
  rw [if_pos hpos]
  simp only [he]

theorem undo_iterate (k : Nat) :
    ∀ s : State, (k : Int) ≤ s.historyIndex → s.historyIndex < s.history.length →
      (Nat.iterate undo k s).historyIndex = s.historyIndex - k ∧
      (Nat.iterate undo k s).history = s.history ∧
      (0 < k → ∀ e, arrayGet s.history (s.historyIndex - k) = some e →
        stateView (Nat.iterate undo k s) = entryView e) := by
  induction k with
  | zero =>
    intro s _ _
    simp
  | succ k ih =>
    intro s hk hlt
    obtain ⟨i1, i2, _⟩ := ih s (by push_cast at hk; omega) hlt
    rw [Function.iterate_succ_apply']
    obtain ⟨e, he⟩ := arrayGet_isSome s.history (s.historyIndex - (k + 1 : Nat))
      (by omega) (by omega)
    have hundo : undo (Nat.iterate undo k s)
        = restoreState { Nat.iterate undo k s with
            historyIndex := (Nat.iterate undo k s).historyIndex - 1 } e := by
      apply undo_pos
      · rw [i1]; push_cast at hk; omega
      · have : (Nat.iterate undo k s).historyIndex - 1 = s.historyIndex - (k + 1 : Nat) := by
          rw [i1]; push_cast; omega
        rw [i2, this, he]
    rw [hundo]
    refine ⟨?_, ?_, ?_⟩
    · show (Nat.iterate undo k s).historyIndex - 1 = _
      rw [i1]; push_cast; omega
    · exact i2
    · intro _ e1 he1
      rw [he] at he1
      rw [restoreState_view]
      exact congrArg entryView (Option.some.inj he1)

/-- C7, amended: with history capacity `N >= 1`, after a baseline snapshot
followed by at least `N - 1` snapshot-producing actions, `N` consecutive undos
restore what was captured immediately after the `(N - 1)`-th action before the
last one (point list by value, selection and prefix set), the `N`-th undo being
a no-op: a history of `N` snapshots allows `N - 1` undo steps. -/
theorem undo_after_eviction (N : Nat) (hN : 1 ≤ N) (s0 : State) (base : JSString)
    (hmax : s0.maxHistorySize = N) (hhist : s0.history = []) (hidx : s0.historyIndex = -1)
    (cs : List Commit) (hwf : ∀ c ∈ cs, c.WellFormed) (hmany : N - 1 ≤ cs.length) :
    Nat.iterate undo N (commitAll (saveState s0 base) cs)
      = Nat.iterate undo (N - 1) (commitAll (saveState s0 base) cs) ∧
    ∃ t, (commitTrace (saveState s0 base) cs)[cs.length - (N - 1)]? = some t ∧
      stateView (Nat.iterate undo N (commitAll (saveState s0 base) cs)) = stateView t := by
  have hs1 : (saveState s0 base).history = [snapshot s0 base] := by
    rw [saveState_history]
    have hp : pushedHistory s0 base = [snapshot s0 base] := by
      unfold pushedHistory
      rw [hhist, hidx]
      simp
    rw [hp, hmax, if_neg (by simp; omega)]
  obtain ⟨f1, f2, f3, f4⟩ := commitAll_history N hN cs hwf (saveState s0 base) []
    (by rw [saveState_maxHistorySize, hmax]) (saveState_historyIndex _ _)
    (by rw [hs1, saveState_view]; exact List.suffix_refl _)
    (by rw [hs1]; simp; omega)
  simp only [List.nil_append, List.length_nil, Nat.zero_add] at f3 f4
  have hlenN : (commitAll (saveState s0 base) cs).history.length = N := by omega
  have hidxN : (commitAll (saveState s0 base) cs).historyIndex = (N : Int) - 1 := by
    rw [f2, hlenN]
  obtain ⟨u1, u2, u3⟩ := undo_iterate (N - 1) (commitAll (saveState s0 base) cs)
    (by rw [hidxN]; omega) (by rw [hidxN, hlenN]; omega)
  have hstop : Nat.iterate undo N (commitAll (saveState s0 base) cs)
      = Nat.iterate undo (N - 1) (commitAll (saveState s0 base) cs) := by
    have hsucc : N = (N - 1) + 1 := by omega
    conv_lhs => rw [hsucc, Function.iterate_succ_apply']
    apply undo_at_zero
    rw [u1, hidxN]
    omega
  refine ⟨hstop, ?_⟩
  rw [hstop]
  have htl := commitTrace_length cs (saveState s0 base)
  have hdrop := List.suffix_iff_eq_drop.mp f3
  rw [List.length_map, List.length_map, hlenN, htl] at hdrop
  by_cases h1 : N = 1
  · subst h1
    refine ⟨commitAll (saveState s0 base) cs, ?_, rfl⟩
    exact commitTrace_last cs (saveState s0 base)
  · have hlt : cs.length - (N - 1) < (commitTrace (saveState s0 base) cs).length := by omega
    refine ⟨(commitTrace (saveState s0 base) cs)[cs.length - (N - 1)],
      List.getElem?_eq_getElem hlt, ?_⟩
    obtain ⟨e0, he0⟩ := arrayGet_isSome (commitAll (saveState s0 base) cs).history
      ((commitAll (saveState s0 base) cs).historyIndex - ((N - 1 : Nat) : Int))
      (by rw [hidxN]; omega) (by rw [hidxN, hlenN]; omega)
    rw [u3 (by omega) e0 he0]
    have hzero : (commitAll (saveState s0 base) cs).historyIndex - ((N - 1 : Nat) : Int) = 0 := by
      rw [hidxN]; omega
    rw [hzero] at he0
    have he0' : (commitAll (saveState s0 base) cs).history[0]? = some e0 := by
      simpa [arrayGet] using he0
    have hm : ((commitAll (saveState s0 base) cs).history.map entryView)[0]?
        = some (entryView e0) := by
      rw [List.getElem?_map, he0']
      rfl
    rw [hdrop, List.getElem?_drop, List.getElem?_map] at hm
    have hidx2 : cs.length + 1 - N + 0 = cs.length - (N - 1) := by omega
    rw [hidx2, List.getElem?_eq_getElem hlt] at hm
    exact (Option.some.inj hm).symm

theorem placePoint_wellFormed (id : JSString) (x y : Int) : (placePoint id x y).WellFormed :=
  ⟨fun _ => ⟨rfl, rfl, rfl⟩, fun _ => ⟨rfl, rfl, rfl⟩, fun _ => rfl⟩

theorem commitsABC_wellFormed : ∀ c ∈ commitsABC, c.WellFormed := by
  intro c hc
  simp only [commitsABC, List.mem_cons, List.mem_singleton, List.not_mem_nil, or_false] at hc
  rcases hc with rfl | rfl | rfl <;> exact placePoint_wellFormed _ _ _

/-- Witness of `undo_after_eviction`: capacity 2, baseline, then the actions A,
B, C; two undos restore the state passed through at index 2 of the trace, the
one immediately after B. -/
theorem undo_after_eviction_witness :
    (initialState smallHistory).maxHistorySize = 2 ∧
    (initialState smallHistory).history = [] ∧
    (initialState smallHistory).historyIndex = -1 ∧
    ∃ t, (commitTrace (saveState (initialState smallHistory) "Load image".toList)
        commitsABC)[commitsABC.length - (2 - 1)]? = some t ∧
      stateView (Nat.iterate undo 2
        (commitAll (saveState (initialState smallHistory) "Load image".toList) commitsABC))
        = stateView t :=
  ⟨rfl, rfl, rfl,
    (undo_after_eviction 2 (by decide) (initialState smallHistory) "Load image".toList
      rfl rfl rfl commitsABC commitsABC_wellFormed (by decide)).2⟩

/-- C7 as stated fails on the example of the specification: capacity 2,
baseline, then A, B, C.  After C the history holds the snapshots of B and C;
the first undo restores the point list as it was after B, the second undo is a
no-op, and the point list after two undos is not the one after A. -/
theorem eviction_example_counterexample :
    Reachable stateAfterC ∧ stateAfterC.maxHistorySize = 2 ∧
    stateAfterA.pointIds = ["1".toList] ∧
    stateAfterB.pointIds = ["1".toList, "2".toList] ∧
    stateAfterC.pointIds = ["1".toList, "2".toList, "3".toList] ∧
    (undo (undo stateAfterC)).pointValues = stateAfterB.pointValues ∧
    (undo (undo stateAfterC)).pointValues ≠ stateAfterA.pointValues ∧
    undo (undo stateAfterC) = undo stateAfterC :=
  ⟨reachable_run _ _ (Reachable.init smallHistory) (by decide),
    by decide, by decide, by decide, by decide, by decide, by decide, by decide⟩

/-! ## Decimal text and `parseInt` -/

theorem digitChar_toNat (k : Nat) (hk : k < 10) : (Char.ofNat (48 + k)).toNat = 48 + k := by
  interval_cases k <;> rfl

theorem digitValue_digitChar (k : Nat) (hk : k < 10) : digitValue (Char.ofNat (48 + k)) = some k := by
  interval_cases k <;> rfl

theorem digitsValue_append_singleton (radix : Nat) (ds : List Char) (c : Char) :
    digitsValue radix (ds ++ [c]) = digitsValue radix ds * radix + (digitValue c).getD 0 := by
  simp [digitsValue, List.foldl_append]

theorem natDigits_spec (fuel : Nat) :
    ∀ (n : Nat) (acc : List Char), n < fuel →
      ∃ ds, natDigits fuel n acc = ds ++ acc ∧ ds ≠ [] ∧ (∀ c ∈ ds, isDecDigit c) ∧
        digitsValue 10 ds = n := by
  induction fuel with
  | zero => intro n acc h; omega
  | succ fuel ih =>
    intro n acc h
    have hmod : n % 10 < 10 := Nat.mod_lt _ (by decide)
    have hdig : isDecDigit (Char.ofNat (48 + n % 10)) := by
      unfold isDecDigit
      rw [digitChar_toNat _ hmod]
      omega
    unfold natDigits
    simp only
    split
    · rename_i hz
      refine ⟨[Char.ofNat (48 + n % 10)], rfl, by simp, ?_, ?_⟩
      · intro c hc
        rw [List.mem_singleton] at hc
        rw [hc]
        exact hdig
      · simp only [digitsValue, List.foldl_cons, List.foldl_nil, digitValue_digitChar _ hmod]
        simp only [Option.getD_some]
        omega
    · rename_i hnz
      obtain ⟨ds, h1, h2, h3, h4⟩ := ih (n / 10) (Char.ofNat (48 + n % 10) :: acc) (by omega)
      refine ⟨ds ++ [Char.ofNat (48 + n % 10)], ?_, by simp, ?_, ?_⟩
      · rw [h1]
        simp
      · intro c hc
        rcases List.mem_append.mp hc with hc | hc
        · exact h3 c hc
        · rw [List.mem_singleton] at hc
          rw [hc]
          exact hdig
      · rw [digitsValue_append_singleton, h4, digitValue_digitChar _ hmod]
        simp only [Option.getD_some]
        omega

theorem natToString_spec (n : Nat) :
    natToString n ≠ [] ∧ (∀ c ∈ natToString n, isDecDigit c) ∧
      digitsValue 10 (natToString n) = n := by
  obtain ⟨ds, h1, h2, h3, h4⟩ := natDigits_spec (n + 1) n [] (by omega)
  unfold natToString
  rw [h1, List.append_nil]
  exact ⟨h2, h3, h4⟩

theorem isDecDigit_not_whitespace (c : Char) (h : isDecDigit c) : isJsWhitespace c = false := by
  unfold isDecDigit at h
  unfold isJsWhitespace
  simp only [Bool.or_eq_false_iff, Bool.and_eq_false_iff, beq_eq_false_iff_ne, ne_eq,
    decide_eq_false_iff_not]
  omega

theorem isDecDigit_radixDigit (c : Char) (h : isDecDigit c) : isRadixDigit 10 c = true := by
  unfold isDecDigit at h
  unfold isRadixDigit digitValue
  simp only
  rw [if_pos h]
  simp only [decide_eq_true_eq]
  omega

theorem isDecDigit_ne (c : Char) (h : isDecDigit c) (d : Char) (hd : d.toNat < 48 ∨ 57 < d.toNat) :
    c ≠ d := by
  intro hcd
  subst hcd
  unfold isDecDigit at h
  omega

theorem takeWhile_eq_self {α : Type} (p : α → Bool) (l : List α) (h : ∀ x ∈ l, p x = true) :
    l.takeWhile p = l := by
  induction l with
  | nil => rfl
  | cons a l ih =>
    rw [List.takeWhile_cons, h a (List.mem_cons_self _ _), if_pos rfl,
      ih (fun x hx => h x (List.mem_cons_of_mem _ hx))]

theorem parseIntMath_decimal (s : JSString) (hne : s ≠ []) (hd : ∀ c ∈ s, isDecDigit c) :
    parseIntMath s = some ((digitsValue 10 s : Nat) : Int) := by
  obtain ⟨c, rest, rfl⟩ := List.exists_cons_of_ne_nil hne
  have hc := hd c (List.mem_cons_self _ _)
  have hws := isDecDigit_not_whitespace c hc
  have hminus : c ≠ '-' := isDecDigit_ne c hc '-' (Or.inl (by decide))
  have hplus : c ≠ '+' := isDecDigit_ne c hc '+' (Or.inl (by decide))
  have hsigned : stripSign (c :: rest) = (false, c :: rest) := by
    unfold stripSign
    split
    · rename_i heq; exact absurd (List.cons.inj heq).1 hminus
    · rename_i heq; exact absurd (List.cons.inj heq).1 hplus
    · rfl
  have hbased : stripHexPrefix (c :: rest) = (10, c :: rest) := by
    unfold stripHexPrefix
    split
    · rename_i t heq
      have h2 := (List.cons.inj heq).2
      have hx : isDecDigit 'x' := hd 'x' (by rw [h2]; simp)
      unfold isDecDigit at hx
      exact absurd hx (by decide)
    · rename_i t heq
      have h2 := (List.cons.inj heq).2
      have hx : isDecDigit 'X' := hd 'X' (by rw [h2]; simp)
      unfold isDecDigit at hx
      exact absurd hx (by decide)
    · rfl
  unfold parseIntMath
  simp only [List.dropWhile_cons, hws, Bool.false_eq_true, if_false, hsigned, hbased]
  rw [takeWhile_eq_self _ _ (fun x hx => isDecDigit_radixDigit x (hd x hx))]
  simp

theorem parseIntMath_natToString (n : Nat) : parseIntMath (natToString n) = some (n : Int) := by
  obtain ⟨h1, h2, h3⟩ := natToString_spec n
  rw [parseIntMath_decimal _ h1 h2, h3]

theorem mem_dropWhile {α : Type} (p : α → Bool) (l : List α) (x : α)
    (h : x ∈ l.dropWhile p) : x ∈ l :=
  (List.dropWhile_suffix p).subset h

theorem parseIntMath_nonneg (s : JSString) (v : Int) (hdash : '-' ∉ s) (h : parseIntMath s = some v) :
    0 ≤ v := by
  unfold parseIntMath at h
  have hsigned : (stripSign (s.dropWhile isJsWhitespace)).1 = false := by
    unfold stripSign
    split
    · rename_i t heq
      exfalso
      apply hdash
      apply mem_dropWhile isJsWhitespace
      rw [heq]
      exact List.mem_cons_self _ _
    · rfl
    · rfl
  simp only [hsigned] at h
  split at h
  · simp at h
  · simp only [Bool.false_eq_true, if_false, Option.some.injEq] at h
    rw [← h]
    exact Int.natCast_nonneg _

theorem isDecDigit_ne_dash (c : Char) (h : isDecDigit c) : c ≠ '-' :=
  isDecDigit_ne c h '-' (Or.inl (by decide))

theorem natToString_no_dash (n : Nat) : '-' ∉ natToString n := by
  intro h
  exact isDecDigit_ne_dash _ ((natToString_spec n).2.1 _ h) rfl

theorem not_mem_takeWhile_ne (s : JSString) : '-' ∉ s.takeWhile (fun c => c != '-') := by
  intro h
  have := List.mem_takeWhile_imp h
  simp at this

theorem splitDash0_no_dash (s : JSString) : '-' ∉ splitDash0 s := not_mem_takeWhile_ne s

theorem splitDash1_no_dash (s t : JSString) (h : splitDash1 s = some t) : '-' ∉ t := by
  unfold splitDash1 at h
  split at h
  · simp at h
  · simp only [Option.some.injEq] at h
    rw [← h]
    exact not_mem_takeWhile_ne _

theorem dropWhile_ne_dash_append (pfx rest : JSString) (h : '-' ∉ pfx) :
    (pfx ++ '-' :: rest).dropWhile (fun c => c != '-') = '-' :: rest := by
  induction pfx with
  | nil => simp
  | cons a pfx ih =>
    have ha : a ≠ '-' := fun hh => h (by rw [hh]; exact List.mem_cons_self _ _)
    have hp : '-' ∉ pfx := fun hh => h (List.mem_cons_of_mem _ hh)
    simp only [List.cons_append, List.dropWhile_cons, bne_iff_ne, ne_eq, ha, not_false_eq_true,
      decide_True, if_true]
    simpa using ih hp

theorem splitDash1_append (pfx rest : JSString) (h1 : '-' ∉ pfx) (h2 : '-' ∉ rest) :
    splitDash1 (pfx ++ '-' :: rest) = some rest := by
  unfold splitDash1
  rw [dropWhile_ne_dash_append pfx rest h1]
  simp only [Option.some.injEq]
  apply takeWhile_eq_self
  intro x hx
  simp only [bne_iff_ne, ne_eq]
  intro hxd
  exact h2 (hxd ▸ hx)

theorem includesDash_iff (s : JSString) : includesDash s = true ↔ '-' ∈ s := by
  simp [includesDash]

/-! ## Doubles: integers below `2 ^ 53` are exact -/

theorem bitLengthAux_zero (fuel : Nat) : bitLengthAux fuel 0 = 0 := by
  cases fuel with
  | zero => rfl
  | succ f => simp [bitLengthAux]

theorem bitLengthAux_spec : ∀ (fuel n : Nat), n ≤ fuel → 0 < n →
    0 < bitLengthAux fuel n ∧ 2 ^ (bitLengthAux fuel n - 1) ≤ n ∧ n < 2 ^ bitLengthAux fuel n := by
  intro fuel
  induction fuel with
  | zero => intro n h1 h2; omega
  | succ fuel ih =>
    intro n hle hpos
    have hne : n ≠ 0 := by omega
    simp only [bitLengthAux, if_neg hne]
    by_cases h2 : n / 2 = 0
    · rw [h2, bitLengthAux_zero]
      have : n = 1 := by omega
      subst this
      simp
    · obtain ⟨g1, g2, g3⟩ := ih (n / 2) (by omega) (by omega)
      refine ⟨by omega, ?_, ?_⟩
      · rw [Nat.add_sub_cancel]
        have : 2 ^ bitLengthAux fuel (n / 2) = 2 ^ (bitLengthAux fuel (n / 2) - 1) * 2 := by
          rw [← pow_succ]
          congr 1
          omega
        omega
      · rw [pow_succ]
        omega

theorem bitLength_spec (n : Nat) (h : 0 < n) :
    0 < bitLength n ∧ 2 ^ (bitLength n - 1) ≤ n ∧ n < 2 ^ bitLength n :=
  bitLengthAux_spec n n (le_refl n) h

theorem bitLength_le (n k : Nat) (h : n < 2 ^ k) : bitLength n ≤ k := by
  by_cases hn : n = 0
  · subst hn
    unfold bitLength
    rw [bitLengthAux_zero]
    omega
  · obtain ⟨g1, g2, _⟩ := bitLength_spec n (by omega)
    by_contra hk
    have : 2 ^ k ≤ 2 ^ (bitLength n - 1) := Nat.pow_le_pow_right (by decide) (by omega)
    omega

theorem lt_bitLength (n k : Nat) (h : 2 ^ k ≤ n) : k < bitLength n := by
  have hn : 0 < n := lt_of_lt_of_le (Nat.two_pow_pos k) h
  obtain ⟨_, _, g3⟩ := bitLength_spec n hn
  by_contra hk
  have : 2 ^ bitLength n ≤ 2 ^ k := Nat.pow_le_pow_right (by decide) (by omega)
  omega

theorem roundQuot_small (a : Nat) (ha : 0 < a) (hb : a < 2 ^ 53) :
    roundQuot a 1 = some (a * 2 ^ (53 - bitLength a), (bitLength a : Int) - 53) := by
  obtain ⟨h1, h2, h3⟩ := bitLength_spec a ha
  have hle := bitLength_le a 53 hb
  have hb1 : bitLength 1 = 1 := by decide
  have hm : a * 2 ^ (53 - bitLength a) < 2 ^ 53 := by
    calc a * 2 ^ (53 - bitLength a) < 2 ^ bitLength a * 2 ^ (53 - bitLength a) :=
          Nat.mul_lt_mul_of_pos_right h3 (Nat.two_pow_pos _)
      _ = 2 ^ 53 := by rw [← pow_add]; congr 1; omega
  have hbm := bitLength_le _ 53 hm
  unfold roundQuot binaryExponent nearestEven
  rw [if_neg (by omega)]
  simp only [hb1]
  generalize bitLength a = b at *
  have hl : (0 : Int) ≤ (b : Int) - ((1 : Nat) : Int) := by omega
  have hl2 : ((b : Int) - ((1 : Nat) : Int)).toNat = b - 1 := by omega
  rw [if_pos hl, hl2]
  simp only [one_mul, decide_eq_true_eq, if_pos h2, if_true]
  have hE : ((b : Int) - ((1 : Nat) : Int)) ⊔ (-1022) - 52 = (b : Int) - 53 := by
    rw [max_eq_left (by omega)]
    omega
  simp only [hE]
  have hnot : ¬ (1 < 2 * 0 ∨ 2 * 0 = 1 ∧ a * 2 ^ (53 - b) % 2 = 1) := by omega
  by_cases h53 : b = 53
  · subst h53
    have hpos : (0 : Int) ≤ ((53 : Nat) : Int) - 53 := by omega
    have hk : (((53 : Nat) : Int) - 53).toNat = 0 := by omega
    simp only [if_pos hpos, hk, pow_zero, Nat.mod_one, Nat.div_one]
    simp only [Nat.sub_self, pow_zero, mul_one] at hnot hbm ⊢
    rw [if_neg hnot, if_neg (by omega)]
  · have hneg : ¬ (0 : Int) ≤ (b : Int) - 53 := by omega
    have hk : (-((b : Int) - 53)).toNat = 53 - b := by omega
    simp only [if_neg hneg, hk, Nat.mod_one, Nat.div_one]
    rw [if_neg hnot, if_neg (by omega)]

theorem roundNat_small (a : Nat) (hb : a < 2 ^ 53) : roundNat a = some a := by
  by_cases ha : a = 0
  · subst ha
    decide
  · unfold roundNat
    rw [roundQuot_small a (by omega) hb]
    have hle := bitLength_le a 53 hb
    simp only
    by_cases h53 : bitLength a = 53
    · rw [h53]
      simp
    · have hneg : ¬ (0 : Int) ≤ (bitLength a : Int) - 53 := by omega
      have hk : (-((bitLength a : Int) - 53)).toNat = 53 - bitLength a := by omega
      rw [if_neg hneg, hk, Nat.mul_div_cancel _ (Nat.two_pow_pos _)]

theorem roundNat_large_aux (m0 b r : Nat) (hm0 : 2 ^ 52 ≤ m0) (hb : 53 < b)
    (h : (match (if 1024 < (bitLength m0 : Int) + ((b : Int) - 53) then none
            else some (m0, (b : Int) - 53) : Option (Nat × Int)) with
          | none => none
          | some (m, e) => some (if 0 ≤ e then m * 2 ^ e.toNat else m / 2 ^ (-e).toNat))
        = some r) :
    2 ^ 53 ≤ r := by
  have hpos : (0 : Int) ≤ (b : Int) - 53 := by omega
  have hk : ((b : Int) - 53).toNat = b - 53 := by omega
  have hp : 2 ≤ 2 ^ (b - 53) := by
    calc 2 = 2 ^ 1 := rfl
      _ ≤ 2 ^ (b - 53) := Nat.pow_le_pow_right (by decide) (by omega)
  by_cases hov : 1024 < (bitLength m0 : Int) + ((b : Int) - 53)
  · rw [if_pos hov] at h
    exact absurd h (by simp)
  · rw [if_neg hov] at h
    simp only [if_pos hpos, hk, Option.some.injEq] at h
    calc 2 ^ 53 = 2 ^ 52 * 2 := by norm_num
      _ ≤ m0 * 2 ^ (b - 53) := Nat.mul_le_mul hm0 hp
      _ = r := h

theorem roundNat_large (c r : Nat) (hc : 2 ^ 53 ≤ c) (h : roundNat c = some r) :
    2 ^ 53 ≤ r := by
  have hpos : 0 < c := lt_of_lt_of_le (Nat.two_pow_pos 53) hc
  obtain ⟨h1, h2, h3⟩ := bitLength_spec c hpos
  have hgt := lt_bitLength c 53 hc
  have hb1 : bitLength 1 = 1 := by decide
  unfold roundNat roundQuot binaryExponent nearestEven at h
  rw [if_neg (by omega)] at h
  simp only [hb1] at h
  generalize bitLength c = b at *
  have hl : (0 : Int) ≤ (b : Int) - ((1 : Nat) : Int) := by omega
  have hl2 : ((b : Int) - ((1 : Nat) : Int)).toNat = b - 1 := by omega
  rw [if_pos hl, hl2] at h
  simp only [one_mul, decide_eq_true_eq, if_pos h2, if_true] at h
  have hE : ((b : Int) - ((1 : Nat) : Int)) ⊔ (-1022) - 52 = (b : Int) - 53 := by
    rw [max_eq_left (by omega)]
    omega
  have hpos : (0 : Int) ≤ (b : Int) - 53 := by omega
  have hk : ((b : Int) - 53).toNat = b - 53 := by omega
  simp only [hE, if_pos hpos, hk] at h
  have hq : 2 ^ 52 ≤ c / 2 ^ (b - 53) := by
    rw [Nat.le_div_iff_mul_le (Nat.two_pow_pos _), ← pow_add]
    have : 52 + (b - 53) = b - 1 := by omega
    rw [this]
    exact h2
  refine roundNat_large_aux _ b r ?_ hgt h
  split <;> omega

theorem roundNat_reads_small (a c : Nat) (ha : a < 2 ^ 53) (h : roundNat c = some a) :
    c = a := by
  by_cases hc : c < 2 ^ 53
  · rw [roundNat_small c hc] at h
    exact Option.some.inj h
  · have := roundNat_large c a (by omega) h
    omega

theorem toDouble_small (n : Int) (h : n.natAbs < 2 ^ 53) : toDouble n = JSNumber.finite n := by
  unfold toDouble
  rw [roundNat_small _ h]
  simp only
  congr 1
  split <;> omega

theorem shortestFrom_small (a digits : Nat) (ha : a < 2 ^ 53) :
    ∀ fuel k : Nat, shortestFrom a digits fuel k = a := by
  intro fuel
  induction fuel with
  | zero => intro k; rfl
  | succ fuel ih =>
    intro k
    unfold shortestFrom
    simp only
    have hpos : 0 < 10 ^ (digits - k) := Nat.pos_pow_of_pos _ (by decide)
    have hlo : a / 10 ^ (digits - k) * 10 ^ (digits - k) ≤ a := Nat.div_mul_le_self _ _
    have hhi : a < a / 10 ^ (digits - k) * 10 ^ (digits - k) + 10 ^ (digits - k) := by
      have := Nat.lt_div_mul_add hpos (a := a)
      omega
    have hokHi : ¬ roundNat (a / 10 ^ (digits - k) * 10 ^ (digits - k) + 10 ^ (digits - k))
        = some a := by
      intro h
      have := roundNat_reads_small a _ ha h
      omega
    have hfalse : decide (roundNat (a / 10 ^ (digits - k) * 10 ^ (digits - k)
        + 10 ^ (digits - k)) = some a) = false := decide_eq_false hokHi
    rw [hfalse]
    simp only [Bool.and_false, Bool.false_eq_true, if_false]
    split
    · rename_i h
      exact roundNat_reads_small a _ ha (of_decide_eq_true h)
    · exact ih (k + 1)

theorem shortestDecimal_small (a : Nat) (ha : a < 2 ^ 53) : shortestDecimal a = a :=
  shortestFrom_small a _ ha _ _

theorem natDigits_length (fuel : Nat) :
    ∀ (n k : Nat) (acc : List Char), n < 10 ^ (k + 1) →
      (natDigits fuel n acc).length ≤ acc.length + (k + 1) := by
  induction fuel with
  | zero =>
    intro n k acc _
    simp [natDigits]
  | succ fuel ih =>
    intro n k acc h
    unfold natDigits
    simp only
    split
    · simp
    · rename_i hne
      cases k with
      | zero =>
        exfalso
        apply hne
        exact Nat.div_eq_of_lt (by simpa using h)
      | succ k =>
        have h2 : n / 10 < 10 ^ (k + 1) := by
          rw [Nat.div_lt_iff_lt_mul (by decide)]
          rw [pow_succ] at h
          exact h
        have := ih (n / 10) k (Char.ofNat (48 + n % 10) :: acc) h2
        simp only [List.length_cons] at this
        omega

theorem formatDecimal_small (a : Nat) (ha : a < 2 ^ 53) : formatDecimal a = natToString a := by
  unfold formatDecimal
  simp only
  have h : (natToString a).length ≤ 0 + (15 + 1) :=
    natDigits_length (a + 1) a 15 [] (lt_of_lt_of_le ha (by norm_num))
  rw [if_pos (by omega)]

theorem natText_small (a : Nat) (ha : a < 2 ^ 53) : natText a = natToString a := by
  unfold natText
  rw [shortestDecimal_small a ha, formatDecimal_small a ha]

theorem numberToString_small (v : Int) (h : v.natAbs < 2 ^ 53) :
    numberToString (JSNumber.finite v) = intToString v := by
  cases v with
  | ofNat n =>
    show (if Int.ofNat n < 0 then '-' :: natText (Int.ofNat n).natAbs
      else natText (Int.ofNat n).toNat) = natToString n
    rw [if_neg (by simp)]
    exact natText_small n h
  | negSucc n =>
    show (if Int.negSucc n < 0 then '-' :: natText (Int.negSucc n).natAbs
      else natText (Int.negSucc n).toNat) = '-' :: natToString (n + 1)
    rw [if_pos (Int.negSucc_lt_zero n)]
    congr 1
    exact natText_small (n + 1) h

theorem coordText_small (v : Int) (h : v.natAbs < 2 ^ 53) : coordText v = intToString v := by
  unfold coordText
  rw [toDouble_small v h, numberToString_small v h]

/-! ## Doubles: `roundQuot` rounds to the nearest double -/

theorem two_zpow_of_nonneg (k : Int) (h : 0 ≤ k) : ((2 ^ k.toNat : Nat) : ℚ) = (2 : ℚ) ^ k := by
  push_cast
  rw [← zpow_natCast, Int.toNat_of_nonneg h]

theorem two_zpow_of_neg (k : Int) (h : k ≤ 0) :
    ((2 ^ (-k).toNat : Nat) : ℚ) = ((2 : ℚ) ^ k)⁻¹ := by
  rw [two_zpow_of_nonneg (-k) (by omega), zpow_neg]

theorem two_zpow_pos (k : Int) : (0 : ℚ) < (2 : ℚ) ^ k := zpow_pos (by norm_num) k

/-- The comparison of `a * 2 ^ k` with `b` in natural numbers. -/
theorem scaled_le_iff (a b : Nat) (k : Int) :
    (if 0 ≤ k then decide (a * 2 ^ k.toNat ≤ b) else decide (a ≤ b * 2 ^ (-k).toNat)) = true
      ↔ (a : ℚ) * (2 : ℚ) ^ k ≤ b := by
  have hp := two_zpow_pos k
  by_cases hk : 0 ≤ k
  · rw [if_pos hk, decide_eq_true_iff, ← two_zpow_of_nonneg k hk]
    exact_mod_cast Iff.rfl
  · rw [if_neg hk, decide_eq_true_iff]
    have h2 := two_zpow_of_neg k (by omega)
    have h3 : (a : ℚ) ≤ (b : ℚ) * ((2 ^ (-k).toNat : Nat) : ℚ) ↔ a ≤ b * 2 ^ (-k).toNat := by
      exact_mod_cast Iff.rfl
    rw [← h3, h2, ← div_eq_mul_inv, le_div_iff₀ hp]

theorem bitLength_bounds (n : Nat) (h : 0 < n) :
    (2 : ℚ) ^ ((bitLength n : Int) - 1) ≤ n ∧ (n : ℚ) < (2 : ℚ) ^ (bitLength n : Int) := by
  obtain ⟨h1, h2, h3⟩ := bitLength_spec n h
  constructor
  · have : ((bitLength n : Int) - 1) = ((bitLength n - 1 : Nat) : Int) := by omega
    rw [this, zpow_natCast]
    exact_mod_cast h2
  · rw [zpow_natCast]
    exact_mod_cast h3

theorem binaryExponent_spec (n d : Nat) (hn : 0 < n) (hd : 0 < d) :
    (2 : ℚ) ^ binaryExponent n d ≤ (n : ℚ) / d ∧
      (n : ℚ) / d < (2 : ℚ) ^ (binaryExponent n d + 1) := by
  obtain ⟨n1, n2⟩ := bitLength_bounds n hn
  obtain ⟨d1, d2⟩ := bitLength_bounds d hd
  have hdq : (0 : ℚ) < d := by exact_mod_cast hd
  have hnq : (0 : ℚ) < n := by exact_mod_cast hn
  unfold binaryExponent
  simp only
  generalize (bitLength n : Int) = bn at *
  generalize (bitLength d : Int) = bd at *
  have hup : (n : ℚ) / d < (2 : ℚ) ^ (bn - bd + 1) := by
    rw [div_lt_iff₀ hdq]
    have : (2 : ℚ) ^ (bn - bd + 1) = (2 : ℚ) ^ bn / (2 : ℚ) ^ (bd - 1) := by
      rw [← zpow_sub₀ (by norm_num)]
      congr 1
      ring
    rw [this, div_mul_eq_mul_div, lt_div_iff₀ (two_zpow_pos _)]
    calc (n : ℚ) * 2 ^ (bd - 1) ≤ n * d := by
          apply mul_le_mul_of_nonneg_left d1 (le_of_lt hnq)
      _ < 2 ^ bn * d := by
          apply mul_lt_mul_of_pos_right n2 hdq
  have hlow : (2 : ℚ) ^ (bn - bd - 1) ≤ (n : ℚ) / d := by
    rw [le_div_iff₀ hdq]
    have : (2 : ℚ) ^ (bn - bd - 1) = (2 : ℚ) ^ (bn - 1) / (2 : ℚ) ^ bd := by
      rw [← zpow_sub₀ (by norm_num)]
      congr 1
      ring
    rw [this, div_mul_eq_mul_div, div_le_iff₀ (two_zpow_pos _)]
    calc (2 : ℚ) ^ (bn - 1) * d ≤ n * d := by
          apply mul_le_mul_of_nonneg_right n1 (le_of_lt hdq)
      _ ≤ n * 2 ^ bd := by
          apply mul_le_mul_of_nonneg_left (le_of_lt d2) (le_of_lt hnq)
  have hiff := scaled_le_iff d n (bn - bd)
  by_cases habove : (if 0 ≤ bn - bd then decide (d * 2 ^ (bn - bd).toNat ≤ n)
      else decide (d ≤ n * 2 ^ (-(bn - bd)).toNat)) = true
  · rw [if_pos habove]
    refine ⟨?_, hup⟩
    rw [le_div_iff₀ hdq, mul_comm]
    exact hiff.mp habove
  · rw [if_neg habove]
    refine ⟨hlow, ?_⟩
    rw [sub_add_cancel, div_lt_iff₀ hdq, mul_comm]
    exact not_le.mp (fun hle => habove (hiff.mpr hle))

theorem nearestEven_spec (num den : Nat) (hden : 0 < den) :
    |(num : ℚ) / den - nearestEven num den| ≤ 1 / 2 ∧
      (|(num : ℚ) / den - nearestEven num den| = 1 / 2 → nearestEven num den % 2 = 0) ∧
      num / den ≤ nearestEven num den ∧ nearestEven num den ≤ num / den + 1 := by
  have hdq : (0 : ℚ) < den := by exact_mod_cast hden
  have hsplit : (num : ℚ) = den * (num / den : Nat) + (num % den : Nat) := by
    exact_mod_cast (Nat.div_add_mod num den).symm
  have hr : num % den < den := Nat.mod_lt _ hden
  have hrq : ((num % den : Nat) : ℚ) < den := by exact_mod_cast hr
  have hr0 : (0 : ℚ) ≤ ((num % den : Nat) : ℚ) := Nat.cast_nonneg _
  have hfrac : (num : ℚ) / den = (num / den : Nat) + ((num % den : Nat) : ℚ) / den := by
    rw [eq_comm, ← sub_eq_zero]
    field_simp
    rw [sub_eq_zero]
    linarith
  unfold nearestEven
  simp only
  generalize num / den = q at *
  generalize num % den = r at *
  have hdiv : (r : ℚ) / den ≤ 1 / 2 ↔ 2 * r ≤ den := by
    rw [div_le_iff₀ hdq]
    constructor
    · intro h
      have : (2 * r : ℚ) ≤ den := by linarith
      exact_mod_cast this
    · intro h
      have : (2 * r : ℚ) ≤ den := by exact_mod_cast h
      linarith
  have hdiv2 : (r : ℚ) / den = 1 / 2 ↔ 2 * r = den := by
    rw [div_eq_iff (ne_of_gt hdq)]
    constructor
    · intro h
      have : (2 * r : ℚ) = den := by linarith
      exact_mod_cast this
    · intro h
      have : (2 * r : ℚ) = den := by exact_mod_cast h
      linarith
  have hrd0 : (0 : ℚ) ≤ (r : ℚ) / den := div_nonneg hr0 (le_of_lt hdq)
  have hrd1 : (r : ℚ) / den < 1 := by
    rw [div_lt_one hdq]
    exact hrq
  split
  · rename_i hup
    have habs : |(num : ℚ) / den - ((q + 1 : Nat) : ℚ)| = 1 - (r : ℚ) / den := by
      rw [hfrac]
      push_cast
      rw [show (q : ℚ) + (r : ℚ) / den - (q + 1) = -(1 - (r : ℚ) / den) by ring, abs_neg,
        abs_of_pos (by linarith)]
    rw [habs]
    refine ⟨?_, ?_, by omega, le_refl _⟩
    · rcases hup with h | ⟨h, _⟩
      · have : ¬ (r : ℚ) / den ≤ 1 / 2 := fun hle => by
          have := hdiv.mp hle
          omega
        linarith [not_le.mp this]
      · have := hdiv2.mpr h
        linarith
    · intro _
      rcases hup with h | ⟨_, h⟩
      · exfalso
        have : ¬ (r : ℚ) / den ≤ 1 / 2 := fun hle => by
          have := hdiv.mp hle
          omega
        linarith [not_le.mp this]
      · omega
  · rename_i hdown
    have habs : |(num : ℚ) / den - (q : ℚ)| = (r : ℚ) / den := by
      rw [hfrac, add_sub_cancel_left, abs_of_nonneg hrd0]
    rw [habs]
    have hle : 2 * r ≤ den := by
      by_contra hc
      exact hdown (Or.inl (by omega))
    refine ⟨hdiv.mpr hle, ?_, le_refl _, by omega⟩
    intro htie
    have h2 := hdiv2.mp htie
    by_contra hodd
    exact hdown (Or.inr ⟨h2, by omega⟩)

/-- The natural numbers `num` and `den` of `roundQuot` have the quotient
`n / d / 2 ^ e`. -/
theorem scaled_quot (n d : Nat) (e : Int) (hd : 0 < d) :
    0 < (if 0 ≤ e then d * 2 ^ e.toNat else d) ∧
    (((if 0 ≤ e then n else n * 2 ^ (-e).toNat : Nat) : ℚ)
        / ((if 0 ≤ e then d * 2 ^ e.toNat else d : Nat) : ℚ))
      = (n : ℚ) / d / (2 : ℚ) ^ e := by
  have hp := two_zpow_pos e
  have hdq : (0 : ℚ) < d := by exact_mod_cast hd
  by_cases he : 0 ≤ e
  · rw [if_pos he, if_pos he]
    refine ⟨Nat.mul_pos hd (Nat.two_pow_pos _), ?_⟩
    rw [Nat.cast_mul, two_zpow_of_nonneg e he, div_div]
  · rw [if_neg he, if_neg he]
    refine ⟨hd, ?_⟩
    rw [Nat.cast_mul, two_zpow_of_neg e (by omega)]
    field_simp
    left
    ring
/-- The parts of `roundQuot n d` for positive `n` and `d`: a significand `M`
and an exponent `E`, the exponent of the last significand bit of `x = n / d`
(or `-1074` for a subnormal `x`), with `M * 2 ^ E` within half a unit `2 ^ E`
of `x` and `M` even when `x` lies half-way; the result overflows when `M` and
`E` together need more than 1024 bits. -/
theorem roundQuot_parts (n d : Nat) (hn : 0 < n) (hd : 0 < d) :
    ∃ (M : Nat) (E : Int),
      roundQuot n d = (if 1024 < (bitLength M : Int) + E then none else some (M, E)) ∧
      -1074 ≤ E ∧ M ≤ 2 ^ 53 ∧
      (n : ℚ) / d < 2 ^ 53 * (2 : ℚ) ^ E ∧
      (E = -1074 ∨ 2 ^ 52 * (2 : ℚ) ^ E ≤ (n : ℚ) / d) ∧
      |(n : ℚ) / d - M * (2 : ℚ) ^ E| ≤ (2 : ℚ) ^ E / 2 ∧
      (|(n : ℚ) / d - M * (2 : ℚ) ^ E| = (2 : ℚ) ^ E / 2 → M % 2 = 0) := by
  unfold roundQuot
  rw [if_neg (by omega)]
  simp only
  obtain ⟨hlo, hhi⟩ := binaryExponent_spec n d hn hd
  generalize binaryExponent n d = e0 at *
  obtain ⟨E, hE⟩ : ∃ E : Int, E = max e0 (-1022) - 52 := ⟨_, rfl⟩
  rw [← hE]
  obtain ⟨hdenpos, hq⟩ := scaled_quot n d E hd
  generalize (if 0 ≤ E then n else n * 2 ^ (-E).toNat) = num at *
  generalize (if 0 ≤ E then d * 2 ^ E.toNat else d) = den at *
  obtain ⟨hnear, htie, hfloor, hceil⟩ := nearestEven_spec num den hdenpos
  generalize nearestEven num den = M at *
  have hp := two_zpow_pos E
  have hmax1 : e0 ≤ E + 52 := by
    rw [hE]
    have := le_max_left e0 (-1022)
    omega
  have hmax2 : -1022 ≤ E + 52 := by
    rw [hE]
    have := le_max_right e0 (-1022)
    omega
  have hx53 : (n : ℚ) / d < 2 ^ 53 * (2 : ℚ) ^ E := by
    calc (n : ℚ) / d < (2 : ℚ) ^ (e0 + 1) := hhi
      _ ≤ (2 : ℚ) ^ (53 + E) := zpow_le_zpow_right₀ (by norm_num) (by omega)
      _ = 2 ^ 53 * (2 : ℚ) ^ E := by
        rw [zpow_add₀ (by norm_num)]
        norm_num
  have hy53 : (num : ℚ) / den < 2 ^ 53 := by
    rw [hq, div_lt_iff₀ hp]
    exact hx53
  have hdq : (0 : ℚ) < den := by exact_mod_cast hdenpos
  have hM : M ≤ 2 ^ 53 := by
    have h1 : ((num / den : Nat) : ℚ) ≤ (num : ℚ) / den := Nat.cast_div_le
    have h2 : ((num / den : Nat) : ℚ) < ((2 ^ 53 : Nat) : ℚ) := by
      push_cast
      linarith
    have h3 : num / den < 2 ^ 53 := by exact_mod_cast h2
    omega
  have hdiff : (n : ℚ) / d - M * (2 : ℚ) ^ E = ((num : ℚ) / den - M) * (2 : ℚ) ^ E := by
    rw [hq]
    field_simp
    ring
  have habs : |(n : ℚ) / d - M * (2 : ℚ) ^ E| = |(num : ℚ) / den - M| * (2 : ℚ) ^ E := by
    rw [hdiff, abs_mul, abs_of_pos hp]
  refine ⟨M, E, rfl, by omega, hM, hx53, ?_, ?_, ?_⟩
  · by_cases hnorm : -1022 ≤ e0
    · right
      have hEe : E = e0 - 52 := by
        rw [hE, max_eq_left hnorm]
      calc 2 ^ 52 * (2 : ℚ) ^ E = (2 : ℚ) ^ (52 + E) := by
            rw [zpow_add₀ (by norm_num)]
            norm_num
        _ = (2 : ℚ) ^ e0 := by
            congr 1
            omega
        _ ≤ (n : ℚ) / d := hlo
    · left
      rw [hE, max_eq_right (by omega)]
      norm_num
  · rw [habs]
    calc |(num : ℚ) / den - M| * (2 : ℚ) ^ E ≤ 1 / 2 * (2 : ℚ) ^ E :=
          mul_le_mul_of_nonneg_right hnear (le_of_lt hp)
      _ = (2 : ℚ) ^ E / 2 := by ring
  · intro heq
    apply htie
    rw [habs] at heq
    have : |(num : ℚ) / den - M| * (2 : ℚ) ^ E = 1 / 2 * (2 : ℚ) ^ E := by
      rw [heq]
      ring
    exact mul_right_cancel₀ (ne_of_gt hp) this

/-- The result of `roundQuot` is the double nearest to `n / d`, ties to even:
with `x = n / d` and the result `m * 2 ^ e`, the exponent `e` is that of the
last significand bit of `x` (`2 ^ 52 * 2 ^ e ≤ x < 2 ^ 53 * 2 ^ e`, or the
least exponent `-1074` for a subnormal `x`), `m * 2 ^ e` is within half a unit
`2 ^ e` of `x`, `m` is even when `x` lies half-way, and the result is below
`2 ^ 1024`. -/
theorem roundQuot_nearest (n d m : Nat) (e : Int) (hn : 0 < n) (hd : 0 < d)
    (h : roundQuot n d = some (m, e)) :
    -1074 ≤ e ∧ m ≤ 2 ^ 53 ∧
    (n : ℚ) / d < 2 ^ 53 * (2 : ℚ) ^ e ∧
    (e = -1074 ∨ 2 ^ 52 * (2 : ℚ) ^ e ≤ (n : ℚ) / d) ∧
    |(n : ℚ) / d - m * (2 : ℚ) ^ e| ≤ (2 : ℚ) ^ e / 2 ∧
    (|(n : ℚ) / d - m * (2 : ℚ) ^ e| = (2 : ℚ) ^ e / 2 → m % 2 = 0) ∧
    (m : ℚ) * (2 : ℚ) ^ e < 2 ^ 1024 := by
  obtain ⟨M, E, hr, h1, h2, h3, h4, h5, h6⟩ := roundQuot_parts n d hn hd
  rw [hr] at h
  by_cases hov : 1024 < (bitLength M : Int) + E
  · rw [if_pos hov] at h
    exact absurd h (by simp)
  rw [if_neg hov] at h
  simp only [Option.some.injEq, Prod.mk.injEq] at h
  obtain ⟨hm, he⟩ := h
  subst hm
  subst he
  have hp := two_zpow_pos E
  refine ⟨h1, h2, h3, h4, h5, h6, ?_⟩
  · by_cases hM0 : M = 0
    · subst hM0
      simp
    · obtain ⟨_, hb2⟩ := bitLength_bounds M (by omega)
      calc (M : ℚ) * (2 : ℚ) ^ E < (2 : ℚ) ^ (bitLength M : Int) * (2 : ℚ) ^ E :=
            mul_lt_mul_of_pos_right hb2 hp
        _ = (2 : ℚ) ^ ((bitLength M : Int) + E) := by
            rw [zpow_add₀ (by norm_num)]
        _ ≤ (2 : ℚ) ^ (1024 : Int) := zpow_le_zpow_right₀ (by norm_num) (by omega)
        _ = 2 ^ 1024 := by
            rw [← zpow_natCast]
            rfl

/-- The quotient `n / d` overflows to infinity only from `2 ^ 1024 - 2 ^ 970`
on, the middle between the largest double and `2 ^ 1024`. -/
theorem roundQuot_overflow (n d : Nat) (hn : 0 < n) (hd : 0 < d)
    (h : roundQuot n d = none) : (2 : ℚ) ^ 1024 - 2 ^ 970 ≤ (n : ℚ) / d := by
  obtain ⟨M, E, hr, h1, h2, h3, h4, h5, h6⟩ := roundQuot_parts n d hn hd
  rw [hr] at h
  by_cases hov : 1024 < (bitLength M : Int) + E
  swap
  · rw [if_neg hov] at h
    exact absurd h (by simp)
  have hp := two_zpow_pos E
  have hb54 : bitLength M ≤ 54 := bitLength_le M 54 (lt_of_le_of_lt h2 (by norm_num))
  have hM0 : 0 < M := by
    by_contra hc
    have hz : M = 0 := by omega
    subst hz
    have hb0 : bitLength 0 = 0 := by decide
    rw [hb0] at hov
    rcases h4 with h4 | h4
    · omega
    · have hup := (abs_le.mp h5).2
      simp only [Nat.cast_zero, zero_mul, sub_zero] at hup
      norm_num at h4
      linarith
  obtain ⟨hb1, _⟩ := bitLength_bounds M hM0
  have hbig : (2 : ℚ) ^ 1024 ≤ M * (2 : ℚ) ^ E := by
    calc (2 : ℚ) ^ 1024 = (2 : ℚ) ^ (1024 : Int) := by
          rw [← zpow_natCast]
          rfl
      _ ≤ (2 : ℚ) ^ ((bitLength M : Int) - 1 + E) :=
          zpow_le_zpow_right₀ (by norm_num) (by omega)
      _ = (2 : ℚ) ^ ((bitLength M : Int) - 1) * (2 : ℚ) ^ E := by
          rw [zpow_add₀ (by norm_num)]
      _ ≤ M * (2 : ℚ) ^ E := mul_le_mul_of_nonneg_right hb1 (le_of_lt hp)
  by_cases h971 : E = 971
  · have hlow := (abs_le.mp h5).1
    have h970 : (2 : ℚ) ^ E / 2 = 2 ^ 970 := by
      rw [h971]
      have : (2 : ℚ) ^ (971 : Int) = 2 ^ 970 * 2 := by
        rw [show (971 : Int) = ((971 : Nat) : Int) from rfl, zpow_natCast, pow_succ]
      rw [this]
      ring
    rw [h970] at hlow
    linarith
  · rcases h4 with h4 | h4
    · omega
    · have : (2 : ℚ) ^ 1024 ≤ 2 ^ 52 * (2 : ℚ) ^ E := by
        calc (2 : ℚ) ^ 1024 = (2 : ℚ) ^ (1024 : Int) := by
              rw [← zpow_natCast]
              rfl
          _ ≤ (2 : ℚ) ^ (52 + E) := zpow_le_zpow_right₀ (by norm_num) (by omega)
          _ = 2 ^ 52 * (2 : ℚ) ^ E := by
              rw [zpow_add₀ (by norm_num)]
              norm_num
      have hpos : (0 : ℚ) < 2 ^ 970 := by positivity
      linarith

/-! ## Doubles: exact results -/

/-- A quotient that is a double is returned as it is: when `n / d` equals
`k * 2 ^ t` for a `k` below `2 ^ 53` and `t` from `-1074` to `971`,
`roundQuot n d` is a pair with that value. -/
theorem roundQuot_exact (n d k : Nat) (t : Int) (hn : 0 < n) (hd : 0 < d)
    (hk : k < 2 ^ 53) (ht : -1074 ≤ t) (ht2 : t ≤ 971)
    (hx : (n : ℚ) / d = k * (2 : ℚ) ^ t) :
    ∃ (m : Nat) (e : Int), roundQuot n d = some (m, e) ∧ (m : ℚ) * (2 : ℚ) ^ e = (n : ℚ) / d := by
  obtain ⟨M, E, hr, h1, h2, h3, h4, h5, _⟩ := roundQuot_parts n d hn hd
  have hpE := two_zpow_pos E
  have hpt := two_zpow_pos t
  have hkq : (k : ℚ) < 2 ^ 53 := by exact_mod_cast hk
  have hEt : E ≤ t := by
    rcases h4 with h4 | h4
    · omega
    · have hlt : (2 : ℚ) ^ (52 + E) < (2 : ℚ) ^ (53 + t) := by
        calc (2 : ℚ) ^ (52 + E) = 2 ^ 52 * (2 : ℚ) ^ E := by
              rw [zpow_add₀ (by norm_num)]
              norm_num
          _ ≤ (n : ℚ) / d := h4
          _ = k * (2 : ℚ) ^ t := hx
          _ < 2 ^ 53 * (2 : ℚ) ^ t := mul_lt_mul_of_pos_right hkq hpt
          _ = (2 : ℚ) ^ (53 + t) := by
              rw [zpow_add₀ (by norm_num)]
              norm_num
      have := (zpow_lt_zpow_iff_right₀ (by norm_num : (1 : ℚ) < 2)).mp hlt
      omega
  -- the quotient is a natural multiple of `2 ^ E`
  have hmul : (n : ℚ) / d = ((k * 2 ^ (t - E).toNat : Nat) : ℚ) * (2 : ℚ) ^ E := by
    rw [hx, Nat.cast_mul, two_zpow_of_nonneg (t - E) (by omega), mul_assoc,
      ← zpow_add₀ (by norm_num)]
    congr 2
    ring
  generalize k * 2 ^ (t - E).toNat = K at hmul
  have hKM : K = M := by
    rw [hmul, ← sub_mul, abs_mul, abs_of_pos hpE] at h5
    have h6 : |(K : ℚ) - M| ≤ 1 / 2 := by
      by_contra hc
      have hc2 := not_le.mp hc
      have := mul_lt_mul_of_pos_right hc2 hpE
      linarith
    have h7 : |((K : Int) : ℚ) - ((M : Int) : ℚ)| < 1 := by
      push_cast
      linarith
    have h8 : |(K : Int) - (M : Int)| < 1 := by exact_mod_cast h7
    have h9 := abs_lt.mp h8
    omega
  subst hKM
  refine ⟨K, E, ?_, hmul.symm⟩
  rw [hr, if_neg]
  intro hov
  by_cases hK0 : K = 0
  · subst hK0
    have hb0 : bitLength 0 = 0 := by decide
    rw [hb0] at hov
    omega
  · obtain ⟨hb1, _⟩ := bitLength_bounds K (by omega)
    have hlt : (2 : ℚ) ^ ((bitLength K : Int) - 1 + E) < (2 : ℚ) ^ (53 + t) := by
      calc (2 : ℚ) ^ ((bitLength K : Int) - 1 + E)
            = (2 : ℚ) ^ ((bitLength K : Int) - 1) * (2 : ℚ) ^ E := by
              rw [zpow_add₀ (by norm_num)]
        _ ≤ K * (2 : ℚ) ^ E := mul_le_mul_of_nonneg_right hb1 (le_of_lt hpE)
        _ = (n : ℚ) / d := hmul.symm
        _ = k * (2 : ℚ) ^ t := hx
        _ < 2 ^ 53 * (2 : ℚ) ^ t := mul_lt_mul_of_pos_right hkq hpt
        _ = (2 : ℚ) ^ (53 + t) := by
            rw [zpow_add₀ (by norm_num)]
            norm_num
    have := (zpow_lt_zpow_iff_right₀ (by norm_num : (1 : ℚ) < 2)).mp hlt
    omega

theorem ofQuot_exact (s : Bool) (n d k : Nat) (t : Int) (hn : 0 < n) (hd : 0 < d)
    (hk : k < 2 ^ 53) (ht : -1074 ≤ t) (ht2 : t ≤ 971)
    (hx : (n : ℚ) / d = k * (2 : ℚ) ^ t) :
    ∃ (m : Nat) (e : Int),
      Double.ofQuot s n d = Double.finite s m e ∧ (m : ℚ) * (2 : ℚ) ^ e = (n : ℚ) / d := by
  obtain ⟨m, e, h1, h2⟩ := roundQuot_exact n d k t hn hd hk ht ht2 hx
  refine ⟨m, e, ?_, h2⟩
  unfold Double.ofQuot
  rw [h1]

theorem ofQuot_zero (s : Bool) (d : Nat) : Double.ofQuot s 0 d = Double.finite s 0 0 := by
  unfold Double.ofQuot roundQuot
  rw [if_pos rfl]

theorem ofInt_exact (v : Int) (hv : v.natAbs < 2 ^ 53) :
    ∃ (m : Nat) (e : Int),
      Double.ofInt v = Double.finite (decide (v < 0)) m e ∧
      (m : ℚ) * (2 : ℚ) ^ e = (v.natAbs : ℚ) := by
  unfold Double.ofInt
  by_cases h0 : v.natAbs = 0
  · rw [h0, ofQuot_zero]
    exact ⟨0, 0, rfl, by simp⟩
  · obtain ⟨m, e, h1, h2⟩ := ofQuot_exact (decide (v < 0)) v.natAbs 1 v.natAbs 0
      (by omega) (by decide) hv (by decide) (by decide) (by simp)
    refine ⟨m, e, h1, ?_⟩
    rw [h2]
    simp

theorem div_exact (s t : Bool) (m m2 k : Nat) (e e2 τ : Int) (hm : 0 < m) (hm2 : 0 < m2)
    (hk : k < 2 ^ 53) (ht : -1074 ≤ τ) (ht2 : τ ≤ 971)
    (hx : (m : ℚ) * (2 : ℚ) ^ e / (m2 * (2 : ℚ) ^ e2) = k * (2 : ℚ) ^ τ) :
    ∃ (m3 : Nat) (e3 : Int),
      Double.div (Double.finite s m e) (Double.finite t m2 e2) = Double.finite (s != t) m3 e3 ∧
      (m3 : ℚ) * (2 : ℚ) ^ e3 = (m : ℚ) * (2 : ℚ) ^ e / (m2 * (2 : ℚ) ^ e2) := by
  have hp1 := two_zpow_pos e
  have hp2 := two_zpow_pos e2
  have hm2q : (0 : ℚ) < m2 := by exact_mod_cast hm2
  unfold Double.div
  simp only
  rw [if_neg (by omega)]
  by_cases hle : e2 ≤ e
  · rw [if_pos hle]
    have hq : ((m * 2 ^ (e - e2).toNat : Nat) : ℚ) / (m2 : ℚ)
        = (m : ℚ) * (2 : ℚ) ^ e / (m2 * (2 : ℚ) ^ e2) := by
      rw [Nat.cast_mul, two_zpow_of_nonneg (e - e2) (by omega), zpow_sub₀ (by norm_num)]
      field_simp
      ring
    obtain ⟨m3, e3, h1, h2⟩ := ofQuot_exact (s != t) (m * 2 ^ (e - e2).toNat) m2 k τ
      (Nat.mul_pos hm (Nat.two_pow_pos _)) hm2 hk ht ht2 (hq.trans hx)
    exact ⟨m3, e3, h1, h2.trans hq⟩
  · rw [if_neg hle]
    have hq : (m : ℚ) / ((m2 * 2 ^ (e2 - e).toNat : Nat) : ℚ)
        = (m : ℚ) * (2 : ℚ) ^ e / (m2 * (2 : ℚ) ^ e2) := by
      rw [Nat.cast_mul, two_zpow_of_nonneg (e2 - e) (by omega), zpow_sub₀ (by norm_num)]
      field_simp
    obtain ⟨m3, e3, h1, h2⟩ := ofQuot_exact (s != t) m (m2 * 2 ^ (e2 - e).toNat) k τ
      hm (Nat.mul_pos hm2 (Nat.two_pow_pos _)) hk ht ht2 (hq.trans hx)
    exact ⟨m3, e3, h1, h2.trans hq⟩

theorem mul_exact (s t : Bool) (m m2 k : Nat) (e e2 τ : Int) (hm : 0 < m) (hm2 : 0 < m2)
    (hk : k < 2 ^ 53) (ht : -1074 ≤ τ) (ht2 : τ ≤ 971)
    (hx : (m : ℚ) * (2 : ℚ) ^ e * (m2 * (2 : ℚ) ^ e2) = k * (2 : ℚ) ^ τ) :
    ∃ (m3 : Nat) (e3 : Int),
      Double.mul (Double.finite s m e) (Double.finite t m2 e2) = Double.finite (s != t) m3 e3 ∧
      (m3 : ℚ) * (2 : ℚ) ^ e3 = (m : ℚ) * (2 : ℚ) ^ e * (m2 * (2 : ℚ) ^ e2) := by
  unfold Double.mul
  simp only
  by_cases hle : 0 ≤ e + e2
  · rw [if_pos hle]
    have hq : ((m * m2 * 2 ^ (e + e2).toNat : Nat) : ℚ) / ((1 : Nat) : ℚ)
        = (m : ℚ) * (2 : ℚ) ^ e * (m2 * (2 : ℚ) ^ e2) := by
      rw [Nat.cast_mul, Nat.cast_mul, two_zpow_of_nonneg (e + e2) hle,
        zpow_add₀ (by norm_num)]
      simp only [Nat.cast_one, div_one]
      ring
    obtain ⟨m3, e3, h1, h2⟩ := ofQuot_exact (s != t) (m * m2 * 2 ^ (e + e2).toNat) 1 k τ
      (Nat.mul_pos (Nat.mul_pos hm hm2) (Nat.two_pow_pos _)) (by decide) hk ht ht2
      (hq.trans hx)
    exact ⟨m3, e3, h1, h2.trans hq⟩
  · rw [if_neg hle]
    have hq : ((m * m2 : Nat) : ℚ) / ((2 ^ (-(e + e2)).toNat : Nat) : ℚ)
        = (m : ℚ) * (2 : ℚ) ^ e * (m2 * (2 : ℚ) ^ e2) := by
      rw [Nat.cast_mul, two_zpow_of_neg (e + e2) (by omega), zpow_add₀ (by norm_num)]
      field_simp
      ring
    obtain ⟨m3, e3, h1, h2⟩ := ofQuot_exact (s != t) (m * m2) (2 ^ (-(e + e2)).toNat) k τ
      (Nat.mul_pos hm hm2) (Nat.two_pow_pos _) hk ht ht2 (hq.trans hx)
    exact ⟨m3, e3, h1, h2.trans hq⟩

/-- The function `Math.round` on a finite double of value `x` is the floor of
`x + 1 / 2`. -/
theorem round_finite (s : Bool) (m : Nat) (e : Int) :
    Double.round (Double.finite s m e)
      = some (JSNumber.finite
          ⌊(if s then -1 else 1 : ℚ) * ((m : ℚ) * (2 : ℚ) ^ e) + 1 / 2⌋) := by
  unfold Double.round
  simp only
  congr 2
  obtain ⟨signed, hsigned⟩ : ∃ z : Int, z = (if s = true then -(m : Int) else (m : Int)) :=
    ⟨_, rfl⟩
  rw [← hsigned]
  have hval : (if s then -1 else 1 : ℚ) * ((m : ℚ) * (2 : ℚ) ^ e) = (signed : ℚ) * (2 : ℚ) ^ e := by
    rw [hsigned]
    cases s <;> simp
  rw [hval]
  by_cases he : 0 ≤ e
  · rw [if_pos he]
    have hz : (2 : ℚ) ^ e = (((2 : Int) ^ e.toNat : Int) : ℚ) := by
      rw [← two_zpow_of_nonneg e he]
      push_cast
      rfl
    rw [hz, ← Int.cast_mul, eq_comm, Int.floor_eq_iff]
    constructor <;> norm_num
  · rw [if_neg he]
    have hz : (2 : ℚ) ^ e = ((((2 : Int) ^ (-e).toNat : Int) : ℚ))⁻¹ := by
      have := two_zpow_of_neg e (by omega)
      rw [← inv_inj, inv_inv, ← this]
      push_cast
      rfl
    have hpos : (0 : Int) < 2 ^ (-e).toNat := by positivity
    generalize (2 : Int) ^ (-e).toNat = P at *
    have h := Rat.floor_intCast_div_natCast (2 * signed + P) (2 * P).toNat
    have hP : (((2 * P).toNat : Nat) : Int) = 2 * P := Int.toNat_of_nonneg (by omega)
    have hPq : (((2 * P).toNat : Nat) : ℚ) = 2 * (P : ℚ) := by
      have : ((((2 * P).toNat : Nat) : Int) : ℚ) = ((2 * P : Int) : ℚ) := by rw [hP]
      push_cast at this
      exact this
    rw [hP, hPq] at h
    rw [← h, hz]
    congr 1
    have hPne : (P : ℚ) ≠ 0 := by
      have : (0 : ℚ) < (P : ℚ) := by exact_mod_cast hpos
      exact ne_of_gt this
    push_cast
    field_simp
    ring

/-- The export agrees with the exact quotient for a binary scale: when
`originalWidth / displayWidth` is a fraction `c / 2 ^ j` and `|v| * c` is below
`2 ^ 53`, neither the quotient nor the product is rounded, and the text is the
decimal text of `round(v * originalWidth / displayWidth)`. -/
theorem scaledText_binary_scale (v W w : Int) (c j : Nat) (hW : 0 < W) (hw : 0 < w)
    (hW53 : W < 2 ^ 53) (hw53 : w < 2 ^ 53) (hscale : W * 2 ^ j = c * w) (hj : j ≤ 1074)
    (hc : c < 2 ^ 53) (hprod : v.natAbs * c < 2 ^ 53) :
    scaledText v W w = intToString (round ((v : ℚ) * W / w)) := by
  have hWq : (0 : ℚ) < (W : ℚ) := by exact_mod_cast hW
  have hwq : (0 : ℚ) < (w : ℚ) := by exact_mod_cast hw
  have hWabs : ((W.natAbs : Nat) : ℚ) = (W : ℚ) := by
    rw [Nat.cast_natAbs, abs_of_pos hW]
  have hwabs : ((w.natAbs : Nat) : ℚ) = (w : ℚ) := by
    rw [Nat.cast_natAbs, abs_of_pos hw]
  have hvabs : ((v.natAbs : Nat) : ℚ) = |(v : ℚ)| := by
    rw [Nat.cast_natAbs, Int.cast_abs]
  have hjz : (2 : ℚ) ^ (-(j : Int)) = ((2 : ℚ) ^ j)⁻¹ := by
    rw [zpow_neg, zpow_natCast]
  have hratio : (W : ℚ) / w = c * (2 : ℚ) ^ (-(j : Int)) := by
    have h1 : (W : ℚ) * 2 ^ j = c * w := by exact_mod_cast hscale
    rw [hjz, div_eq_iff (ne_of_gt hwq)]
    have h2 : (0 : ℚ) < 2 ^ j := by positivity
    field_simp
    linarith
  have hcpos : 0 < c := by
    by_contra h0
    have hc0 : c = 0 := by omega
    rw [hc0] at hratio
    simp only [Nat.cast_zero, zero_mul] at hratio
    have := div_pos hWq hwq
    linarith
  obtain ⟨mW, eW, hW1, hW2⟩ := ofInt_exact W (by omega)
  obtain ⟨mw, ew, hw1, hw2⟩ := ofInt_exact w (by omega)
  obtain ⟨mv, ev, hv1, hv2⟩ := ofInt_exact v
    (lt_of_le_of_lt (Nat.le_mul_of_pos_right _ hcpos) hprod)
  rw [hWabs] at hW2
  rw [hwabs] at hw2
  have hmW : 0 < mW := by
    by_contra h0
    have hz : mW = 0 := by omega
    rw [hz] at hW2
    simp only [Nat.cast_zero, zero_mul] at hW2
    linarith
  have hmw : 0 < mw := by
    by_contra h0
    have hz : mw = 0 := by omega
    rw [hz] at hw2
    simp only [Nat.cast_zero, zero_mul] at hw2
    linarith
  have hWneg : decide (W < 0) = false := decide_eq_false (by omega)
  have hwneg : decide (w < 0) = false := decide_eq_false (by omega)
  rw [hWneg] at hW1
  rw [hwneg] at hw1
  obtain ⟨m3, e3, hd1, hd2⟩ := div_exact false false mW mw c eW ew (-(j : Int)) hmW hmw hc
    (by omega) (by omega) (by rw [hW2, hw2, hratio])
  rw [hW2, hw2] at hd2
  unfold scaledText
  rw [hv1, hW1, hw1, hd1]
  have hj1 : (2 : ℚ) ^ (-(j : Int)) ≤ 1 := by
    rw [hjz]
    exact inv_le_one_of_one_le₀ (one_le_pow₀ (by norm_num))
  have hjpos := two_zpow_pos (-(j : Int))
  have hy : (v : ℚ) * W / w = (v : ℚ) * (c * (2 : ℚ) ^ (-(j : Int))) := by
    rw [mul_div_assoc, hratio]
  have hyabs : |(v : ℚ) * W / w| ≤ ((v.natAbs * c : Nat) : ℚ) := by
    rw [hy, abs_mul, abs_of_pos (mul_pos (by exact_mod_cast hcpos) hjpos), Nat.cast_mul, hvabs]
    apply mul_le_mul_of_nonneg_left _ (abs_nonneg _)
    calc (c : ℚ) * (2 : ℚ) ^ (-(j : Int)) ≤ c * 1 :=
          mul_le_mul_of_nonneg_left hj1 (Nat.cast_nonneg _)
      _ = c := mul_one _
  have hsmall : (round ((v : ℚ) * W / w)).natAbs < 2 ^ 53 := by
    have h1 := (abs_le.mp hyabs).1
    have h2 := (abs_le.mp hyabs).2
    have h3 : round ((v : ℚ) * W / w) ≤ ((v.natAbs * c : Nat) : Int) := by
      rw [round_eq, Int.floor_le_iff]
      push_cast at h2 ⊢
      rw [hvabs] at h2
      linarith
    have h4 : -((v.natAbs * c : Nat) : Int) ≤ round ((v : ℚ) * W / w) := by
      rw [round_eq, Int.le_floor]
      push_cast at h1 ⊢
      rw [hvabs] at h1
      linarith
    omega
  rw [← numberToString_small _ hsmall, round_eq]
  by_cases hv0 : mv = 0
  · have hvz : v = 0 := by
      rw [hv0] at hv2
      simp only [Nat.cast_zero, zero_mul] at hv2
      have : v.natAbs = 0 := by exact_mod_cast hv2.symm
      omega
    subst hvz
    rw [hv0]
    unfold Double.mul
    simp only [zero_mul, ofQuot_zero, ite_self]
    rw [round_finite]
    simp [numberText]
  · obtain ⟨m4, e4, hm1, hm2⟩ := mul_exact (decide (v < 0)) (false != false) mv m3
      (v.natAbs * c) ev e3 (-(j : Int)) (by omega)
      (by
        by_contra h0
        have hz : m3 = 0 := by omega
        rw [hz] at hd2
        simp only [Nat.cast_zero, zero_mul] at hd2
        have := div_pos hWq hwq
        linarith)
      hprod (by omega) (by omega)
      (by
        rw [hv2, hd2, hratio]
        push_cast
        ring)
    rw [hm1, round_finite, hm2, hv2, hd2]
    simp only [numberText]
    congr 3
    rw [hvabs]
    by_cases hneg : v < 0
    · have : (v : ℚ) < 0 := by exact_mod_cast hneg
      simp [hneg, abs_of_neg this]
      ring
    · have : (0 : ℚ) ≤ (v : ℚ) := by exact_mod_cast (not_lt.mp hneg)
      simp [hneg, abs_of_nonneg this]
      ring

/-! ## Doubles: signs -/

theorem toDouble_nonneg (n : Int) (h : 0 ≤ n) : (toDouble n).IsNonneg := by
  unfold toDouble
  have hn : ¬ n < 0 := by omega
  split
  · rw [if_neg hn]
    trivial
  · rw [if_neg hn]
    exact Int.natCast_nonneg _

theorem parseInt_nonneg (s : JSString) (x : JSNumber) (hdash : '-' ∉ s)
    (h : parseInt s = some x) : x.IsNonneg := by
  unfold parseInt at h
  cases hm : parseIntMath s with
  | none =>
    rw [hm] at h
    simp at h
  | some v =>
    rw [hm] at h
    simp only [Option.map_some', Option.some.injEq] at h
    rw [← h]
    exact toDouble_nonneg v (parseIntMath_nonneg s v hdash hm)

theorem max_nonneg_right (a b : JSNumber) (h : b.IsNonneg) : (JSNumber.max a b).IsNonneg := by
  cases a <;> cases b <;> first
    | exact h
    | trivial
    | exact le_trans h (le_max_right _ _)

theorem max_nonneg_left (a b : JSNumber) (h : a.IsNonneg) : (JSNumber.max a b).IsNonneg := by
  cases a <;> cases b <;> first
    | exact h
    | trivial
    | exact le_trans h (le_max_left _ _)

theorem foldl_max_nonneg (xs : List JSNumber) :
    ∀ init : JSNumber, init.IsNonneg → (xs.foldl JSNumber.max init).IsNonneg := by
  induction xs with
  | nil => intro init h; exact h
  | cons a rest ih =>
    intro init h
    exact ih _ (max_nonneg_left init a h)

theorem mathMax_nonneg (xs : List JSNumber) (hne : xs ≠ [])
    (h : ∀ x ∈ xs, x.IsNonneg) : (mathMax xs).IsNonneg := by
  cases xs with
  | nil => exact absurd rfl hne
  | cons a rest =>
    unfold mathMax
    rw [List.foldl_cons]
    exact foldl_max_nonneg rest _ (max_nonneg_right _ a (h a (List.mem_cons_self _ _)))

theorem addOne_nonneg (x : JSNumber) (h : x.IsNonneg) : x.addOne.IsNonneg := by
  cases x with
  | negInf => exact h
  | posInf => trivial
  | finite v =>
    have hv : 0 ≤ v := h
    exact toDouble_nonneg (v + 1) (by omega)

theorem nextNumber_nonneg (ids : List JSNumber) (h : ∀ x ∈ ids, x.IsNonneg) :
    (nextNumber ids).IsNonneg := by
  unfold nextNumber
  split
  · rename_i hlen
    exact addOne_nonneg _ (mathMax_nonneg ids (List.length_pos.mp hlen) h)
  · show (0 : Int) ≤ 1
    decide

theorem stripTrailingZeros_subset (ds : List Char) (c : Char)
    (h : c ∈ stripTrailingZeros ds) : c ∈ ds := by
  unfold stripTrailingZeros at h
  rw [List.mem_reverse] at h
  exact List.mem_reverse.mp (mem_dropWhile _ _ _ h)

theorem formatDecimal_no_dash (c : Nat) : '-' ∉ formatDecimal c := by
  have hds := natToString_no_dash c
  have hexp := natToString_no_dash ((natToString c).length - 1)
  have hsig : '-' ∉ stripTrailingZeros (natToString c) :=
    fun h => hds (stripTrailingZeros_subset _ _ h)
  unfold formatDecimal
  simp only
  split
  · exact hds
  · split
    · exact hds
    · rename_i d heq
      rw [heq] at hsig
      intro h
      simp only [List.mem_cons] at h
      rcases h with h | h | h | h
      · exact hsig (by rw [h]; exact List.mem_cons_self _ _)
      · exact absurd h (by decide)
      · exact absurd h (by decide)
      · exact hexp h
    · rename_i d rest _ heq
      rw [heq] at hsig
      intro h
      simp only [List.mem_cons, List.mem_append] at h
      rcases h with h | h | h | h | h | h
      · exact hsig (by rw [h]; exact List.mem_cons_self _ _)
      · exact absurd h (by decide)
      · exact hsig (List.mem_cons_of_mem _ h)
      · exact absurd h (by decide)
      · exact absurd h (by decide)
      · exact hexp h

theorem numberToString_no_dash (x : JSNumber) (h : x.IsNonneg) : '-' ∉ numberToString x := by
  cases x with
  | negInf => exact absurd h id
  | posInf => decide
  | finite v =>
    have hv : ¬ v < 0 := by
      have h0 : 0 ≤ v := h
      omega
    show '-' ∉ (if v < 0 then '-' :: natText v.natAbs else natText v.toNat)
    rw [if_neg hv]
    exact formatDecimal_no_dash _

theorem prefixedNumbers_nonneg (s : State) (pfx : JSString) :
    ∀ x ∈ prefixedNumbers s pfx, x.IsNonneg := by
  intro x hx
  simp only [prefixedNumbers, List.mem_filterMap, List.mem_map] at hx
  obtain ⟨seg, ⟨q, _, hseg⟩, hparse⟩ := hx
  cases seg with
  | none => simp at hparse
  | some t =>
    simp only at hparse
    split at hparse
    · simp at hparse
    · exact parseInt_nonneg t x (splitDash1_no_dash q t hseg) hparse

theorem unprefixedNumbers_nonneg (s : State) : ∀ x ∈ unprefixedNumbers s, x.IsNonneg := by
  intro x hx
  simp only [unprefixedNumbers, List.mem_filterMap, List.mem_filter, Bool.and_eq_true,
    Bool.not_eq_true'] at hx
  obtain ⟨q, ⟨_, hq, _⟩, hparse⟩ := hx
  apply parseInt_nonneg q x _ hparse
  intro hd
  rw [(includesDash_iff q).mpr hd] at hq
  simp at hq

/-! ## ID allocation below `2 ^ 53` -/

theorem foldl_max_finite (rest : List JSNumber)
    (hfin : ∀ x ∈ rest, ∃ v : Int, x = JSNumber.finite v) :
    ∀ m0 : Int, ∃ M : Int,
      rest.foldl JSNumber.max (JSNumber.finite m0) = JSNumber.finite M ∧ m0 ≤ M ∧
      (∀ v : Int, JSNumber.finite v ∈ rest → v ≤ M) ∧
      (M = m0 ∨ JSNumber.finite M ∈ rest) := by
  induction rest with
  | nil =>
    intro m0
    exact ⟨m0, rfl, le_refl _, fun v hv => absurd hv (List.not_mem_nil _), Or.inl rfl⟩
  | cons a rest ih =>
    intro m0
    obtain ⟨va, hva⟩ := hfin a (List.mem_cons_self _ _)
    subst hva
    obtain ⟨M, h1, h2, h3, h4⟩ :=
      ih (fun x hx => hfin x (List.mem_cons_of_mem _ hx)) (max m0 va)
    refine ⟨M, h1, le_trans (le_max_left _ _) h2, ?_, ?_⟩
    · intro v hv
      rcases List.mem_cons.mp hv with hv | hv
      · have : v = va := JSNumber.finite.inj hv
        rw [this]
        exact le_trans (le_max_right _ _) h2
      · exact h3 v hv
    · rcases h4 with h4 | h4
      · rcases max_choice m0 va with hc | hc
        · left
          rw [h4, hc]
        · right
          rw [h4, hc]
          exact List.mem_cons_self _ _
      · right
        exact List.mem_cons_of_mem _ h4

theorem mathMax_finite (ids : List JSNumber) (hne : ids ≠ [])
    (hfin : ∀ x ∈ ids, ∃ v : Int, x = JSNumber.finite v) :
    ∃ M : Int, mathMax ids = JSNumber.finite M ∧
      (∀ v : Int, JSNumber.finite v ∈ ids → v ≤ M) ∧ JSNumber.finite M ∈ ids := by
  cases ids with
  | nil => exact absurd rfl hne
  | cons a rest =>
    obtain ⟨va, hva⟩ := hfin a (List.mem_cons_self _ _)
    subst hva
    obtain ⟨M, h1, h2, h3, h4⟩ :=
      foldl_max_finite rest (fun x hx => hfin x (List.mem_cons_of_mem _ hx)) va
    refine ⟨M, h1, ?_, ?_⟩
    · intro v hv
      rcases List.mem_cons.mp hv with hv | hv
      · have : v = va := JSNumber.finite.inj hv
        rw [this]
        exact h2
      · exact h3 v hv
    · rcases h4 with h4 | h4
      · rw [h4]
        exact List.mem_cons_self _ _
      · exact List.mem_cons_of_mem _ h4

/-- Below `2 ^ 53` the next number is exact: with every number of the
namespace a natural number below `2 ^ 53 - 1`, `nextNumber` is a natural
number from 1 to `2 ^ 53 - 1` above all of them, and 1 more than the greatest. -/
theorem nextNumber_small (ids : List JSNumber)
    (hsmall : ∀ x ∈ ids, ∃ v : Int, x = JSNumber.finite v ∧ 0 ≤ v ∧ v + 1 < 2 ^ 53) :
    ∃ N : Nat, nextNumber ids = JSNumber.finite N ∧ 1 ≤ N ∧ N < 2 ^ 53 ∧
      (∀ v : Int, JSNumber.finite v ∈ ids → v < N) ∧
      (ids = [] → N = 1) ∧ (ids ≠ [] → JSNumber.finite ((N : Int) - 1) ∈ ids) := by
  cases hids : ids with
  | nil =>
    exact ⟨1, rfl, le_refl _, by norm_num, fun v hv => absurd hv (List.not_mem_nil _),
      fun _ => rfl, fun h => absurd rfl h⟩
  | cons a rest =>
    rw [← hids]
    have hne : ids ≠ [] := by
      rw [hids]
      exact List.cons_ne_nil _ _
    obtain ⟨M, h1, h2, h3⟩ := mathMax_finite ids hne
      (fun x hx => (hsmall x hx).imp (fun v hv => hv.1))
    obtain ⟨v, hv, hv0, hv1⟩ := hsmall _ h3
    have hvM : M = v := JSNumber.finite.inj hv
    subst hvM
    have hnext : nextNumber ids = JSNumber.finite (M + 1) := by
      unfold nextNumber
      rw [if_pos (List.length_pos.mpr hne), h1]
      exact toDouble_small (M + 1) (by omega)
    refine ⟨(M + 1).toNat, ?_, by omega, ?_, ?_, fun h => absurd h hne, ?_⟩
    · rw [hnext]
      congr 1
      omega
    · have : ((M + 1).toNat : Int) < 2 ^ 53 := by omega
      exact_mod_cast this
    · intro w hw
      have := h2 w hw
      omega
    · intro _
      have : (((M + 1).toNat : Nat) : Int) - 1 = M := by omega
      rw [this]
      exact h3

theorem parseInt_natToString (n : Nat) (hn : n < 2 ^ 53) :
    parseInt (natToString n) = some (JSNumber.finite n) := by
  unfold parseInt
  rw [parseIntMath_natToString, Option.map_some', toDouble_small _ (by simpa using hn)]

theorem mem_prefixedNumbers (s : State) (pfx : JSString) (n : Nat) (hn : n < 2 ^ 53)
    (hpfx : '-' ∉ pfx) (h : pfx ++ ['-'] ++ natToString n ∈ s.pointIds) :
    JSNumber.finite n ∈ prefixedNumbers s pfx := by
  simp only [prefixedNumbers, List.mem_filterMap, List.mem_map, List.mem_filter]
  refine ⟨some (natToString n), ⟨pfx ++ ['-'] ++ natToString n, ⟨h, ?_⟩, ?_⟩, ?_⟩
  · simp [startsWith]
  · rw [List.append_assoc, List.singleton_append]
    exact splitDash1_append pfx _ hpfx (natToString_no_dash n)
  · simp only
    have hne := (natToString_spec n).1
    have : (natToString n).isEmpty = false := by
      cases hh : natToString n with
      | nil => exact absurd hh hne
      | cons a l => rfl
    rw [this]
    simp only [Bool.false_eq_true, if_false]
    exact parseInt_natToString n hn

theorem mem_unprefixedNumbers (s : State) (n : Nat) (hn : n < 2 ^ 53)
    (h : natToString n ∈ s.pointIds) : JSNumber.finite n ∈ unprefixedNumbers s := by
  simp only [unprefixedNumbers, List.mem_filterMap, List.mem_filter, Bool.and_eq_true,
    Bool.not_eq_true']
  refine ⟨natToString n, ⟨h, ?_, ?_⟩, parseInt_natToString n hn⟩
  · cases hh : includesDash (natToString n) with
    | false => rfl
    | true => exact absurd ((includesDash_iff _).mp hh) (natToString_no_dash n)
  · rw [parseInt_natToString n hn]
    rfl

/-- The numbers `duplicatePoint` reads for the id of the point it copies. -/
theorem namespace_small (s : State) (id : JSString)
    (hsmall : ∀ x ∈ (if includesDash id then prefixedNumbers s (splitDash0 id)
        else unprefixedNumbers s), ∃ v : Int, x = JSNumber.finite v ∧ v + 1 < 2 ^ 53) :
    ∀ x ∈ (if includesDash id then prefixedNumbers s (splitDash0 id)
        else unprefixedNumbers s),
      ∃ v : Int, x = JSNumber.finite v ∧ 0 ≤ v ∧ v + 1 < 2 ^ 53 := by
  intro x hx
  obtain ⟨v, hv, hlt⟩ := hsmall x hx
  refine ⟨v, hv, ?_, hlt⟩
  have hnn : x.IsNonneg := by
    split at hx
    · exact prefixedNumbers_nonneg s _ x hx
    · exact unprefixedNumbers_nonneg s x hx
  rw [hv] at hnn
  exact hnn

/-- Below `2 ^ 53` the id of a duplicate is not in use: when every number of
the namespace of `id` is below `2 ^ 53 - 1`, the id `duplicatePoint` computes
carries a number above all of them and belongs to no point. -/
theorem duplicateId_fresh_small (s : State) (id : JSString)
    (hsmall : ∀ x ∈ (if includesDash id then prefixedNumbers s (splitDash0 id)
        else unprefixedNumbers s), ∃ v : Int, x = JSNumber.finite v ∧ v + 1 < 2 ^ 53) :
    duplicateId s id ∉ s.pointIds := by
  have hs := namespace_small s id hsmall
  obtain ⟨N, h1, h2, h3, h4, _, _⟩ := nextNumber_small _ hs
  have htext : numberToString (JSNumber.finite (N : Int)) = natToString N :=
    numberToString_small _ (by simpa using h3)
  unfold duplicateId
  by_cases hd : includesDash id = true
  · rw [if_pos hd] at h1 h4 ⊢
    simp only
    rw [h1, htext]
    intro hmem
    have := h4 N (mem_prefixedNumbers s _ N h3 (splitDash0_no_dash id) hmem)
    omega
  · rw [if_neg hd] at h1 h4 ⊢
    rw [h1, htext]
    intro hmem
    have := h4 N (mem_unprefixedNumbers s N h3 hmem)
    omega

/-- Below `2 ^ 53` the id of a duplicate is built from the exact successor of
the greatest number of the namespace: it is the decimal text of a natural
number `N` that is above every number of the namespace, 1 when there is none
and 1 more than one of them otherwise. -/
theorem duplicateId_small (s : State) (id : JSString)
    (hsmall : ∀ x ∈ (if includesDash id then prefixedNumbers s (splitDash0 id)
        else unprefixedNumbers s), ∃ v : Int, x = JSNumber.finite v ∧ v + 1 < 2 ^ 53) :
    ∃ N : Nat, 1 ≤ N ∧
      duplicateId s id
        = (if includesDash id then splitDash0 id ++ ['-'] ++ natToString N
           else natToString N) ∧
      (∀ v : Int, JSNumber.finite v ∈ (if includesDash id then
          prefixedNumbers s (splitDash0 id) else unprefixedNumbers s) → v < N) ∧
      ((if includesDash id then prefixedNumbers s (splitDash0 id)
          else unprefixedNumbers s) = [] → N = 1) ∧
      ((if includesDash id then prefixedNumbers s (splitDash0 id)
          else unprefixedNumbers s) ≠ [] →
        JSNumber.finite ((N : Int) - 1) ∈ (if includesDash id then
          prefixedNumbers s (splitDash0 id) else unprefixedNumbers s)) := by
  have hs := namespace_small s id hsmall
  obtain ⟨N, h1, h2, h3, h4, h5, h6⟩ := nextNumber_small _ hs
  have htext : numberToString (JSNumber.finite (N : Int)) = natToString N :=
    numberToString_small _ (by simpa using h3)
  refine ⟨N, h2, ?_, h4, h5, h6⟩
  unfold duplicateId
  by_cases hd : includesDash id = true
  · rw [if_pos hd] at h1
    rw [if_pos hd, if_pos hd]
    simp only
    rw [h1, htext]
  · rw [if_neg hd] at h1
    rw [if_neg hd, if_neg hd, h1, htext]

/-! ## The invariant -/

theorem pointIds_eq (s : State) : s.pointIds = s.points.map (idAt s.heap) := rfl

theorem inv_of_fields (s t : State) (h : s.Inv) (h1 : t.heap = s.heap)
    (h2 : t.points = s.points) (h3 : t.history = s.history) : t.Inv := by
  unfold State.Inv at *
  rw [h1, h2, h3]
  exact h

theorem wellFormed_sublist (heap : List Point) (points points1 : List Nat)
    (history history1 : List HistoryEntry) (h : HeapWellFormed heap points history)
    (hsub : List.Sublist points1 points) (hhist : ∀ e ∈ history1, e ∈ history) :
    HeapWellFormed heap points1 history1 :=
  ⟨fun r hr => h.1 r (hsub.subset hr), List.Nodup.sublist (hsub.map _) h.2.1,
    fun e he => h.2.2 e (hhist e he)⟩

theorem mem_arraySlice {α : Type} (a : List α) (start stop : Int) (x : α)
    (h : x ∈ arraySlice a start stop) : x ∈ a :=
  List.mem_of_mem_take (List.mem_of_mem_drop h)

theorem mem_saveState_history (s : State) (action : JSString) (e : HistoryEntry)
    (h : e ∈ (saveState s action).history) : e ∈ s.history ∨ e = snapshot s action := by
  rw [saveState_history] at h
  have hp : e ∈ pushedHistory s action := by
    split at h
    · exact List.mem_of_mem_drop h
    · exact h
  unfold pushedHistory at hp
  rcases List.mem_append.mp hp with h1 | h1
  · left
    split at h1
    · exact mem_arraySlice _ _ _ _ h1
    · exact h1
  · right
    simpa using h1

theorem pointValues_ids (s : State) :
    s.pointValues.map Point.point_id = s.points.map (idAt s.heap) := by
  simp only [State.pointValues, List.map_map]
  rfl

theorem inv_saveState (s : State) (action : JSString) (h : s.Inv) :
    (saveState s action).Inv := by
  have hs := saveState_eq s action
  unfold State.Inv
  rw [hs]
  refine ⟨h.1, h.2.1, ?_⟩
  intro e he
  rcases mem_saveState_history s action e he with h1 | h1
  · exact h.2.2 e h1
  · rw [h1]
    show (s.pointValues.map Point.point_id).Nodup
    rw [pointValues_ids]
    exact h.2.1

theorem inv_restoreState (s : State) (e : HistoryEntry)
    (hhist : ∀ e1 ∈ s.history, (e1.points.map Point.point_id).Nodup)
    (he : (e.points.map Point.point_id).Nodup) : (restoreState s e).Inv := by
  refine ⟨?_, ?_, hhist⟩
  · intro r hr
    have hr1 : r ∈ List.range' s.heap.length e.points.length := hr
    rw [List.mem_range'_1] at hr1
    show r < (s.heap ++ e.points).length
    rw [List.length_append]
    omega
  · have := restoreState_pointValues s e
    have h2 := pointValues_ids (restoreState s e)
    rw [this] at h2
    rw [← h2]
    exact he

theorem mem_arrayGet {α : Type} (a : List α) (i : Int) (e : α) (h : arrayGet a i = some e) :
    e ∈ a := by
  unfold arrayGet at h
  split at h
  · simp at h
  · obtain ⟨hlt, heq⟩ := List.getElem?_eq_some_iff.mp h
    rw [← heq]
    exact List.getElem_mem hlt

theorem inv_undo (s : State) (h : s.Inv) : (undo s).Inv := by
  unfold undo
  split
  · simp only
    split
    · rename_i e he
      exact inv_restoreState _ e h.2.2 (h.2.2 e (mem_arrayGet _ _ _ he))
    · exact h
  · exact h

theorem inv_redo (s : State) (h : s.Inv) : (redo s).Inv := by
  unfold redo
  split
  · simp only
    split
    · rename_i e he
      exact inv_restoreState _ e h.2.2 (h.2.2 e (mem_arrayGet _ _ _ he))
    · exact h
  · exact h

theorem idAt_append (heap : List Point) (p : Point) (r : Nat) (h : r < heap.length) :
    idAt (heap ++ [p]) r = idAt heap r := by
  unfold idAt
  rw [List.getD_append _ _ _ _ h]

theorem idAt_append_new (heap : List Point) (p : Point) :
    idAt (heap ++ [p]) heap.length = p.point_id := by
  unfold idAt
  rw [List.getD_eq_getElem?_getD, List.getElem?_append_right (le_refl _)]
  simp

theorem wellFormed_push (heap : List Point) (points : List Nat) (history : List HistoryEntry)
    (p : Point) (h : HeapWellFormed heap points history)
    (hfresh : p.point_id ∉ points.map (idAt heap)) :
    HeapWellFormed (heap ++ [p]) (points ++ [heap.length]) history := by
  have hmap : points.map (idAt (heap ++ [p])) = points.map (idAt heap) :=
    List.map_congr_left (fun r hr => idAt_append heap p r (h.1 r hr))
  refine ⟨?_, ?_, h.2.2⟩
  · intro r hr
    rw [List.length_append, List.length_singleton]
    rcases List.mem_append.mp hr with h1 | h1
    · have := h.1 r h1
      omega
    · rw [List.mem_singleton] at h1
      omega
  · rw [List.map_append, hmap, List.map_singleton, idAt_append_new]
    apply List.Nodup.append h.2.1 (List.nodup_singleton _)
    intro x hx hx1
    rw [List.mem_singleton] at hx1
    exact hfresh (hx1 ▸ hx)

theorem idAt_modify_ne (heap : List Point) (e r : Nat) (f : Point → Point) (h : e ≠ r) :
    idAt (heapModify heap e f) r = idAt heap r := by
  unfold idAt
  rw [heapModify_getD_ne _ _ _ _ _ h]

theorem idAt_modify_eq (heap : List Point) (e : Nat) (f : Point → Point) (h : e < heap.length) :
    idAt (heapModify heap e f) e
      = (f (heap.getD e { point_id := [], x := 0, y := 0 })).point_id := by
  unfold idAt
  rw [heapModify_getD_eq _ _ _ _ h]

theorem wellFormed_rename (heap : List Point) (points : List Nat)
    (history : List HistoryEntry) (e : Nat) (newId : JSString)
    (h : HeapWellFormed heap points history)
    (hcheck : ∀ p ∈ points, idAt heap p = newId → p = e) :
    HeapWellFormed (heapModify heap e (fun o => { o with point_id := newId })) points history := by
  refine ⟨?_, ?_, h.2.2⟩
  · intro r hr
    rw [heapModify_length]
    exact h.1 r hr
  · apply List.Nodup.map_on _ (List.Nodup.of_map _ h.2.1)
    intro x hx y hy hxy
    have hinj := List.inj_on_of_nodup_map h.2.1
    by_cases hxe : x = e
    · by_cases hye : y = e
      · rw [hxe, hye]
      · rw [hxe, idAt_modify_eq _ _ _ (h.1 e (hxe ▸ hx)), idAt_modify_ne _ _ _ _ (Ne.symm hye)] at hxy
        exact absurd (hcheck y hy hxy.symm) hye
    · by_cases hye : y = e
      · rw [hye, idAt_modify_eq _ _ _ (h.1 e (hye ▸ hy)), idAt_modify_ne _ _ _ _ (Ne.symm hxe)] at hxy
        exact absurd (hcheck x hx hxy) hxe
      · rw [idAt_modify_ne _ _ _ _ (Ne.symm hxe), idAt_modify_ne _ _ _ _ (Ne.symm hye)] at hxy
        exact hinj hx hy hxy

theorem dragLoop_idAt (width height deltaX deltaY : Int) (selected : List Nat) :
    ∀ heap : List Point,
      (selected.foldl
        (fun heap r => heapModify heap r (dragPoint width height deltaX deltaY)) heap).length
        = heap.length ∧
      ∀ r, idAt (selected.foldl
        (fun heap r => heapModify heap r (dragPoint width height deltaX deltaY)) heap) r
        = idAt heap r := by
  induction selected with
  | nil => intro heap; exact ⟨rfl, fun _ => rfl⟩
  | cons a rest ih =>
    intro heap
    obtain ⟨h1, h2⟩ := ih (heapModify heap a (dragPoint width height deltaX deltaY))
    simp only [List.foldl_cons]
    refine ⟨by rw [h1, heapModify_length], ?_⟩
    intro r
    rw [h2]
    by_cases har : a = r
    · subst har
      by_cases hlt : a < heap.length
      · rw [idAt_modify_eq _ _ _ hlt]
        rfl
      · unfold idAt heapModify
        rw [List.modify_eq_self (by omega)]
    · exact idAt_modify_ne _ _ _ _ har

/-! ## Every event preserves the invariant -/

theorem inv_initialState (settings : Settings) : (initialState settings).Inv :=
  ⟨fun _ h => absurd h (List.not_mem_nil _), List.nodup_nil, fun _ h => absurd h (List.not_mem_nil _)⟩

theorem inv_reset (s : State) (h2 : s.points = []) (h3 : s.history = []) : s.Inv := by
  unfold State.Inv
  rw [h2, h3]
  exact ⟨fun _ h => absurd h (List.not_mem_nil _), List.nodup_nil,
    fun _ h => absurd h (List.not_mem_nil _)⟩

theorem inv_addPrefix (s : State) (raw : JSString) (h : s.Inv) : (addPrefix s raw).1.Inv := by
  unfold addPrefix
  split
  · exact h
  · simp only
    split
    · exact h
    · split
      · exact h
      · exact h

theorem inv_removePoints (toRemove : List Nat) :
    ∀ acc : State, acc.Inv → (removePoints acc toRemove).Inv := by
  induction toRemove with
  | nil => intro acc h; exact h
  | cons r rest ih =>
    intro acc h
    unfold removePoints
    simp only [List.foldl_cons]
    apply ih
    split
    · exact wellFormed_sublist _ _ _ _ _ h (List.erase_sublist r acc.points) (fun _ he => he)
    · exact h

theorem inv_removePrefix (s : State) (pfx : JSString) (answer : Bool) (h : s.Inv) :
    (removePrefix s pfx answer).1.Inv := by
  unfold removePrefix
  simp only
  split
  · exact h
  · split
    · apply inv_saveState
      apply inv_removePoints
      exact h
    · exact h

theorem inv_imageLoaded (s : State) (img : Image) (w h : Int) : (imageLoaded s img w h).Inv := by
  unfold imageLoaded
  apply inv_saveState
  exact inv_reset _ rfl rfl

theorem onCanvasClick_fields (s : State) (ev : MouseEvent) :
    (onCanvasClick s ev).heap = s.heap ∧ (onCanvasClick s ev).points = s.points ∧
      (onCanvasClick s ev).history = s.history := by
  unfold onCanvasClick selectPointsInRange
  simp only []
  repeat' split
  all_goals exact ⟨rfl, rfl, rfl⟩

theorem onRightClick_fields (s : State) (ev : MouseEvent) :
    (onRightClick s ev).heap = s.heap ∧ (onRightClick s ev).points = s.points ∧
      (onRightClick s ev).history = s.history := by
  unfold onRightClick showContextMenu
  simp only []
  repeat' split
  all_goals exact ⟨rfl, rfl, rfl⟩

theorem onMouseDown_fields (s : State) (ev : MouseEvent) :
    (onMouseDown s ev).heap = s.heap ∧ (onMouseDown s ev).points = s.points ∧
      (onMouseDown s ev).history = s.history := by
  unfold onMouseDown
  simp only []
  repeat' split
  all_goals exact ⟨rfl, rfl, rfl⟩

theorem updateSelectionBox_fields (s : State) :
    (updateSelectionBox s).heap = s.heap ∧ (updateSelectionBox s).points = s.points ∧
      (updateSelectionBox s).history = s.history := by
  unfold updateSelectionBox
  split <;> exact ⟨rfl, rfl, rfl⟩

theorem inv_of_ids (s t : State) (h : s.Inv) (h1 : t.heap.length = s.heap.length)
    (h2 : ∀ r, idAt t.heap r = idAt s.heap r) (h3 : t.points = s.points)
    (h4 : t.history = s.history) : t.Inv := by
  unfold State.Inv at *
  rw [h3, h4]
  refine ⟨fun r hr => by rw [h1]; exact h.1 r hr, ?_, h.2.2⟩
  rw [List.map_congr_left (fun r _ => h2 r)]
  exact h.2.1

theorem inv_onMouseMove (s : State) (ev : MouseEvent) (h : s.Inv) : (onMouseMove s ev).Inv := by
  unfold onMouseMove
  split
  · exact h
  · simp only
    split
    · have hl := dragLoop_idAt s.canvasWidth s.canvasHeight
        (ev.clientX - ev.rectLeft - (s.lastMousePos.1 - ev.rectLeft))
        (ev.clientY - ev.rectTop - (s.lastMousePos.2 - ev.rectTop)) s.selectedPoints s.heap
      exact inv_of_ids s _ h hl.1 hl.2 rfl rfl
    · split
      · split
        · rename_i box _
          have hf := updateSelectionBox_fields
            { s with selectionBox := some { box with endX := ev.clientX - ev.rectLeft,
                                                     endY := ev.clientY - ev.rectTop } }
          exact inv_of_fields s _ h hf.1 hf.2.1 hf.2.2
        · exact h
      · exact h

theorem inv_onMouseUp (s : State) (h : s.Inv) : (onMouseUp s).Inv := by
  unfold onMouseUp
  simp only
  split
  · exact inv_of_fields _ _ (inv_saveState s _ h) rfl rfl rfl
  · exact h

theorem inv_editPoint (s : State) (point : Option Ref) (h : s.Inv) : (editPoint s point).Inv := by
  unfold editPoint
  split <;> exact h

theorem inv_duplicatePoint (s : State) (point : Option Ref) (h : s.Inv)
    (hfresh : ∀ p : Ref, point = some p → duplicateId s (s.deref p).point_id ∉ s.pointIds) :
    (duplicatePoint s point).Inv := by
  unfold duplicatePoint
  split
  · exact h
  · rename_i p
    apply inv_saveState
    exact wellFormed_push _ _ _ _ h (hfresh p rfl)

theorem inv_deletePoint (s : State) (point : Option Ref) (h : s.Inv) :
    (deletePoint s point).Inv := by
  unfold deletePoint
  split
  · exact h
  · split
    · apply inv_saveState
      exact wellFormed_sublist _ _ _ _ _ h (List.erase_sublist _ _) (fun _ he => he)
    · exact h

theorem deleteLoop_sublist (selected : List Nat) :
    ∀ points : List Nat,
      List.Sublist
        (selected.foldl (fun pts r => if r ∈ pts then pts.erase r else pts) points) points := by
  induction selected with
  | nil => intro points; exact List.Sublist.refl _
  | cons r rest ih =>
    intro points
    simp only [List.foldl_cons]
    refine List.Sublist.trans (ih _) ?_
    split
    · exact List.erase_sublist _ _
    · exact List.Sublist.refl _

theorem inv_deleteSelected (s : State) (answer : Bool) (h : s.Inv) :
    (deleteSelected s answer).Inv := by
  unfold deleteSelected
  split
  · exact h
  · simp only
    split
    · apply inv_saveState
      exact wellFormed_sublist _ _ _ _ _ h (deleteLoop_sublist _ _) (fun _ he => he)
    · exact h

theorem inv_clearAll (s : State) (answer : Bool) (h : s.Inv) : (clearAll s answer).Inv := by
  unfold clearAll
  split
  · exact h
  · split
    · apply inv_saveState
      exact inv_reset _ rfl rfl
    · exact h

theorem inv_handleContextMenuAction (s : State) (a : MenuAction) (h : s.Inv) :
    (handleContextMenuAction s a).Inv := by
  unfold handleContextMenuAction
  have h1 : (hideContextMenu s).Inv := h
  cases a
  · exact inv_editPoint _ _ h1
  · exact inv_duplicatePoint _ _ h1 (fun p hp => Option.noConfusion hp)
  · exact inv_deletePoint _ _ h1

theorem inv_addPoint (s : State) (pfx rawId : JSString) (h : s.Inv) :
    (addPoint s pfx rawId).Inv := by
  unfold addPoint
  simp only
  split
  · exact h
  · split
    · exact h
    · split
      · rename_i e _
        split
        · exact h
        · rename_i hcheck
          apply inv_of_fields _ _ _ rfl rfl rfl
          apply inv_saveState
          refine wellFormed_rename _ _ _ e _ h ?_
          intro p hp hid
          by_contra hne
          apply hcheck
          rw [List.any_eq_true]
          exact ⟨p, hp, by simpa using ⟨hid, hne⟩⟩
      · split
        · exact h
        · rename_i hcheck
          split
          · exact h
          · apply inv_of_fields _ _ _ rfl rfl rfl
            apply inv_saveState
            refine wellFormed_push _ _ _ _ h ?_
            intro hmem
            apply hcheck
            rw [List.any_eq_true]
            obtain ⟨p, hp, hid⟩ := List.mem_map.mp hmem
            exact ⟨p, hp, by simpa using hid⟩

theorem inv_step (s : State) (a : Action) (h : s.Inv)
    (hfresh : ∀ p : Ref, a = Action.duplicatePoint (some p) →
      duplicateId s (s.deref p).point_id ∉ s.pointIds) :
    (step s a).Inv := by
  cases a with
  | addPrefix raw => exact inv_addPrefix s raw h
  | removePrefix pfx answer => exact inv_removePrefix s pfx answer h
  | undo => exact inv_undo s h
  | redo => exact inv_redo s h
  | imageLoaded img w hh => exact inv_imageLoaded s img w hh
  | canvasClick ev =>
    have hf := onCanvasClick_fields s ev
    exact inv_of_fields s _ h hf.1 hf.2.1 hf.2.2
  | rightClick ev =>
    have hf := onRightClick_fields s ev
    exact inv_of_fields s _ h hf.1 hf.2.1 hf.2.2
  | mouseDown ev =>
    have hf := onMouseDown_fields s ev
    exact inv_of_fields s _ h hf.1 hf.2.1 hf.2.2
  | mouseMove ev => exact inv_onMouseMove s ev h
  | mouseUp => exact inv_onMouseUp s h
  | hideContextMenu => exact h
  | contextMenuAction a => exact inv_handleContextMenuAction s a h
  | editPoint point => exact inv_editPoint s point h
  | duplicatePoint point =>
    exact inv_duplicatePoint s point h (fun p hp => hfresh p (by rw [hp]))
  | deletePoint point => exact inv_deletePoint s point h
  | selectAll => exact h
  | deselectAll => exact h
  | deleteSelected answer => exact inv_deleteSelected s answer h
  | clearAll answer => exact inv_clearAll s answer h
  | setFilter type => exact h
  | closeModal => exact h
  | addPoint pfx rawId => exact inv_addPoint s pfx rawId h
  | applySettings settings => exact h

/-! ## Point-ID uniqueness -/

/-- C1, the code at a failing input: the numbers of the ID allocation are
doubles.  With the single point `9007199254740992` (2 to the power 53),
`Math.max(...) + 1` is 9007199254740992 again, so `duplicatePoint` pushes a
second point with the id `9007199254740992`: the state is reachable and two
entries of its point list carry the same `point_id`.  Apart from that the
claim holds: the invariant (which has the ids of the point list pairwise
distinct) holds initially and is kept by every event, provided a
`duplicatePoint` finds only numbers below `2 ^ 53 - 1` in the namespace of the
point it copies; the id it allocates is then not in use. -/
theorem duplicatePoint_reuses_id :
    Reachable stateLargeIdDuplicated ∧
    stateLargeId.pointIds = ["9007199254740992".toList] ∧
    parseInt "9007199254740992".toList = some (JSNumber.finite 9007199254740992) ∧
    (JSNumber.finite 9007199254740992).addOne = JSNumber.finite 9007199254740992 ∧
    duplicateId stateLargeId "9007199254740992".toList = "9007199254740992".toList ∧
    stateLargeIdDuplicated.pointIds
      = ["9007199254740992".toList, "9007199254740992".toList] ∧
    ¬ stateLargeIdDuplicated.pointIds.Nodup ∧
    (∀ settings : Settings, (initialState settings).Inv) ∧
    (∀ s : State, s.Inv → s.pointIds.Nodup) ∧
    (∀ (s : State) (a : Action), s.Inv →
      (∀ p : Ref, a = Action.duplicatePoint (some p) →
        ∀ x ∈ (if includesDash (s.deref p).point_id then
                prefixedNumbers s (splitDash0 (s.deref p).point_id)
               else unprefixedNumbers s),
          ∃ v : Int, x = JSNumber.finite v ∧ v + 1 < 2 ^ 53) →
      (step s a).Inv) ∧
    (∀ (s : State) (id : JSString),
      (∀ x ∈ (if includesDash id then prefixedNumbers s (splitDash0 id)
              else unprefixedNumbers s),
        ∃ v : Int, x = JSNumber.finite v ∧ v + 1 < 2 ^ 53) →
      duplicateId s id ∉ s.pointIds) :=
  ⟨Reachable.step (Action.duplicatePoint (some 0))
      (reachable_run _ _ (Reachable.init defaultSettings) (by decide)) (by decide),
    by decide, by decide, by decide, by decide, by decide, by decide,
    inv_initialState, fun _ h => h.2.1,
    fun s a hinv h => inv_step s a hinv (fun p hp => duplicateId_fresh_small s _ (h p hp)),
    duplicateId_fresh_small⟩

/-! ## Context menu -/

/-- C11, the code at a failing input: `handleContextMenuAction` hides the menu
before it reads `contextMenuTarget`, so whatever point the menu was opened for,
every action only clears the target.  With the points `1` and `2` and the menu
opened on point `1` by a right click, `delete` leaves both points in the list,
`duplicate` appends nothing and `edit` sets no point being edited. -/
theorem contextMenuAction_loses_target :
    (∀ (s : State) (p : Ref) (a : MenuAction),
      handleContextMenuAction (showContextMenu s (some p)) a = hideContextMenu s) ∧
    Reachable stateMenuOpen ∧ stateMenuOpen.contextMenuTarget = some 0 ∧
    0 ∈ stateMenuOpen.points ∧
    (handleContextMenuAction stateMenuOpen MenuAction.delete).points = stateMenuOpen.points ∧
    (handleContextMenuAction stateMenuOpen MenuAction.duplicate).points
      = stateMenuOpen.points ∧
    (handleContextMenuAction stateMenuOpen MenuAction.edit).editingPoint = none ∧
    (deletePoint stateMenuOpen (some 0)).points = [1] :=
  ⟨fun _ _ a => by cases a <;> rfl,
    Reachable.step (Action.rightClick (rightButtonAt 100 100)) reachable_stateTwoPoints rfl,
    by decide, by decide, by decide, by decide, by decide, by decide⟩

/-! ## Duplicating a point -/

theorem saveState_points (s : State) (action : JSString) :
    (saveState s action).points = s.points := by
  rw [saveState_eq]

theorem saveState_heap (s : State) (action : JSString) :
    (saveState s action).heap = s.heap := by
  rw [saveState_eq]

theorem saveState_selectedPoints (s : State) (action : JSString) :
    (saveState s action).selectedPoints = s.selectedPoints := by
  rw [saveState_eq]

theorem saveState_prefixes (s : State) (action : JSString) :
    (saveState s action).prefixes = s.prefixes := by
  rw [saveState_eq]

theorem map_getD_push (heap : List Point) (points : List Nat) (p d : Point)
    (hvalid : ∀ r : Nat, r ∈ points → r < heap.length) :
    (points ++ [heap.length]).map (fun r => (heap ++ [p]).getD r d)
      = points.map (fun r => heap.getD r d) ++ [p] := by
  rw [List.map_append, List.map_singleton]
  congr 1
  · exact List.map_congr_left (fun r hr => List.getD_append _ _ _ _ (hvalid r hr))
  · rw [List.getD_eq_getElem?_getD, List.getElem?_append_right (le_refl _)]
    simp

theorem takeWhile_ne_dash_append (pfx rest : JSString) (h : '-' ∉ pfx) :
    (pfx ++ '-' :: rest).takeWhile (fun c => c != '-') = pfx := by
  induction pfx with
  | nil => simp
  | cons a pfx ih =>
    have ha : a ≠ '-' := fun hh => h (by rw [hh]; exact List.mem_cons_self _ _)
    have hp : '-' ∉ pfx := fun hh => h (List.mem_cons_of_mem _ hh)
    simp only [List.cons_append, List.takeWhile_cons, bne_iff_ne, ne_eq, ha, not_false_eq_true,
      decide_True, if_true]
    rw [ih hp]

theorem namespaceOf_prefixed (pfx rest : JSString) (h : '-' ∉ pfx) :
    namespaceOf (pfx ++ ['-'] ++ rest) = pfx := by
  unfold namespaceOf
  rw [if_pos ((includesDash_iff _).mpr (by simp))]
  unfold splitDash0
  rw [List.append_assoc, List.singleton_append]
  exact takeWhile_ne_dash_append pfx rest h

theorem namespaceOf_of_no_dash (id : JSString) (h : '-' ∉ id) : namespaceOf id = [] := by
  unfold namespaceOf
  rw [if_neg]
  intro hd
  exact h ((includesDash_iff id).mp hd)

theorem duplicateId_number_nonneg (s : State) (id : JSString) :
    (nextNumber
      (if includesDash id then prefixedNumbers s (splitDash0 id)
       else unprefixedNumbers s)).IsNonneg := by
  split
  · exact nextNumber_nonneg _ (prefixedNumbers_nonneg s (splitDash0 id))
  · exact nextNumber_nonneg _ (unprefixedNumbers_nonneg s)

theorem duplicateId_eq (s : State) (id : JSString) :
    duplicateId s id
      = if includesDash id then
          splitDash0 id ++ ['-'] ++ numberToString (nextNumber (prefixedNumbers s (splitDash0 id)))
        else numberToString (nextNumber (unprefixedNumbers s)) := by
  unfold duplicateId
  split <;> rfl

theorem namespaceOf_duplicateId (s : State) (id : JSString) :
    namespaceOf (duplicateId s id) = namespaceOf id := by
  rw [duplicateId_eq]
  by_cases hd : includesDash id = true
  · rw [if_pos hd, namespaceOf_prefixed _ _ (splitDash0_no_dash id)]
    unfold namespaceOf
    rw [if_pos hd]
  · rw [if_neg hd, namespaceOf_of_no_dash _
      (numberToString_no_dash _ (nextNumber_nonneg _ (unprefixedNumbers_nonneg s)))]
    unfold namespaceOf
    rw [if_neg hd]

/-- C12: `duplicatePoint(p)` appends exactly one new point object at the end of
the point list, with coordinates `(p.x + 30, p.y + 30)` and a `point_id` in the
namespace of `p` built from the next number `n` of that namespace, as the code
computes it in doubles (`<prefix>-<n>` for a prefixed `p`, `<n>` for an
unprefixed one, `n` written by `String`, never negative); every existing point
object is unchanged and the earlier entries keep their order.  When the
numbers of the namespace are below `2 ^ 53 - 1`, `n` is the decimal text of
the natural number 1 above the greatest of them, and of 1 when there is none. -/
theorem duplicatePoint_appends (s : State) (p : Nat)
    (hvalid : ∀ r : Nat, r ∈ s.points → r < s.heap.length) :
    (duplicatePoint s (some p)).points = s.points ++ [s.heap.length] ∧
    (duplicatePoint s (some p)).pointValues
      = s.pointValues ++ [{ point_id := duplicateId s (s.deref p).point_id,
                            x := (s.deref p).x + 30, y := (s.deref p).y + 30 }] ∧
    (∀ r : Nat, r < s.heap.length → (duplicatePoint s (some p)).deref r = s.deref r) ∧
    namespaceOf (duplicateId s (s.deref p).point_id) = namespaceOf (s.deref p).point_id ∧
    (nextNumber
      (if includesDash (s.deref p).point_id then
        prefixedNumbers s (splitDash0 (s.deref p).point_id)
       else unprefixedNumbers s)).IsNonneg ∧
    duplicateId s (s.deref p).point_id
      = (if includesDash (s.deref p).point_id then
          splitDash0 (s.deref p).point_id ++ ['-'] ++
            numberToString (nextNumber (prefixedNumbers s (splitDash0 (s.deref p).point_id)))
        else numberToString (nextNumber (unprefixedNumbers s))) ∧
    ((∀ x ∈ (if includesDash (s.deref p).point_id then
              prefixedNumbers s (splitDash0 (s.deref p).point_id)
             else unprefixedNumbers s),
        ∃ v : Int, x = JSNumber.finite v ∧ v + 1 < 2 ^ 53) →
      ∃ N : Nat, 1 ≤ N ∧
        duplicateId s (s.deref p).point_id
          = (if includesDash (s.deref p).point_id then
              splitDash0 (s.deref p).point_id ++ ['-'] ++ natToString N
             else natToString N) ∧
        (∀ v : Int, JSNumber.finite v ∈ (if includesDash (s.deref p).point_id then
            prefixedNumbers s (splitDash0 (s.deref p).point_id)
            else unprefixedNumbers s) → v < N) ∧
        ((if includesDash (s.deref p).point_id then
            prefixedNumbers s (splitDash0 (s.deref p).point_id)
            else unprefixedNumbers s) = [] → N = 1) ∧
        ((if includesDash (s.deref p).point_id then
            prefixedNumbers s (splitDash0 (s.deref p).point_id)
            else unprefixedNumbers s) ≠ [] →
          JSNumber.finite ((N : Int) - 1) ∈ (if includesDash (s.deref p).point_id then
            prefixedNumbers s (splitDash0 (s.deref p).point_id)
            else unprefixedNumbers s))) := by
  refine ⟨?_, ?_, ?_, namespaceOf_duplicateId s _, duplicateId_number_nonneg s _,
    duplicateId_eq s _, duplicateId_small s _⟩
  · unfold duplicatePoint
    simp only
    rw [saveState_points]
  · unfold duplicatePoint
    simp only
    rw [saveState_pointValues]
    exact map_getD_push s.heap s.points _ _ hvalid
  · intro r hr
    unfold duplicatePoint State.deref
    simp only
    rw [saveState_heap]
    exact List.getD_append _ _ _ _ hr

/-- Witness of `duplicatePoint_appends`: with the single point `LOC-1` at
`(100, 100)`, duplicating it yields `LOC-2` at `(130, 130)` behind it; with the
single point `9007199254740992`, the duplicate carries the id
`9007199254740992` as well. -/
theorem duplicatePoint_appends_witness :
    stateLoc1.pointValues = [{ point_id := "LOC-1".toList, x := 100, y := 100 }] ∧
    (∀ r : Nat, r ∈ stateLoc1.points → r < stateLoc1.heap.length) ∧
    (duplicatePoint stateLoc1 (some 0)).pointValues
      = [{ point_id := "LOC-1".toList, x := 100, y := 100 },
         { point_id := "LOC-2".toList, x := 130, y := 130 }] ∧
    (duplicatePoint stateLargeId (some 0)).pointValues
      = [{ point_id := "9007199254740992".toList, x := 100, y := 100 },
         { point_id := "9007199254740992".toList, x := 130, y := 130 }] :=
  ⟨by decide, by decide,
    (duplicatePoint_appends stateLoc1 0 (by decide)).2.1.trans (by decide),
    by decide⟩

/-! ## ID allocation rule -/

theorem dash_split (id : JSString) (h : '-' ∈ id) :
    ∃ rest, id.dropWhile (fun c => c != '-') = '-' :: rest ∧
      id = splitDash0 id ++ '-' :: rest := by
  induction id with
  | nil => simp at h
  | cons a id ih =>
    by_cases ha : a = '-'
    · subst ha
      exact ⟨id, by simp [List.dropWhile_cons], by simp [splitDash0, List.takeWhile_cons]⟩
    · have hmem : '-' ∈ id := by
        rcases List.mem_cons.mp h with h1 | h1
        · exact absurd h1.symm ha
        · exact h1
      obtain ⟨rest, h1, h2⟩ := ih hmem
      refine ⟨rest, ?_, ?_⟩
      · simp only [List.dropWhile_cons, bne_iff_ne, ne_eq, ha, not_false_eq_true, decide_True,
          if_true]
        simpa using h1
      · unfold splitDash0 at h2 ⊢
        simp only [List.takeWhile_cons, bne_iff_ne, ne_eq, ha, not_false_eq_true, decide_True,
          if_true, List.cons_append]
        congr 1

theorem splitDash1_eq_suffix (id : JSString) (hd : includesDash id = true)
    (hs : '-' ∉ idSuffix id) : splitDash1 id = some (idSuffix id) := by
  obtain ⟨rest, h1, _⟩ := dash_split id ((includesDash_iff id).mp hd)
  unfold idSuffix at hs ⊢
  rw [if_pos hd, h1] at hs
  rw [if_pos hd]
  unfold splitDash1
  rw [h1]
  simp only [List.drop_succ_cons, List.drop_zero, Option.some.injEq] at hs ⊢
  apply takeWhile_eq_self
  intro x hx
  simp only [bne_iff_ne, ne_eq]
  intro hxd
  exact hs (hxd ▸ hx)

theorem startsWith_iff_namespace (id pfx : JSString) (hne : pfx ≠ []) (hpfx : '-' ∉ pfx) :
    startsWith id (pfx ++ ['-']) = decide (namespaceOf id = pfx) := by
  rw [Bool.eq_iff_iff]
  simp only [startsWith, List.isPrefixOf_iff_prefix, decide_eq_true_eq]
  constructor
  · rintro ⟨t, ht⟩
    rw [← ht]
    exact namespaceOf_prefixed pfx t hpfx
  · intro h
    have hd : includesDash id = true := by
      by_contra hn
      unfold namespaceOf at h
      rw [if_neg hn] at h
      exact hne h.symm
    obtain ⟨rest, _, h2⟩ := dash_split id ((includesDash_iff id).mp hd)
    unfold namespaceOf at h
    rw [if_pos hd] at h
    rw [h] at h2
    exact ⟨rest, by rw [h2]; simp⟩

theorem filterMap_filter_isSome {α β : Type} (q : α → Bool) (f : α → Option β) (l : List α) :
    (l.filter (fun x => q x && (f x).isSome)).filterMap f = (l.filter q).filterMap f := by
  induction l with
  | nil => rfl
  | cons a l ih =>
    by_cases hq : q a = true
    · cases hf : f a with
      | none => simp [List.filter_cons, hq, hf, ih]
      | some b => simp [List.filter_cons, hq, hf, ih]
    · simp [List.filter_cons, hq, ih]

theorem isEmpty_false_of_ne {α : Type} (l : List α) (h : l ≠ []) : l.isEmpty = false := by
  cases l with
  | nil => exact absurd rfl h
  | cons a l => rfl

theorem prefixChangeSuggestion_eq (s : State) (pfx : JSString) :
    prefixChangeSuggestion s pfx
      = numberToString
          (nextNumber (if pfx.isEmpty then unprefixedNumbers s else prefixedNumbers s pfx)) := by
  unfold prefixChangeSuggestion nextNumber
  simp only
  split <;> split <;> rfl

theorem showModalFields_eq (s : State) :
    (showModalFields s).2
      = numberToString
          (nextNumber
            (match s.prefixes with
             | [] => unprefixedNumbers s
             | firstPrefix :: _ => prefixedNumbers s firstPrefix)) := by
  unfold showModalFields
  split <;> rfl

/-- C13, the code at failing inputs.  The three code sites keep every suffix on
which `parseInt` does not return `NaN`, so the unprefixed points `12abc`,
`0x1F`, `abc` and `007` give the numbers 12, 31 and 7 and the suggestion `32`,
where the only integer suffix is `007` and the rule gives 8; and they add 1 in
doubles, so the single point `9007199254740992` gives the suggestion
`9007199254740992`, where the rule gives 9007199254740993.  The three sites do
compute the same text, and with the single point `5` it is `6`. -/
theorem id_allocation_diverges :
    Reachable stateMixedIds ∧
    stateMixedIds.prefixes = [] ∧
    stateMixedIds.pointIds
      = ["12abc".toList, "0x1F".toList, "abc".toList, "007".toList] ∧
    namespaceIntegers stateMixedIds.pointIds [] = [7] ∧
    allocationRule stateMixedIds.pointIds [] = 8 ∧
    unprefixedNumbers stateMixedIds
      = [JSNumber.finite 12, JSNumber.finite 31, JSNumber.finite 7] ∧
    showModalFields stateMixedIds = ([], "32".toList) ∧
    prefixChangeSuggestion stateMixedIds [] = "32".toList ∧
    duplicateId stateMixedIds "abc".toList = "32".toList ∧
    Reachable stateLargeId ∧
    allocationRule stateLargeId.pointIds [] = 9007199254740993 ∧
    showModalFields stateLargeId = ([], "9007199254740992".toList) ∧
    prefixChangeSuggestion stateLargeId [] = "9007199254740992".toList ∧
    duplicateId stateLargeId "9007199254740992".toList = "9007199254740992".toList ∧
    (∀ s : State, s.prefixes = [] →
      (showModalFields s).2 = prefixChangeSuggestion s [] ∧
      ∀ id : JSString, includesDash id = false →
        duplicateId s id = prefixChangeSuggestion s []) ∧
    (∀ (s : State) (pfx : JSString) (others : List JSString), pfx ≠ [] →
      s.prefixes = pfx :: others →
      (showModalFields s).2 = prefixChangeSuggestion s pfx ∧
      ∀ id : JSString, includesDash id = true → splitDash0 id = pfx →
        duplicateId s id = pfx ++ ['-'] ++ prefixChangeSuggestion s pfx) ∧
    allocationRule stateFive.pointIds [] = 6 ∧
    showModalFields stateFive = ([], "6".toList) := by
  refine ⟨reachable_run _ _ (Reachable.init defaultSettings) (by decide),
    by decide, by decide, by decide, by decide, by decide, by decide, by decide, by decide,
    reachable_run _ _ (Reachable.init defaultSettings) (by decide),
    by decide, by decide, by decide, by decide, ?_, ?_, by decide, by decide⟩
  · intro s hp
    refine ⟨?_, ?_⟩
    · rw [showModalFields_eq, prefixChangeSuggestion_eq, hp]
      rfl
    · intro id hd
      rw [duplicateId_eq, prefixChangeSuggestion_eq, hd]
      rfl
  · intro s pfx others hne hp
    have hpe : pfx.isEmpty = false := isEmpty_false_of_ne pfx hne
    refine ⟨?_, ?_⟩
    · rw [showModalFields_eq, prefixChangeSuggestion_eq, hp, hpe]
      rfl
    · intro id hd hsplit
      rw [duplicateId_eq, prefixChangeSuggestion_eq, hd, hsplit, hpe]
      rfl

/-! ## Successful `addPoint` -/

/-- The integer arithmetic of `mathRound` computes the floor of `v + 1 / 2`. -/
theorem mathRound_eq_floor (v : ℚ) : mathRound v = ⌊v + 1 / 2⌋ := by
  unfold mathRound
  have h := Rat.floor_intCast_div_natCast (2 * v.num + v.den) (2 * v.den)
  rw [show ((2 * v.den : ℕ) : ℤ) = 2 * (v.den : ℤ) by push_cast; ring] at h
  rw [← h]
  congr 1
  have hv : (v.den : ℚ) ≠ 0 := by exact_mod_cast v.den_nz
  conv_rhs => rw [← Rat.num_div_den v]
  push_cast
  field_simp
  ring

theorem mathRound_eq_round (v : ℚ) : mathRound v = round v := by
  rw [mathRound_eq_floor, round_eq]

theorem fractionalClick_eq :
    stateFractionalClick.pendingClick = some (301 / 2, 1502 / 5) := by
  have h1 : ({ num := 301, den := 2, den_nz := by decide, reduced := by decide } : ℚ)
      = 301 / 2 := by
    rw [Rat.mk'_eq_divInt]
    norm_num [Rat.divInt_eq_div]
  have h2 : ({ num := 1502, den := 5, den_nz := by decide, reduced := by decide } : ℚ)
      = 1502 / 5 := by
    rw [Rat.mk'_eq_divInt]
    norm_num [Rat.divInt_eq_div]
  rw [← h1, ← h2]
  rfl

theorem trim_ne_nil_of_clean (rawId : JSString) (h : rawId.filter isAlnum ≠ []) :
    (trim rawId).isEmpty = false := by
  apply isEmpty_false_of_ne
  intro hnil
  apply h
  rw [← filter_isAlnum_trim, hnil]
  rfl

theorem addPoint_add_success (s : State) (pfx rawId : JSString) (click : ℚ × ℚ)
    (hadd : s.editingPoint = none) (hclick : s.pendingClick = some click)
    (hclean : rawId.filter isAlnum ≠ [])
    (hfresh : makePointId pfx (rawId.filter isAlnum) ∉ s.pointIds) :
    addPoint s pfx rawId
      = closeModal (saveState
          { s with
            heap := s.heap ++ [{ point_id := makePointId pfx (rawId.filter isAlnum),
                                 x := mathRound click.1, y := mathRound click.2 }]
            points := s.points ++ [s.heap.length]
            selectedPoints := [s.heap.length] }
          ("Add point ".toList ++ makePointId pfx (rawId.filter isAlnum))) := by
  unfold addPoint
  simp only [filter_isAlnum_trim, trim_ne_nil_of_clean rawId hclean, Bool.false_eq_true,
    if_false]
  have hlen : ¬ (rawId.filter isAlnum).length = 0 := by
    intro h0
    exact hclean (List.length_eq_zero.mp h0)
  rw [if_neg hlen, hadd]
  simp only
  have hany : ¬ (s.points.any fun p => decide ((s.deref p).point_id
      = makePointId pfx (rawId.filter isAlnum))) = true := by
    intro h
    apply hfresh
    rw [List.any_eq_true] at h
    obtain ⟨r, hr, hid⟩ := h
    simp only [decide_eq_true_eq] at hid
    exact List.mem_map.mpr ⟨r, hr, hid⟩
  rw [if_neg hany, hclick]

/-- C14: a successful `addPoint` in add mode.  With a pending click `(x, y)`,
which may be fractional, a raw id whose cleaned form `c` is non-empty and a
computed id not yet used, `addPoint` appends exactly one new point object at
the end of the point list, with `point_id` equal to `prefix-c` for a non-empty
prefix and to `c` otherwise, at `(round(x), round(y))`, the nearest integers
with halves going up; the earlier points are unchanged and the new point is
the only selected point. -/
theorem addPoint_appends (s : State) (pfx rawId : JSString) (click : ℚ × ℚ)
    (hadd : s.editingPoint = none) (hclick : s.pendingClick = some click)
    (hclean : rawId.filter isAlnum ≠ [])
    (hfresh : makePointId pfx (rawId.filter isAlnum) ∉ s.pointIds)
    (hvalid : ∀ r : Nat, r ∈ s.points → r < s.heap.length) :
    (addPoint s pfx rawId).points = s.points ++ [s.heap.length] ∧
    (addPoint s pfx rawId).pointValues
      = s.pointValues ++ [{ point_id := makePointId pfx (rawId.filter isAlnum),
                            x := ⌊click.1 + 1 / 2⌋, y := ⌊click.2 + 1 / 2⌋ }] ∧
    (∀ r : Nat, r < s.heap.length → (addPoint s pfx rawId).deref r = s.deref r) ∧
    (addPoint s pfx rawId).selectedPoints = [s.heap.length] ∧
    (pfx ≠ [] → makePointId pfx (rawId.filter isAlnum) = pfx ++ ['-'] ++ rawId.filter isAlnum) ∧
    (pfx = [] → makePointId pfx (rawId.filter isAlnum) = rawId.filter isAlnum) ∧
    (⌊click.1 + 1 / 2⌋ = round click.1 ∧ ⌊click.2 + 1 / 2⌋ = round click.2) ∧
    (∀ n : Int, click.1 = n → ⌊click.1 + 1 / 2⌋ = n) := by
  rw [addPoint_add_success s pfx rawId click hadd hclick hclean hfresh,
    mathRound_eq_floor, mathRound_eq_floor]
  refine ⟨?_, ?_, ?_, ?_, ?_, ?_, ⟨(round_eq _).symm, (round_eq _).symm⟩, ?_⟩
  · show (saveState _ _).points = _
    rw [saveState_points]
  · show (saveState _ _).pointValues = _
    rw [saveState_pointValues]
    exact map_getD_push s.heap s.points _ _ hvalid
  · intro r hr
    show (saveState _ _).heap.getD r _ = _
    rw [saveState_heap]
    exact List.getD_append _ _ _ _ hr
  · show (saveState _ _).selectedPoints = _
    rw [saveState_selectedPoints]
  · intro hne
    unfold makePointId
    rw [isEmpty_false_of_ne pfx hne]
    rfl
  · intro he
    rw [he]
    rfl
  · intro n hn
    rw [hn, ← round_eq, round_intCast]

/-- Witness of `addPoint_appends`: with the points `1` and `2` placed and a
click pending at `(150.5, 300.4)`, submitting prefix `LOC` and id ` 3! `
appends `LOC-3` at `(151, 300)` and selects it. -/
theorem addPoint_appends_witness :
    stateFractionalClick.editingPoint = none ∧
    stateFractionalClick.pendingClick = some (301 / 2, 1502 / 5) ∧
    " 3! ".toList.filter isAlnum = "3".toList ∧
    (addPoint stateFractionalClick "LOC".toList " 3! ".toList).pointValues
      = [{ point_id := "1".toList, x := 100, y := 100 },
         { point_id := "2".toList, x := 200, y := 200 },
         { point_id := "LOC-3".toList, x := 151, y := 300 }] ∧
    (addPoint stateFractionalClick "LOC".toList " 3! ".toList).selectedPoints = [2] ∧
    (addPoint stateFractionalClick "LOC".toList " 3! ".toList).pointValues
      = stateFractionalClick.pointValues ++
          [{ point_id := "LOC-3".toList,
             x := ⌊(301 / 2 : ℚ) + 1 / 2⌋, y := ⌊(1502 / 5 : ℚ) + 1 / 2⌋ }] :=
  have h := addPoint_appends stateFractionalClick "LOC".toList " 3! ".toList
    (301 / 2, 1502 / 5) (by decide) fractionalClick_eq (by decide) (by decide) (by decide)
  ⟨by decide, fractionalClick_eq, by decide, by decide, by decide, h.2.1⟩

/-! ## Rename -/

theorem addPoint_empty_id (s : State) (pfx rawId : JSString)
    (h : rawId.filter isAlnum = []) : addPoint s pfx rawId = s := by
  unfold addPoint
  simp only [filter_isAlnum_trim]
  split
  · rfl
  · rw [if_pos (by rw [h]; rfl)]

theorem addPoint_edit_success (s : State) (pfx rawId : JSString) (e : Nat)
    (hedit : s.editingPoint = some e) (hclean : rawId.filter isAlnum ≠ [])
    (hfree : ∀ p ∈ s.points, p ≠ e →
      (s.deref p).point_id ≠ makePointId pfx (rawId.filter isAlnum)) :
    addPoint s pfx rawId
      = closeModal (saveState
          { s with heap := (heapModify s.heap e
              (fun o => { o with point_id := makePointId pfx (rawId.filter isAlnum) })) }
          ("Edit point ".toList ++ (s.deref e).point_id ++ " to ".toList
            ++ makePointId pfx (rawId.filter isAlnum))) := by
  unfold addPoint
  simp only [filter_isAlnum_trim, trim_ne_nil_of_clean rawId hclean, Bool.false_eq_true,
    if_false]
  have hlen : ¬ (rawId.filter isAlnum).length = 0 := by
    intro h0
    exact hclean (List.length_eq_zero.mp h0)
  rw [if_neg hlen, hedit]
  simp only
  rw [if_neg]
  intro h
  rw [List.any_eq_true] at h
  obtain ⟨r, hr, hid⟩ := h
  simp only [decide_eq_true_eq] at hid
  exact hfree r hr hid.2 hid.1

theorem addPoint_edit_taken (s : State) (pfx rawId : JSString) (e : Nat)
    (hedit : s.editingPoint = some e) (p : Nat) (hp : p ∈ s.points) (hpe : p ≠ e)
    (hid : (s.deref p).point_id = makePointId pfx (rawId.filter isAlnum)) :
    addPoint s pfx rawId = s := by
  unfold addPoint
  simp only [filter_isAlnum_trim]
  split
  · rfl
  · split
    · rfl
    · rw [hedit]
      simp only
      rw [if_pos]
      rw [List.any_eq_true]
      exact ⟨p, hp, by simpa using ⟨hid, hpe⟩⟩

/-- C15: rename, which is `addPoint` while the point object `e` is being
edited.  If the cleaned id is non-empty and no entry of the point list other
than `e` carries the computed id, the rename takes place: the point list and
the selection are the same lists of objects, every object other than `e` is
unchanged, `e` keeps `x` and `y` and carries the computed id, and the edit is
closed.  Otherwise `addPoint` returns the state unchanged.  When the ids of the
point list are pairwise distinct, no other entry carries the current id of
`e`, so renaming a point to its own id takes place. -/
theorem rename_point (s : State) (pfx rawId : JSString) (e : Nat)
    (hedit : s.editingPoint = some e) :
    ((rawId.filter isAlnum ≠ [] ∧ ∀ p ∈ s.points, p ≠ e →
        (s.deref p).point_id ≠ makePointId pfx (rawId.filter isAlnum)) →
      (addPoint s pfx rawId).points = s.points ∧
      (addPoint s pfx rawId).heap.length = s.heap.length ∧
      (∀ r : Nat, r ≠ e → (addPoint s pfx rawId).deref r = s.deref r) ∧
      (e < s.heap.length → (addPoint s pfx rawId).deref e
        = { point_id := makePointId pfx (rawId.filter isAlnum),
            x := (s.deref e).x, y := (s.deref e).y }) ∧
      (addPoint s pfx rawId).selectedPoints = s.selectedPoints ∧
      (addPoint s pfx rawId).editingPoint = none) ∧
    (¬ (rawId.filter isAlnum ≠ [] ∧ ∀ p ∈ s.points, p ≠ e →
        (s.deref p).point_id ≠ makePointId pfx (rawId.filter isAlnum)) →
      addPoint s pfx rawId = s) ∧
    (s.pointIds.Nodup → e ∈ s.points → ∀ p ∈ s.points, p ≠ e →
      (s.deref p).point_id ≠ (s.deref e).point_id) := by
  refine ⟨?_, ?_, ?_⟩
  · rintro ⟨hclean, hfree⟩
    rw [addPoint_edit_success s pfx rawId e hedit hclean hfree]
    refine ⟨?_, ?_, ?_, ?_, ?_, rfl⟩
    · show (saveState _ _).points = _
      rw [saveState_points]
    · show (saveState _ _).heap.length = _
      rw [saveState_heap]
      exact heapModify_length _ _ _
    · intro r hr
      show (saveState _ _).heap.getD r _ = _
      rw [saveState_heap]
      exact heapModify_getD_ne _ _ _ _ _ (Ne.symm hr)
    · intro hlt
      show (saveState _ _).heap.getD e _ = _
      rw [saveState_heap]
      exact heapModify_getD_eq _ _ _ _ hlt
    · show (saveState _ _).selectedPoints = _
      rw [saveState_selectedPoints]
  · intro hnot
    by_cases hclean : rawId.filter isAlnum = []
    · exact addPoint_empty_id s pfx rawId hclean
    · have : ∃ p, p ∈ s.points ∧ p ≠ e ∧
          (s.deref p).point_id = makePointId pfx (rawId.filter isAlnum) := by
        by_contra hno
        apply hnot
        refine ⟨hclean, ?_⟩
        intro p hp hpe hid
        exact hno ⟨p, hp, hpe, hid⟩
      obtain ⟨p, hp, hpe, hid⟩ := this
      exact addPoint_edit_taken s pfx rawId e hedit p hp hpe hid
  · intro hnodup he p hp hpe hid
    exact hpe (List.inj_on_of_nodup_map hnodup hp he hid)

/-- Witness of `rename_point`: with the points `1` and `2` and point `1` being
edited, renaming it to `9` and to its own id `1` takes place, renaming it to
`2` changes nothing. -/
theorem rename_point_witness :
    stateEditing.editingPoint = some 0 ∧ stateEditing.pointIds = ["1".toList, "2".toList] ∧
    (addPoint stateEditing [] "9".toList).pointValues
      = [{ point_id := "9".toList, x := 100, y := 100 },
         { point_id := "2".toList, x := 200, y := 200 }] ∧
    (addPoint stateEditing [] "1".toList).editingPoint = none ∧
    addPoint stateEditing [] "2".toList = stateEditing :=
  ⟨by decide, by decide, by decide,
    ((rename_point stateEditing [] "1".toList 0 (by decide)).1 (by decide)).2.2.2.2.2,
    (rename_point stateEditing [] "2".toList 0 (by decide)).2.1 (by decide)⟩

/-! ## One snapshot per mutating action -/

theorem saveState_grows (s : State) (action : JSString)
    (hhead : s.historyIndex = (s.history.length : Int) - 1)
    (hcap : (s.history.length : Int) < s.maxHistorySize) :
    (saveState s action).history = s.history ++ [snapshot s action] ∧
    (saveState s action).historyIndex = (s.history.length : Int) := by
  have hp : pushedHistory s action = s.history ++ [snapshot s action] := by
    unfold pushedHistory
    rw [if_neg (by omega)]
  have hh : (saveState s action).history = s.history ++ [snapshot s action] := by
    rw [saveState_history, hp, if_neg]
    simp only [List.length_append, List.length_singleton]
    push_cast
    omega
  refine ⟨hh, ?_⟩
  rw [saveState_historyIndex, hh]
  simp

theorem commitsOne_saveState (s s1 : State) (label : JSString)
    (hhead : s.historyIndex = (s.history.length : Int) - 1)
    (hcap : (s.history.length : Int) < s.maxHistorySize)
    (h1 : s1.history = s.history) (h2 : s1.historyIndex = s.historyIndex)
    (h3 : s1.maxHistorySize = s.maxHistorySize) :
    CommitsOne s (saveState s1 label) := by
  obtain ⟨g1, g2⟩ := saveState_grows s1 label (by rw [h1, h2]; exact hhead)
    (by rw [h1, h3]; exact hcap)
  refine ⟨snapshot s1 label, ?_, ?_, ?_, ?_⟩
  · rw [g1, h1]
  · rw [g2, h1]
  · rw [saveState_pointValues]; rfl
  · rw [saveState_prefixes]; rfl

theorem commitsOne_closeModal (s t : State) (h : CommitsOne s t) :
    CommitsOne s (closeModal t) := by
  obtain ⟨e, h1, h2, h3, h4⟩ := h
  exact ⟨e, h1, h2, h3, h4⟩

theorem removePoints_fields (toRemove : List Nat) :
    ∀ acc : State,
      (removePoints acc toRemove).history = acc.history ∧
      (removePoints acc toRemove).historyIndex = acc.historyIndex ∧
      (removePoints acc toRemove).maxHistorySize = acc.maxHistorySize ∧
      (removePoints acc toRemove).prefixes = acc.prefixes ∧
      (removePoints acc toRemove).heap = acc.heap := by
  induction toRemove with
  | nil => intro acc; exact ⟨rfl, rfl, rfl, rfl, rfl⟩
  | cons r rest ih =>
    intro acc
    unfold removePoints
    simp only [List.foldl_cons]
    split
    · exact ih _
    · exact ih _

/-- C16: every successful mutating action commits exactly one snapshot, taken
after the mutation.  From a state at the head of a history below capacity, a
successful add, a successful rename, `duplicatePoint`, `deletePoint` of a
listed point, a confirmed `deleteSelected` of a non-empty selection and the
confirmed removal of a prefix in use each extend the history by one entry,
leave `historyIndex` on it, and that entry holds the point list (by value) and
the prefix set of the state after the action. -/
theorem mutating_actions_commit_one (s : State)
    (hhead : s.historyIndex = (s.history.length : Int) - 1)
    (hcap : (s.history.length : Int) < s.maxHistorySize) :
    (∀ (pfx rawId : JSString) (click : ℚ × ℚ), s.editingPoint = none →
      s.pendingClick = some click → rawId.filter isAlnum ≠ [] →
      makePointId pfx (rawId.filter isAlnum) ∉ s.pointIds →
      CommitsOne s (addPoint s pfx rawId)) ∧
    (∀ (pfx rawId : JSString) (e : Nat), s.editingPoint = some e →
      rawId.filter isAlnum ≠ [] →
      (∀ p ∈ s.points, p ≠ e →
        (s.deref p).point_id ≠ makePointId pfx (rawId.filter isAlnum)) →
      CommitsOne s (addPoint s pfx rawId)) ∧
    (∀ p : Nat, CommitsOne s (duplicatePoint s (some p))) ∧
    (∀ p : Nat, p ∈ s.points → CommitsOne s (deletePoint s (some p))) ∧
    (∀ answer : Bool, s.selectedPoints ≠ [] →
      (s.settings.confirmDelete = false ∨ answer = true) →
      CommitsOne s (deleteSelected s answer)) ∧
    (∀ pfx : JSString, pfx ∈ s.pointIds.map namespaceOf →
      CommitsOne s (removePrefix s pfx true).1) := by
  refine ⟨?_, ?_, ?_, ?_, ?_, ?_⟩
  · intro pfx rawId click hadd hclick hclean hfresh
    rw [addPoint_add_success s pfx rawId click hadd hclick hclean hfresh]
    apply commitsOne_closeModal
    exact commitsOne_saveState s _ _ hhead hcap rfl rfl rfl
  · intro pfx rawId e hedit hclean hfree
    rw [addPoint_edit_success s pfx rawId e hedit hclean hfree]
    apply commitsOne_closeModal
    exact commitsOne_saveState s _ _ hhead hcap rfl rfl rfl
  · intro p
    unfold duplicatePoint
    simp only
    exact commitsOne_saveState s _ _ hhead hcap rfl rfl rfl
  · intro p hp
    unfold deletePoint
    simp only
    rw [if_pos hp]
    exact commitsOne_saveState s _ _ hhead hcap rfl rfl rfl
  · intro answer hsel hconfirm
    unfold deleteSelected
    have hlen : ¬ s.selectedPoints.length = 0 := by
      intro h0
      exact hsel (List.length_eq_zero.mp h0)
    rw [if_neg hlen]
    simp only
    rw [if_pos hconfirm]
    exact commitsOne_saveState s _ _ hhead hcap rfl rfl rfl
  · intro pfx hused
    unfold removePrefix
    simp only
    rw [if_neg (by simp), if_pos hused]
    obtain ⟨f1, f2, f3, _, _⟩ := removePoints_fields
      (List.filter (fun r => matchesPrefix pfx (s.deref r).point_id) s.points)
      { s with prefixes := setDelete s.prefixes pfx }
    exact commitsOne_saveState s _ _ hhead hcap f1 f2 f3

/-- Witness of `mutating_actions_commit_one`: with the points `1` and `2`
placed and the form open, the history has 3 entries and is at its head; adding
point `3` and duplicating point `1` each commit one snapshot. -/
theorem mutating_actions_commit_one_witness :
    stateTwoPointsPending.historyIndex = 2 ∧ stateTwoPointsPending.history.length = 3 ∧
    stateTwoPointsPending.maxHistorySize = 50 ∧
    CommitsOne stateTwoPointsPending (addPoint stateTwoPointsPending [] "3".toList) ∧
    CommitsOne stateTwoPointsPending (duplicatePoint stateTwoPointsPending (some 0)) :=
  have h := mutating_actions_commit_one stateTwoPointsPending (by decide) (by decide)
  ⟨by decide, by decide, by decide,
    h.1 [] "3".toList (300, 300) (by decide) (by decide) (by decide) (by decide),
    h.2.2.1 0⟩

/-! ## Clear-all and image load -/

theorem saveState_baseline (s : State) (action : JSString) (hcap : 0 ≤ s.maxHistorySize)
    (hhist : s.history = []) (hidx : s.historyIndex = -1) :
    (saveState s action).history = [snapshot s action] ∧
    (saveState s action).historyIndex = 0 := by
  have hp : pushedHistory s action = [snapshot s action] := by
    unfold pushedHistory
    rw [hhist, hidx]
    simp
  have hh : (saveState s action).history = [snapshot s action] := by
    rw [saveState_history, hp]
    split
    · rename_i hgt
      have h0 : s.maxHistorySize = 0 := by
        simp only [List.length_singleton] at hgt
        omega
      rw [h0]
      rfl
    · rfl
  refine ⟨hh, ?_⟩
  rw [saveState_historyIndex, hh]
  rfl

theorem redo_at_head (s : State) (h : (s.history.length : Int) - 1 ≤ s.historyIndex) :
    redo s = s := by
  unfold redo
  rw [if_neg (by omega)]

/-- C17: clear-all and image load are non-undoable boundaries.  For a history
limit that is not negative, after a confirmed `clearAll` on a non-empty point
list and after an image load, the point list and the selection are empty, the
history is exactly one entry whose point list is empty, `historyIndex` is 0,
and `undo` and `redo` are no-ops; `clearAll` on an empty point list, or with
the confirmation declined, returns the state unchanged. -/
theorem clearAll_and_imageLoaded_reset (s : State) (hcap : 0 ≤ s.maxHistorySize) :
    (∀ answer : Bool, s.points ≠ [] → (s.settings.confirmDelete = false ∨ answer = true) →
      (clearAll s answer).points = [] ∧ (clearAll s answer).selectedPoints = [] ∧
      (∃ e, (clearAll s answer).history = [e] ∧ e.points = []) ∧
      (clearAll s answer).historyIndex = 0 ∧
      undo (clearAll s answer) = clearAll s answer ∧
      redo (clearAll s answer) = clearAll s answer) ∧
    (∀ (img : Image) (w h : Int),
      (imageLoaded s img w h).points = [] ∧ (imageLoaded s img w h).selectedPoints = [] ∧
      (∃ e, (imageLoaded s img w h).history = [e] ∧ e.points = []) ∧
      (imageLoaded s img w h).historyIndex = 0 ∧
      undo (imageLoaded s img w h) = imageLoaded s img w h ∧
      redo (imageLoaded s img w h) = imageLoaded s img w h) ∧
    (s.points = [] → ∀ answer : Bool, clearAll s answer = s) ∧
    (s.settings.confirmDelete = true → clearAll s false = s) := by
  refine ⟨?_, ?_, ?_, ?_⟩
  · intro answer hne hconfirm
    have hlen : ¬ s.points.length = 0 := fun h0 => hne (List.length_eq_zero.mp h0)
    have hc : clearAll s answer
        = saveState { s with points := [], selectedPoints := [], history := [],
                             historyIndex := -1 } "Clear all points".toList := by
      unfold clearAll
      rw [if_neg hlen, if_pos hconfirm]
    obtain ⟨b1, b2⟩ := saveState_baseline
      { s with points := [], selectedPoints := [], history := [], historyIndex := -1 }
      "Clear all points".toList hcap rfl rfl
    rw [hc]
    refine ⟨by rw [saveState_points], by rw [saveState_selectedPoints], ⟨_, b1, rfl⟩, b2, ?_, ?_⟩
    · exact undo_at_zero _ (by rw [b2])
    · exact redo_at_head _ (by rw [b1, b2]; simp)
  · intro img w h
    obtain ⟨b1, b2⟩ := saveState_baseline
      { s with currentImage := some img, canvasWidth := w, canvasHeight := h, points := [],
               selectedPoints := [], history := [], historyIndex := -1 }
      "Load image".toList hcap rfl rfl
    unfold imageLoaded
    simp only
    refine ⟨by rw [saveState_points], by rw [saveState_selectedPoints], ⟨_, b1, rfl⟩, b2, ?_, ?_⟩
    · exact undo_at_zero _ (by rw [b2])
    · exact redo_at_head _ (by rw [b1, b2]; simp)
  · intro hnil answer
    unfold clearAll
    rw [if_pos (by rw [hnil]; rfl)]
  · intro hconfirm
    unfold clearAll
    split
    · rfl
    · rw [if_neg (by simp [hconfirm])]

/-- Witness of `clearAll_and_imageLoaded_reset`: with the points `1` and `2`
placed (3 history entries), a confirmed clear-all leaves no point and one
history entry, and a declined one changes nothing. -/
theorem clearAll_and_imageLoaded_reset_witness :
    stateTwoPoints.maxHistorySize = 50 ∧ stateTwoPoints.history.length = 3 ∧
    (clearAll stateTwoPoints true).points = [] ∧
    (clearAll stateTwoPoints true).historyIndex = 0 ∧
    undo (clearAll stateTwoPoints true) = clearAll stateTwoPoints true ∧
    clearAll stateTwoPoints false = stateTwoPoints :=
  have h := clearAll_and_imageLoaded_reset stateTwoPoints (by decide)
  have h1 := h.1 true (by decide) (by decide)
  ⟨by decide, by decide, h1.1, h1.2.2.2.1, h1.2.2.2.2.1, h.2.2.2 (by decide)⟩

/-! ## History index invariant -/

theorem range_of_hist (t u : State) (h : HistoryIndexInRange u) (h1 : t.history = u.history)
    (h2 : t.historyIndex = u.historyIndex) : HistoryIndexInRange t := by
  unfold HistoryIndexInRange at *
  rw [h1, h2]
  exact h

theorem range_saveState (s : State) (action : JSString) :
    HistoryIndexInRange (saveState s action) := by
  unfold HistoryIndexInRange
  rw [saveState_historyIndex]
  refine ⟨by omega, ?_, ?_⟩
  · intro h
    rw [h]
    rfl
  · intro h
    have : 0 < (saveState s action).history.length := List.length_pos.mpr h
    omega

theorem undo_history_fields (s : State) :
    (undo s).history = s.history ∧
    (undo s).historyIndex = if s.historyIndex > 0 then s.historyIndex - 1 else s.historyIndex := by
  unfold undo
  split
  · simp only
    split <;> exact ⟨rfl, rfl⟩
  · exact ⟨rfl, rfl⟩

theorem redo_history_fields (s : State) :
    (redo s).history = s.history ∧
    (redo s).historyIndex
      = if s.historyIndex < (s.history.length : Int) - 1 then s.historyIndex + 1
        else s.historyIndex := by
  unfold redo
  split
  · simp only
    split <;> exact ⟨rfl, rfl⟩
  · exact ⟨rfl, rfl⟩

theorem range_undo (s : State) (h : HistoryIndexInRange s) : HistoryIndexInRange (undo s) := by
  obtain ⟨h1, h2⟩ := undo_history_fields s
  unfold HistoryIndexInRange at *
  rw [h1, h2]
  obtain ⟨a, b, c⟩ := h
  split
  · refine ⟨by omega, ?_, fun _ => by omega⟩
    intro hnil
    have := b hnil
    omega
  · exact ⟨a, b, c⟩

theorem range_redo (s : State) (h : HistoryIndexInRange s) : HistoryIndexInRange (redo s) := by
  obtain ⟨h1, h2⟩ := redo_history_fields s
  unfold HistoryIndexInRange at *
  rw [h1, h2]
  obtain ⟨a, b, c⟩ := h
  split
  · rename_i hlt
    refine ⟨by omega, ?_, ?_⟩
    · intro hnil
      rw [hnil] at hlt
      have := b hnil
      simp only [List.length_nil] at hlt
      omega
    · intro hne
      have := c hne
      omega
  · exact ⟨a, b, c⟩

theorem range_addPrefix (s : State) (raw : JSString) (h : HistoryIndexInRange s) :
    HistoryIndexInRange (addPrefix s raw).1 := by
  unfold addPrefix
  simp only []
  repeat' split
  all_goals exact h

theorem range_removePrefix (s : State) (pfx : JSString) (answer : Bool)
    (h : HistoryIndexInRange s) : HistoryIndexInRange (removePrefix s pfx answer).1 := by
  unfold removePrefix
  simp only
  split
  · exact h
  · split
    · exact range_saveState _ _
    · exact h

theorem range_onCanvasClick (s : State) (ev : MouseEvent) (h : HistoryIndexInRange s) :
    HistoryIndexInRange (onCanvasClick s ev) := by
  unfold onCanvasClick selectPointsInRange
  simp only []
  repeat' split
  all_goals exact h

theorem range_onRightClick (s : State) (ev : MouseEvent) (h : HistoryIndexInRange s) :
    HistoryIndexInRange (onRightClick s ev) := by
  unfold onRightClick showContextMenu
  simp only []
  repeat' split
  all_goals exact h

theorem range_onMouseDown (s : State) (ev : MouseEvent) (h : HistoryIndexInRange s) :
    HistoryIndexInRange (onMouseDown s ev) := by
  unfold onMouseDown
  simp only []
  repeat' split
  all_goals exact h

theorem range_onMouseMove (s : State) (ev : MouseEvent) (h : HistoryIndexInRange s) :
    HistoryIndexInRange (onMouseMove s ev) := by
  unfold onMouseMove updateSelectionBox
  simp only []
  repeat' split
  all_goals exact h

theorem range_onMouseUp (s : State) (h : HistoryIndexInRange s) :
    HistoryIndexInRange (onMouseUp s) := by
  unfold onMouseUp
  simp only
  split
  · exact range_of_hist _ _ (range_saveState s _) rfl rfl
  · exact h

theorem range_editPoint (s : State) (point : Option Ref) (h : HistoryIndexInRange s) :
    HistoryIndexInRange (editPoint s point) := by
  unfold editPoint
  split <;> exact h

theorem range_duplicatePoint (s : State) (point : Option Ref) (h : HistoryIndexInRange s) :
    HistoryIndexInRange (duplicatePoint s point) := by
  unfold duplicatePoint
  split
  · exact h
  · exact range_saveState _ _

theorem range_deletePoint (s : State) (point : Option Ref) (h : HistoryIndexInRange s) :
    HistoryIndexInRange (deletePoint s point) := by
  unfold deletePoint
  split
  · exact h
  · split
    · exact range_saveState _ _
    · exact h

theorem range_deleteSelected (s : State) (answer : Bool) (h : HistoryIndexInRange s) :
    HistoryIndexInRange (deleteSelected s answer) := by
  unfold deleteSelected
  split
  · exact h
  · simp only
    split
    · exact range_saveState _ _
    · exact h

theorem range_clearAll (s : State) (answer : Bool) (h : HistoryIndexInRange s) :
    HistoryIndexInRange (clearAll s answer) := by
  unfold clearAll
  split
  · exact h
  · split
    · exact range_saveState _ _
    · exact h

theorem range_handleContextMenuAction (s : State) (a : MenuAction)
    (h : HistoryIndexInRange s) : HistoryIndexInRange (handleContextMenuAction s a) := by
  unfold handleContextMenuAction
  have h1 : HistoryIndexInRange (hideContextMenu s) := h
  cases a
  · exact range_editPoint _ _ h1
  · exact range_duplicatePoint _ _ h1
  · exact range_deletePoint _ _ h1

theorem range_addPoint (s : State) (pfx rawId : JSString) (h : HistoryIndexInRange s) :
    HistoryIndexInRange (addPoint s pfx rawId) := by
  unfold addPoint
  simp only
  split
  · exact h
  · split
    · exact h
    · split
      · split
        · exact h
        · exact range_of_hist _ _ (range_saveState _ _) rfl rfl
      · split
        · exact h
        · split
          · exact h
          · exact range_of_hist _ _ (range_saveState _ _) rfl rfl

theorem range_step (s : State) (a : Action) (h : HistoryIndexInRange s) :
    HistoryIndexInRange (step s a) := by
  cases a with
  | addPrefix raw => exact range_addPrefix s raw h
  | removePrefix pfx answer => exact range_removePrefix s pfx answer h
  | undo => exact range_undo s h
  | redo => exact range_redo s h
  | imageLoaded img w hh => exact range_saveState _ _
  | canvasClick ev => exact range_onCanvasClick s ev h
  | rightClick ev => exact range_onRightClick s ev h
  | mouseDown ev => exact range_onMouseDown s ev h
  | mouseMove ev => exact range_onMouseMove s ev h
  | mouseUp => exact range_onMouseUp s h
  | hideContextMenu => exact h
  | contextMenuAction a => exact range_handleContextMenuAction s a h
  | editPoint point => exact range_editPoint s point h
  | duplicatePoint point => exact range_duplicatePoint s point h
  | deletePoint point => exact range_deletePoint s point h
  | selectAll => exact h
  | deselectAll => exact h
  | deleteSelected answer => exact range_deleteSelected s answer h
  | clearAll answer => exact range_clearAll s answer h
  | setFilter type => exact h
  | closeModal => exact h
  | addPoint pfx rawId => exact range_addPoint s pfx rawId h
  | applySettings settings => exact h

theorem historyReachable_run (actions : List Action) :
    ∀ s : State, HistoryReachable s → HistoryReachable (run s actions) := by
  induction actions with
  | nil => intro s h; exact h
  | cons a rest ih => intro s h; exact ih (step s a) (HistoryReachable.step a h)

/-- C18: the history index invariant.  In every state reached from the initial
state (empty history, `historyIndex = -1`) by `saveState`, `undo`, `redo`,
`clearAll`, image load and any other event, a non-empty history has
`0 <= historyIndex < history.length` and an empty one has `historyIndex = -1`;
and right after any `saveState`, `historyIndex = history.length - 1`. -/
theorem history_index_invariant (s : State) (h : HistoryReachable s) :
    (s.history ≠ [] → 0 ≤ s.historyIndex ∧ s.historyIndex < (s.history.length : Int)) ∧
    (s.history = [] → s.historyIndex = -1) ∧
    ∀ action : JSString,
      (saveState s action).historyIndex = ((saveState s action).history.length : Int) - 1 := by
  have hr : HistoryIndexInRange s := by
    induction h with
    | init settings =>
      exact ⟨by show (-1 : Int) < 0; decide, fun _ => rfl, fun hne => absurd rfl hne⟩
    | saveState action _ _ => exact range_saveState _ _
    | step a _ ih => exact range_step _ a ih
  exact ⟨fun hne => ⟨hr.2.2 hne, hr.1⟩, hr.2.1, fun action => saveState_historyIndex s action⟩

/-- Witness of `history_index_invariant`: after the points `1` and `2` were
placed and one undo, the history has 3 entries and the index is 1. -/
theorem history_index_invariant_witness :
    HistoryReachable (undo stateTwoPoints) ∧
    (undo stateTwoPoints).history.length = 3 ∧ (undo stateTwoPoints).historyIndex = 1 ∧
    ((undo stateTwoPoints).history ≠ [] →
      0 ≤ (undo stateTwoPoints).historyIndex ∧
      (undo stateTwoPoints).historyIndex < ((undo stateTwoPoints).history.length : Int)) :=
  have hr : HistoryReachable (undo stateTwoPoints) :=
    HistoryReachable.step Action.undo
      (historyReachable_run sessionTwoPoints _ (HistoryReachable.init defaultSettings))
  ⟨hr, by decide, by decide, (history_index_invariant (undo stateTwoPoints) hr).1⟩

/-! ## Deleting the selection -/

theorem eraseIfMem_eq_filter (points : List Nat) (r : Nat) (h : points.Nodup) :
    (if r ∈ points then points.erase r else points) = points.filter (fun x => x != r) := by
  split
  · exact List.Nodup.erase_eq_filter h r
  · rename_i hr
    symm
    rw [List.filter_eq_self]
    intro a ha
    simp only [bne_iff_ne, ne_eq]
    intro har
    exact hr (har ▸ ha)

theorem deleteLoop_eq_filter (selected : List Nat) :
    ∀ points : List Nat, points.Nodup →
      selected.foldl (fun pts r => if r ∈ pts then pts.erase r else pts) points
        = points.filter (fun r => decide (r ∉ selected)) := by
  induction selected with
  | nil =>
    intro points _
    simp
  | cons a rest ih =>
    intro points h
    simp only [List.foldl_cons]
    rw [eraseIfMem_eq_filter points a h, ih _ (h.filter _), List.filter_filter]
    apply List.filter_congr
    intro x _
    simp only [List.mem_cons, not_or, bne_iff_ne, ne_eq, Bool.and_eq_true, decide_eq_true_eq,
      Bool.decide_and, Bool.decide_eq_true]
    rw [Bool.eq_iff_iff]
    simp only [Bool.and_eq_true, decide_eq_true_eq, bne_iff_ne, ne_eq]
    exact and_comm

/-- C19: `deleteSelected`, in a state whose point list holds each object once.
With a non-empty selection and confirmation disabled or granted, the point
list becomes the old one without the selected objects, the others in their
order, no point object is changed, and the selection is empty.  With
confirmation declined, or with an empty selection, the state is unchanged. -/
theorem deleteSelected_removes_selection (s : State) (hnodup : s.points.Nodup) :
    (∀ answer : Bool, s.selectedPoints ≠ [] →
      (s.settings.confirmDelete = false ∨ answer = true) →
      (deleteSelected s answer).points
        = s.points.filter (fun r => decide (r ∉ s.selectedPoints)) ∧
      (deleteSelected s answer).heap = s.heap ∧
      (deleteSelected s answer).selectedPoints = []) ∧
    (s.settings.confirmDelete = true → deleteSelected s false = s) ∧
    (s.selectedPoints = [] → ∀ answer : Bool, deleteSelected s answer = s) := by
  refine ⟨?_, ?_, ?_⟩
  · intro answer hsel hconfirm
    have hlen : ¬ s.selectedPoints.length = 0 := fun h0 => hsel (List.length_eq_zero.mp h0)
    unfold deleteSelected
    rw [if_neg hlen]
    simp only
    rw [if_pos hconfirm]
    refine ⟨?_, by rw [saveState_heap], by rw [saveState_selectedPoints]⟩
    rw [saveState_points]
    exact deleteLoop_eq_filter s.selectedPoints s.points hnodup
  · intro hconfirm
    unfold deleteSelected
    split
    · rfl
    · simp only
      rw [if_neg (by simp [hconfirm])]
  · intro hnil answer
    unfold deleteSelected
    rw [if_pos (by rw [hnil]; rfl)]

/-- Witness of `deleteSelected_removes_selection`: with the points `1` and `2`
placed and point `2` selected, a confirmed delete leaves point `1`; a declined
one changes nothing. -/
theorem deleteSelected_removes_selection_witness :
    stateTwoPoints.points = [0, 1] ∧ stateTwoPoints.selectedPoints = [1] ∧
    stateTwoPoints.points.Nodup ∧
    (deleteSelected stateTwoPoints true).points = [0] ∧
    (deleteSelected stateTwoPoints true).selectedPoints = [] ∧
    deleteSelected stateTwoPoints false = stateTwoPoints :=
  have h := deleteSelected_removes_selection stateTwoPoints (by decide)
  have h1 := h.1 true (by decide) (by decide)
  ⟨by decide, by decide, by decide, h1.1.trans (by decide), h1.2.2, h.2.1 (by decide)⟩

/-! ## Hit test -/

theorem withinTolerance_iff_distance (s : State) (x y : Int) (r : Ref) :
    withinTolerance s x y r = true ↔
      Real.sqrt ((((s.deref r).x - x : Int) : ℝ) ^ 2 + (((s.deref r).y - y : Int) : ℝ) ^ 2)
        ≤ (s.settings.clickTolerance : ℝ) := by
  unfold withinTolerance
  rw [decide_eq_true_eq, Real.sqrt_le_iff]
  constructor
  · rintro ⟨h1, h2⟩
    exact ⟨by exact_mod_cast h1, by exact_mod_cast h2⟩
  · rintro ⟨h1, h2⟩
    exact ⟨by exact_mod_cast h1, by exact_mod_cast h2⟩

theorem isVisible_of_all (s : State) (r : Ref) (hall : s.filterType = "all".toList) :
    isVisible s r = true := by
  unfold isVisible
  rw [decide_eq_true_eq]
  exact Or.inl hall

theorem isVisible_of_not_all (s : State) (r : Ref) (hall : s.filterType ≠ "all".toList) :
    isVisible s r = decide (namespaceOf (s.deref r).point_id = s.filterType) := by
  unfold isVisible
  by_cases hns : namespaceOf (s.deref r).point_id = s.filterType
  · rw [decide_eq_true (Or.inr hns), decide_eq_true hns]
  · rw [decide_eq_false hns, decide_eq_false]
    rintro (h | h)
    · exact hall h
    · exact hns h

theorem getPointAtPosition_eq_find (s : State) (x y : Int) :
    getPointAtPosition s x y
      = s.points.find? (fun r => isVisible s r && withinTolerance s x y r) := by
  unfold getPointAtPosition
  simp only []
  congr 1
  funext r
  by_cases hall : s.filterType = "all".toList
  · rw [isVisible_of_all s r hall, Bool.true_and, if_neg (fun h => h.1 hall)]
    rfl
  · rw [isVisible_of_not_all s r hall]
    by_cases hns : namespaceOf (s.deref r).point_id = s.filterType
    · rw [if_neg (fun h => h.2 hns), decide_eq_true hns, Bool.true_and]
      rfl
    · rw [if_pos ⟨hall, hns⟩, decide_eq_false hns, Bool.false_and]

theorem getVisiblePoints_eq_filter (s : State) :
    getVisiblePoints s = s.points.filter (isVisible s) := by
  unfold getVisiblePoints
  by_cases hall : s.filterType = "all".toList
  · rw [if_pos hall]
    symm
    rw [List.filter_eq_self]
    intro a _
    exact isVisible_of_all s a hall
  · rw [if_neg hall]
    apply List.filter_congr
    intro a _
    exact (isVisible_of_not_all s a hall).symm

theorem mem_getVisiblePoints (s : State) (r : Ref) :
    r ∈ getVisiblePoints s ↔ r ∈ s.points ∧ isVisible s r = true := by
  rw [getVisiblePoints_eq_filter, List.mem_filter]

/-- C20: the hit test.  A point is visible iff the filter is `all` or its
namespace prefix equals the filter; `getPointAtPosition` returns a point iff
some visible point lies at Euclidean distance at most the tolerance from
`(x, y)`; the point returned is visible, within the tolerance, and the first
such entry of the point list: it is the first hit of `getVisiblePoints()`, and
no earlier entry of the point list is both visible and within the tolerance. -/
theorem hit_test (s : State) (x y : Int) :
    (∀ r : Ref, r ∈ getVisiblePoints s ↔
      r ∈ s.points ∧
        (s.filterType = "all".toList ∨ namespaceOf (s.deref r).point_id = s.filterType)) ∧
    (∀ r : Ref, withinTolerance s x y r = true ↔
      Real.sqrt ((((s.deref r).x - x : Int) : ℝ) ^ 2 + (((s.deref r).y - y : Int) : ℝ) ^ 2)
        ≤ (s.settings.clickTolerance : ℝ)) ∧
    ((getPointAtPosition s x y).isSome = true ↔
      ∃ r ∈ getVisiblePoints s, withinTolerance s x y r = true) ∧
    getPointAtPosition s x y = (getVisiblePoints s).find? (withinTolerance s x y) ∧
    (∀ r : Ref, getPointAtPosition s x y = some r →
      r ∈ getVisiblePoints s ∧ withinTolerance s x y r = true ∧
      ∃ before after, s.points = before ++ r :: after ∧
        ∀ q ∈ before, ¬ (q ∈ getVisiblePoints s ∧ withinTolerance s x y q = true)) := by
  have hfind : getPointAtPosition s x y
      = (getVisiblePoints s).find? (withinTolerance s x y) := by
    rw [getPointAtPosition_eq_find, getVisiblePoints_eq_filter, List.find?_filter]
    congr 1
    funext r
    cases isVisible s r <;> cases withinTolerance s x y r <;> rfl
  refine ⟨?_, withinTolerance_iff_distance s x y, ?_, hfind, ?_⟩
  · intro r
    rw [mem_getVisiblePoints]
    unfold isVisible
    rw [decide_eq_true_eq]
  · rw [hfind, List.find?_isSome]
  · intro r hr
    have h1 := hr
    rw [getPointAtPosition_eq_find, List.find?_eq_some] at h1
    obtain ⟨hp, before, after, hsplit, hbefore⟩ := h1
    rw [Bool.and_eq_true] at hp
    have hmem : r ∈ s.points := by rw [hsplit]; simp
    refine ⟨(mem_getVisiblePoints s r).mpr ⟨hmem, hp.1⟩, hp.2, before, after, hsplit, ?_⟩
    intro q hq hcontra
    have hnot := hbefore q hq
    have hvis := ((mem_getVisiblePoints s q).mp hcontra.1).2
    rw [hvis, hcontra.2] at hnot
    exact absurd hnot (by decide)

/-! ## Box selection -/

theorem mem_setAdd {α : Type} [DecidableEq α] (l : List α) (x y : α) :
    y ∈ setAdd l x ↔ y ∈ l ∨ y = x := by
  unfold setAdd
  split
  · constructor
    · intro h
      exact Or.inl h
    · rintro (h | h)
      · exact h
      · rw [h]
        assumption
  · rw [List.mem_append, List.mem_singleton]

theorem nodup_setAdd {α : Type} [DecidableEq α] (l : List α) (x : α) (h : l.Nodup) :
    (setAdd l x).Nodup := by
  unfold setAdd
  split
  · exact h
  · rename_i hx
    rw [List.nodup_append]
    refine ⟨h, List.nodup_singleton x, ?_⟩
    intro a ha hb
    rw [List.mem_singleton] at hb
    rw [hb] at ha
    exact hx ha

theorem prefix_setAdd {α : Type} [DecidableEq α] (l : List α) (x : α) :
    l <+: setAdd l x := by
  unfold setAdd
  split
  · exact List.prefix_refl l
  · exact List.prefix_append l [x]

/-- The loop `points.forEach(p => { if (test(p)) selected.add(p) })`. -/
theorem selectLoop_spec (test : Nat → Bool) (pts : List Nat) :
    ∀ init : List Nat,
      (∀ r : Nat, r ∈ pts.foldl (fun sel q => if test q then setAdd sel q else sel) init
        ↔ r ∈ init ∨ (r ∈ pts ∧ test r = true)) ∧
      (init.Nodup →
        (pts.foldl (fun sel q => if test q then setAdd sel q else sel) init).Nodup) ∧
      init <+: pts.foldl (fun sel q => if test q then setAdd sel q else sel) init := by
  induction pts with
  | nil =>
    intro init
    refine ⟨fun r => ?_, fun h => h, List.prefix_refl init⟩
    simp
  | cons q rest ih =>
    intro init
    rw [List.foldl_cons]
    by_cases hq : test q = true
    · rw [if_pos hq]
      obtain ⟨h1, h2, h3⟩ := ih (setAdd init q)
      refine ⟨fun r => ?_, fun h => h2 (nodup_setAdd init q h),
        List.IsPrefix.trans (prefix_setAdd init q) h3⟩
      rw [h1, mem_setAdd, List.mem_cons]
      constructor
      · rintro ((h | h) | ⟨h, ht⟩)
        · exact Or.inl h
        · exact Or.inr ⟨Or.inl h, by rw [h]; exact hq⟩
        · exact Or.inr ⟨Or.inr h, ht⟩
      · rintro (h | ⟨h | h, ht⟩)
        · exact Or.inl (Or.inl h)
        · exact Or.inl (Or.inr h)
        · exact Or.inr ⟨h, ht⟩
    · rw [if_neg hq]
      obtain ⟨h1, h2, h3⟩ := ih init
      refine ⟨fun r => ?_, h2, h3⟩
      rw [h1, List.mem_cons]
      constructor
      · rintro (h | ⟨h, ht⟩)
        · exact Or.inl h
        · exact Or.inr ⟨Or.inr h, ht⟩
      · rintro (h | ⟨h | h, ht⟩)
        · exact Or.inl h
        · rw [h] at ht
          exact absurd ht hq
        · exact Or.inr ⟨h, ht⟩

theorem selectLoop_nodup_eq_filter (test : Nat → Bool) (pts : List Nat) :
    ∀ init : List Nat, (init ++ pts).Nodup →
      pts.foldl (fun sel q => if test q then setAdd sel q else sel) init
        = init ++ pts.filter test := by
  induction pts with
  | nil =>
    intro init _
    simp
  | cons q rest ih =>
    intro init hnd
    rw [List.foldl_cons]
    have hq : q ∉ init := by
      intro hmem
      rw [List.nodup_append] at hnd
      exact hnd.2.2 hmem (List.mem_cons_self q rest)
    have hnd1 : ((init ++ [q]) ++ rest).Nodup := by
      rw [List.append_assoc]
      exact hnd
    by_cases ht : test q = true
    · rw [if_pos ht, List.filter_cons_of_pos ht]
      have hadd : setAdd init q = init ++ [q] := by
        unfold setAdd
        rw [if_neg hq]
      rw [hadd, ih (init ++ [q]) hnd1, List.append_assoc]
      rfl
    · rw [if_neg ht, List.filter_cons_of_neg ht]
      apply ih init
      rw [List.nodup_append] at hnd ⊢
      refine ⟨hnd.1, (List.nodup_cons.mp hnd.2.1).2, ?_⟩
      intro a ha hb
      exact hnd.2.2 ha (List.mem_cons_of_mem q hb)

theorem inRect_iff (minX maxX minY maxY : Int) (p : Point) :
    inRect minX maxX minY maxY p = true
      ↔ minX ≤ p.x ∧ p.x ≤ maxX ∧ minY ≤ p.y ∧ p.y ≤ maxY := by
  unfold inRect
  rw [decide_eq_true_eq]

/-- C21: box selection.  For a selection box with corners `(startX, startY)`
and `(endX, endY)` in any relative position, after `updateSelectionBox` the
selection holds exactly the points `p` of the point list with
`min(startX,endX) <= p.x <= max(startX,endX)` and
`min(startY,endY) <= p.y <= max(startY,endY)`, each once (in point-list order
when the point list holds each object once); the result does not depend on
what was selected before, nor on which corner is the start; the point list and
the point objects are unchanged. -/
theorem box_selection (s : State) (box : SelectionBox) (hbox : s.selectionBox = some box) :
    (∀ r : Nat, r ∈ (updateSelectionBox s).selectedPoints ↔
      r ∈ s.points ∧
        min box.startX box.endX ≤ (s.deref r).x ∧ (s.deref r).x ≤ max box.startX box.endX ∧
        min box.startY box.endY ≤ (s.deref r).y ∧ (s.deref r).y ≤ max box.startY box.endY) ∧
    (updateSelectionBox s).selectedPoints.Nodup ∧
    (s.points.Nodup →
      (updateSelectionBox s).selectedPoints
        = s.points.filter (fun r =>
            inRect (min box.startX box.endX) (max box.startX box.endX)
              (min box.startY box.endY) (max box.startY box.endY) (s.deref r))) ∧
    (∀ before : List Ref,
      (updateSelectionBox { s with selectedPoints := before }).selectedPoints
        = (updateSelectionBox s).selectedPoints) ∧
    (updateSelectionBox
        { s with selectionBox := some { startX := box.endX, startY := box.endY,
                                        endX := box.startX, endY := box.startY } }).selectedPoints
      = (updateSelectionBox s).selectedPoints ∧
    (updateSelectionBox s).points = s.points ∧ (updateSelectionBox s).heap = s.heap := by
  have hsel : (updateSelectionBox s).selectedPoints
      = s.points.foldl
          (fun sel q =>
            if inRect (min box.startX box.endX) (max box.startX box.endX)
                (min box.startY box.endY) (max box.startY box.endY) (s.deref q)
            then setAdd sel q else sel) [] := by
    unfold updateSelectionBox
    rw [hbox]
  obtain ⟨h1, h2, _⟩ := selectLoop_spec
    (fun q => inRect (min box.startX box.endX) (max box.startX box.endX)
      (min box.startY box.endY) (max box.startY box.endY) (s.deref q)) s.points []
  refine ⟨?_, ?_, ?_, ?_, ?_, ?_, ?_⟩
  · intro r
    rw [hsel, h1, inRect_iff]
    simp
  · rw [hsel]
    exact h2 List.nodup_nil
  · intro hnd
    rw [hsel, selectLoop_nodup_eq_filter _ s.points [] (by simpa using hnd)]
    rfl
  · intro before
    unfold updateSelectionBox
    simp only [hbox]
    rfl
  · rw [hsel]
    unfold updateSelectionBox
    simp only
    rw [min_comm box.endX, max_comm box.endX, min_comm box.endY, max_comm box.endY]
    rfl
  · exact (updateSelectionBox_fields s).2.1
  · exact (updateSelectionBox_fields s).1

/-- Witness of `box_selection`: with the points `1` at `(100, 100)` and `2` at
`(200, 200)`, a box drawn from `(250, 250)` back to `(50, 50)` selects both,
whatever was selected before. -/
theorem box_selection_witness :
    stateBoxSelecting.selectionBox
      = some { startX := 250, startY := 250, endX := 50, endY := 50 } ∧
    (updateSelectionBox stateBoxSelecting).selectedPoints = [0, 1] ∧
    ∀ before : List Ref,
      (updateSelectionBox { stateBoxSelecting with selectedPoints := before }).selectedPoints
        = (updateSelectionBox stateBoxSelecting).selectedPoints :=
  ⟨by decide, by decide,
    (box_selection stateBoxSelecting
      { startX := 250, startY := 250, endX := 50, endY := 50 } (by decide)).2.2.2.1⟩

/-! ## Shift-click range selection -/

theorem selectPointsInRange_selected (s : State) (x y : Int) (a : Nat)
    (hlast : s.selectedPoints.getLast? = some a) :
    selectPointsInRange s x y
      = { s with selectedPoints := (s.points.foldl
            (fun sel q =>
              if inRect (min (s.deref a).x x) (max (s.deref a).x x)
                  (min (s.deref a).y y) (max (s.deref a).y y) (s.deref q)
              then setAdd sel q else sel) s.selectedPoints) } := by
  unfold selectPointsInRange
  rw [hlast]

theorem onCanvasClick_shift (s : State) (ev : MouseEvent)
    (himg : s.currentImage.isNone = false) (hdrag : s.isDragging = false)
    (hshift : ev.shiftKey = true) (hctrl : ev.ctrlKey = false) (hmeta : ev.metaKey = false)
    (hsel : s.selectedPoints ≠ []) :
    onCanvasClick s ev
      = selectPointsInRange s (ev.clientX - ev.rectLeft) (ev.clientY - ev.rectTop) := by
  unfold onCanvasClick
  have hlen : s.selectedPoints.length > 0 := List.length_pos.mpr hsel
  rw [if_neg (by simp [himg, hdrag])]
  simp only
  rw [if_neg (by simp [hctrl, hmeta]), if_pos ⟨hshift, hlen⟩]

/-- C22: shift-click range selection is additive.  With an image loaded and no
drag in progress, for a non-empty selection whose most recently added element
is `a`, the click handler with Shift held and neither Ctrl nor Cmd yields the
old selection together with every point of the point list in the closed
rectangle spanned by `(a.x, a.y)` and the click location: the old selection
is kept as the front of the new one, no point object and no entry of the point
list changes. -/
theorem shift_click_adds_range (s : State) (ev : MouseEvent) (a : Nat)
    (himg : s.currentImage.isNone = false) (hdrag : s.isDragging = false)
    (hshift : ev.shiftKey = true) (hctrl : ev.ctrlKey = false) (hmeta : ev.metaKey = false)
    (hlast : s.selectedPoints.getLast? = some a) :
    (∀ r : Nat, r ∈ (onCanvasClick s ev).selectedPoints ↔
      r ∈ s.selectedPoints ∨
        (r ∈ s.points ∧
          min (s.deref a).x (ev.clientX - ev.rectLeft) ≤ (s.deref r).x ∧
          (s.deref r).x ≤ max (s.deref a).x (ev.clientX - ev.rectLeft) ∧
          min (s.deref a).y (ev.clientY - ev.rectTop) ≤ (s.deref r).y ∧
          (s.deref r).y ≤ max (s.deref a).y (ev.clientY - ev.rectTop))) ∧
    s.selectedPoints <+: (onCanvasClick s ev).selectedPoints ∧
    (s.selectedPoints.Nodup → (onCanvasClick s ev).selectedPoints.Nodup) ∧
    (onCanvasClick s ev).points = s.points ∧ (onCanvasClick s ev).heap = s.heap := by
  have hsel : s.selectedPoints ≠ [] := by
    intro h
    rw [h] at hlast
    exact absurd hlast (by simp)
  rw [onCanvasClick_shift s ev himg hdrag hshift hctrl hmeta hsel,
    selectPointsInRange_selected s _ _ a hlast]
  obtain ⟨h1, h2, h3⟩ := selectLoop_spec
    (fun q => inRect (min (s.deref a).x (ev.clientX - ev.rectLeft))
      (max (s.deref a).x (ev.clientX - ev.rectLeft))
      (min (s.deref a).y (ev.clientY - ev.rectTop))
      (max (s.deref a).y (ev.clientY - ev.rectTop)) (s.deref q)) s.points s.selectedPoints
  refine ⟨?_, h3, h2, rfl, rfl⟩
  intro r
  exact (h1 r).trans (by rw [inRect_iff])

/-- Witness of `shift_click_adds_range`: with the points `1` at `(100, 100)` and
`2` at `(200, 200)`, point `2` selected, a shift-click at `(50, 50)` adds point
`1` to the selection. -/
theorem shift_click_adds_range_witness :
    stateTwoPoints.selectedPoints = [1] ∧
    (onCanvasClick stateTwoPoints (shiftAt 50 50)).selectedPoints = [1, 0] ∧
    stateTwoPoints.selectedPoints
      <+: (onCanvasClick stateTwoPoints (shiftAt 50 50)).selectedPoints :=
  ⟨by decide, by decide,
    (shift_click_adds_range stateTwoPoints (shiftAt 50 50) 1 (by decide) (by decide)
      (by decide) (by decide) (by decide) (by decide)).2.1⟩

/-! ## Right click -/

/-- C23, a counterexample to the claim as stated: with the points `1` and `2`
both selected, the selection is not exactly point `1`, yet a right click on
point `1` leaves both points selected. -/
theorem right_click_multiselection_counterexample :
    Reachable stateAllSelected ∧
    getPointAtPosition stateAllSelected 100 100 = some 0 ∧
    stateAllSelected.selectedPoints = [0, 1] ∧
    (onRightClick stateAllSelected (rightButtonAt 100 100)).selectedPoints = [0, 1] ∧
    (onRightClick stateAllSelected (rightButtonAt 100 100)).selectedPoints ≠ [0] ∧
    (onRightClick stateAllSelected (rightButtonAt 100 100)).contextMenuTarget = some 0 :=
  ⟨Reachable.step Action.selectAll reachable_stateTwoPoints rfl,
    by decide, by decide, by decide, by decide, by decide⟩

/-- C23, amended: a right click on a hit point `p`, with an image loaded.  If
`p` is not selected, the selection becomes exactly `p`; if `p` is selected,
alone or together with other points, the selection is unchanged; in both cases
the context-menu target becomes `p`, and the point list, the point objects,
the prefix set and the history are unchanged. -/
theorem right_click_on_point (s : State) (ev : MouseEvent) (p : Nat)
    (himg : s.currentImage.isNone = false)
    (hhit : getPointAtPosition s (ev.clientX - ev.rectLeft) (ev.clientY - ev.rectTop)
      = some p) :
    (p ∉ s.selectedPoints → (onRightClick s ev).selectedPoints = [p]) ∧
    (p ∈ s.selectedPoints → (onRightClick s ev).selectedPoints = s.selectedPoints) ∧
    (onRightClick s ev).contextMenuTarget = some p ∧
    (onRightClick s ev).points = s.points ∧ (onRightClick s ev).heap = s.heap ∧
    (onRightClick s ev).prefixes = s.prefixes ∧
    (onRightClick s ev).history = s.history ∧
    (onRightClick s ev).historyIndex = s.historyIndex := by
  have h : onRightClick s ev
      = showContextMenu (if p ∈ s.selectedPoints then s else { s with selectedPoints := [p] })
          (some p) := by
    unfold onRightClick
    rw [if_neg (by simp [himg])]
    simp only
    rw [hhit]
  rw [h]
  unfold showContextMenu
  refine ⟨?_, ?_, rfl, ?_, ?_, ?_, ?_, ?_⟩
  · intro hp
    rw [if_neg hp]
  · intro hp
    rw [if_pos hp]
  all_goals split <;> rfl

/-- Witness of `right_click_on_point`: with point `2` selected, a right click on
point `1` selects point `1` alone and opens the menu for it. -/
theorem right_click_on_point_witness :
    stateTwoPoints.selectedPoints = [1] ∧
    (onRightClick stateTwoPoints (rightButtonAt 100 100)).selectedPoints = [0] ∧
    (onRightClick stateTwoPoints (rightButtonAt 100 100)).contextMenuTarget = some 0 :=
  have h := right_click_on_point stateTwoPoints (rightButtonAt 100 100) 0
    (by decide) (by decide)
  ⟨by decide, h.1 (by decide), h.2.2.1⟩

/-! ## Pointer up -/

/-- C24: pointer-up.  After `onMouseUp` the controller is idle
(`isDragging = false`, `isMultiSelecting = false`, `selectionBox = null`).  From
the dragging state with `n >= 1` selected points, the history and its index
are those `saveState` produces for the label `Move n point(s)`: for a capacity
of at least 1 the current entry is the snapshot with that label and the points
at their current, dragged positions, and at the head of a history below
capacity it is the one entry added.  When no drag is in progress (box
selecting or idle), history, index, point list, point objects and selection
are unchanged. -/
theorem pointer_up (s : State) :
    ((onMouseUp s).isDragging = false ∧ (onMouseUp s).isMultiSelecting = false ∧
      (onMouseUp s).selectionBox = none) ∧
    (s.isDragging = true → s.selectedPoints ≠ [] →
      ∃ e : HistoryEntry,
        e.action = "Move ".toList ++ natToString s.selectedPoints.length ++ " point(s)".toList ∧
        e.points = s.pointValues ∧
        (onMouseUp s).pointValues = s.pointValues ∧
        (onMouseUp s).historyIndex = ((onMouseUp s).history.length : Int) - 1 ∧
        (1 ≤ s.maxHistorySize →
          arrayGet (onMouseUp s).history (onMouseUp s).historyIndex = some e) ∧
        (s.historyIndex = (s.history.length : Int) - 1 →
          (s.history.length : Int) < s.maxHistorySize →
          (onMouseUp s).history = s.history ++ [e])) ∧
    (s.isDragging = false →
      (onMouseUp s).history = s.history ∧ (onMouseUp s).historyIndex = s.historyIndex ∧
      (onMouseUp s).points = s.points ∧ (onMouseUp s).heap = s.heap ∧
      (onMouseUp s).selectedPoints = s.selectedPoints) := by
  refine ⟨⟨rfl, rfl, rfl⟩, ?_, ?_⟩
  · intro hdrag hsel
    have hlen : s.selectedPoints.length > 0 := List.length_pos.mpr hsel
    have h : onMouseUp s
        = { saveState s
              ("Move ".toList ++ natToString s.selectedPoints.length ++ " point(s)".toList) with
            isDragging := false, isMultiSelecting := false, selectionBox := none } := by
      unfold onMouseUp
      simp only
      rw [if_pos ⟨hdrag, hlen⟩]
    refine ⟨snapshot s
      ("Move ".toList ++ natToString s.selectedPoints.length ++ " point(s)".toList),
      rfl, rfl, ?_, ?_, ?_, ?_⟩
    · rw [h]
      exact saveState_pointValues s _
    · rw [h]
      exact saveState_historyIndex s _
    · intro hcap
      rw [h]
      exact saveState_current_entry s _ hcap
    · intro hhead hcap
      rw [h]
      exact (saveState_grows s _ hhead hcap).1
  · intro hdrag
    have h : onMouseUp s
        = { s with isDragging := false, isMultiSelecting := false, selectionBox := none } := by
      unfold onMouseUp
      simp only
      rw [if_neg (by simp [hdrag])]
    rw [h]
    exact ⟨rfl, rfl, rfl, rfl, rfl⟩

/-! ## CSV export -/

theorem csvHeaders_eq_spec (settings : Settings) :
    csvHeaders settings = csvHeaderSpec settings := by
  unfold csvHeaders csvHeaderSpec
  cases settings.includePointType <;> cases settings.includeOriginalCoords <;> rfl

theorem csvRow_eq_spec (s : State) (img : Image) (p : Point)
    (himg : s.settings.includeOriginalCoords = true → s.currentImage = some img) :
    csvRow s p
      = some (csvRowSpec s.settings
          (originalDoubles img.width img.height s.canvasWidth s.canvasHeight) p) := by
  have htype : (if includesDash p.point_id then splitDash0 p.point_id else "POINT".toList)
      = (if includesDash p.point_id then namespaceOf p.point_id else "POINT".toList) := by
    unfold namespaceOf
    split <;> rfl
  unfold csvRow csvRowSpec originalDoubles
  simp only
  rw [htype]
  by_cases hc : s.settings.includeOriginalCoords = true
  · rw [if_pos hc, if_pos hc, himg hc]
    cases s.settings.includePointType <;> simp
  · rw [if_neg hc, if_neg hc]
    cases s.settings.includePointType <;> simp

/-- The `forEach` loop of `exportCSV` when every row is built. -/
theorem exportLoop_eq (sep : JSString) (f : Nat → Option (List JSString))
    (g : Nat → List JSString) (pts : List Nat) :
    ∀ csv : JSString, (∀ r ∈ pts, f r = some (g r)) →
      pts.foldl
          (fun acc r =>
            acc.bind (fun text =>
              (f r).map (fun row => text ++ (arrayJoin sep row ++ [newline]))))
          (some csv)
        = some (csv ++ pts.flatMap (fun r => arrayJoin sep (g r) ++ [newline])) := by
  induction pts with
  | nil =>
    intro csv _
    simp
  | cons q rest ih =>
    intro csv h
    rw [List.foldl_cons, h q (List.mem_cons_self q rest)]
    simp only [Option.some_bind, Option.map_some']
    rw [ih _ (fun r hr => h r (List.mem_cons_of_mem q hr))]
    simp [List.append_assoc]

theorem exportCSV_eq (s : State) (g : Point → List JSString) (hpts : s.points ≠ [])
    (hrow : ∀ r ∈ s.points, csvRow s (s.deref r) = some (g (s.deref r))) :
    exportCSV s
      = some (arrayJoin s.settings.csvDelimiter (csvHeaderSpec s.settings) ++ [newline] ++
          s.points.flatMap
            (fun r => arrayJoin s.settings.csvDelimiter (g (s.deref r)) ++ [newline])) := by
  unfold exportCSV
  have hlen : ¬ s.points.length = 0 := fun h => hpts (List.length_eq_zero.mp h)
  rw [if_neg hlen]
  simp only
  rw [exportLoop_eq s.settings.csvDelimiter (fun r => csvRow s (s.deref r))
    (fun r => g (s.deref r)) s.points _ hrow, csvHeaders_eq_spec]

/-- C25, a counterexample to the claim as stated: a 3024 by 3024 image is shown
320 by 320 and the point `1` sits at `(50, 50)`.  The exact quotient
`50 * 3024 / 320` is `472.5`, which rounds to `473`; the export computes
`50 * (3024 / 320)` in doubles, which lies just below `472.5`, and writes
`472`.  In the same way `7 * (61 / 14)` is written `30` where the exact
quotient `30.5` rounds to `31`. -/
theorem csv_rounding_counterexample :
    Reachable statePhoto ∧
    statePhoto.pointValues = [{ point_id := "1".toList, x := 50, y := 50 }] ∧
    statePhoto.currentImage = some { width := 3024, height := 3024 } ∧
    statePhoto.canvasWidth = 320 ∧ statePhoto.canvasHeight = 320 ∧
    statePhoto.settings.includeOriginalCoords = true ∧
    exportCSV statePhoto
      = some "point_id,x,y,point_type,original_x,original_y\n1,50,50,POINT,472,472\n".toList ∧
    originalExact 3024 3024 320 320 { point_id := "1".toList, x := 50, y := 50 }
      = ["473".toList, "473".toList] ∧
    exportCSV statePhoto
      ≠ some (arrayJoin statePhoto.settings.csvDelimiter (csvHeaderSpec statePhoto.settings) ++
          [newline] ++
          statePhoto.points.flatMap (fun r =>
            arrayJoin statePhoto.settings.csvDelimiter
              (csvRowSpec statePhoto.settings (originalExact 3024 3024 320 320)
                (statePhoto.deref r)) ++ [newline])) ∧
    round ((7 : ℚ) * 61 / 14) = 31 ∧ scaledText 7 61 14 = "30".toList := by
  have hround : round ((50 : ℚ) * 3024 / 320) = 473 := by
    rw [round_eq, Int.floor_eq_iff]
    norm_num
  have hexact : originalExact 3024 3024 320 320 { point_id := "1".toList, x := 50, y := 50 }
      = ["473".toList, "473".toList] := by
    unfold originalExact
    simp only [Int.cast_ofNat]
    rw [hround]
    decide
  have hpts : statePhoto.points = [0] := by decide
  have hderef : statePhoto.deref 0 = { point_id := "1".toList, x := 50, y := 50 } := by decide
  have hcsv : exportCSV statePhoto
      = some "point_id,x,y,point_type,original_x,original_y\n1,50,50,POINT,472,472\n".toList := by
    decide
  refine ⟨reachable_run _ _ (Reachable.init defaultSettings) (by decide), by decide, by decide,
    by decide, by decide, by decide, hcsv, hexact, ?_, ?_, by decide⟩
  · rw [hcsv, hpts]
    simp only [List.flatMap_cons, List.flatMap_nil]
    rw [hderef]
    unfold csvRowSpec
    rw [hexact]
    decide
  · rw [round_eq, Int.floor_eq_iff]
    norm_num

/-- C25, amended: CSV content.  For a non-empty point list (with an image
loaded when original coordinates are configured) the exported text is the
header `point_id`, `x`, `y`, then `point_type` if configured, then
`original_x`, `original_y` if configured, followed by one line per point in
point-list order holding `point_id`, `x`, `y`, then (if configured) the
namespace prefix or `POINT` for an unprefixed point, then (if configured)
`Math.round(x * (originalWidth / displayWidth))` and
`Math.round(y * (originalHeight / displayHeight))` evaluated in double
arithmetic, the quotient and the product each rounded to the nearest double;
the fields of a line are joined by the configured delimiter and every line ends
with a newline.  A coordinate below `2 ^ 53` in absolute value is written as
its decimal text, and for a binary scale (`originalWidth / displayWidth` a
fraction `c / 2 ^ j`, `|x| * c` below `2 ^ 53`) the double computation is exact:
the text is that of `round(x * originalWidth / displayWidth)`. -/
theorem csv_content (s : State) (img : Image) (hpts : s.points ≠ [])
    (himg : s.settings.includeOriginalCoords = true → s.currentImage = some img) :
    exportCSV s
      = some (arrayJoin s.settings.csvDelimiter (csvHeaderSpec s.settings) ++ [newline] ++
          s.points.flatMap (fun r =>
            arrayJoin s.settings.csvDelimiter
              (csvRowSpec s.settings
                (originalDoubles img.width img.height s.canvasWidth s.canvasHeight)
                (s.deref r)) ++ [newline])) ∧
    (∀ v : Int, v.natAbs < 2 ^ 53 → coordText v = intToString v) ∧
    (∀ (v W w : Int) (c j : Nat), 0 < W → 0 < w → W < 2 ^ 53 → w < 2 ^ 53 →
      W * 2 ^ j = c * w → j ≤ 1074 → c < 2 ^ 53 → v.natAbs * c < 2 ^ 53 →
      scaledText v W w = intToString (round ((v : ℚ) * W / w))) :=
  ⟨exportCSV_eq s
      (csvRowSpec s.settings
        (originalDoubles img.width img.height s.canvasWidth s.canvasHeight))
      hpts (fun r _ => csvRow_eq_spec s img (s.deref r) himg),
    coordText_small, scaledText_binary_scale⟩

/-- Witness of `csv_content`: with point type on, original coordinates off and
the comma as delimiter, the point list `LOC-1` at `(10, 20)` is exported as the
header `point_id,x,y,point_type` and the row `LOC-1,10,20,LOC`.  With the
default settings and a 1200 by 900 image shown 800 by 600, the point `1` at
`(11, 21)` has the original coordinates `(17, 32)`: the scale `1.5` is a
double, and `16.5` and `31.5` round up.  The products `3 * (1 / 6)` and
`5 * (1 / 10)` are rounded to the double `0.5` and written `1`. -/
theorem csv_content_witness :
    stateExport.pointValues = [{ point_id := "LOC-1".toList, x := 10, y := 20 }] ∧
    exportCSV stateExport = some "point_id,x,y,point_type\nLOC-1,10,20,LOC\n".toList ∧
    exportCSV stateExport
      = some (arrayJoin [','] (csvHeaderSpec exportSettings) ++ [newline] ++
          stateExport.points.flatMap (fun r =>
            arrayJoin [',']
              (csvRowSpec exportSettings (originalDoubles 800 600 800 600)
                (stateExport.deref r)) ++ [newline])) ∧
    stateScaled.points ≠ [] ∧
    stateScaled.currentImage = some { width := 1200, height := 900 } ∧
    exportCSV stateScaled
      = some "point_id,x,y,point_type,original_x,original_y\n1,11,21,POINT,17,32\n".toList ∧
    exportCSV stateScaled
      = some (arrayJoin [','] (csvHeaderSpec defaultSettings) ++ [newline] ++
          stateScaled.points.flatMap (fun r =>
            arrayJoin [',']
              (csvRowSpec defaultSettings (originalDoubles 1200 900 800 600)
                (stateScaled.deref r)) ++ [newline])) ∧
    originalDoubles 1 1 6 10 { point_id := "1".toList, x := 3, y := 5 }
      = ["1".toList, "1".toList] :=
  ⟨by decide, by decide,
    (csv_content stateExport { width := 800, height := 600 } (by decide) (by decide)).1,
    by decide, by decide, by decide,
    (csv_content stateScaled { width := 1200, height := 900 } (by decide) (by decide)).1,
    by decide⟩

theorem csvRow_isSome (s : State) (p : Point)
    (himg : s.settings.includeOriginalCoords = true → s.currentImage ≠ none) :
    csvRow s p = some ((csvRow s p).getD []) := by
  unfold csvRow
  simp only
  by_cases hc : s.settings.includeOriginalCoords = true
  · rw [if_pos hc]
    cases hi : s.currentImage with
    | none => exact absurd hi (himg hc)
    | some image => rfl
  · rw [if_neg hc]
    rfl

/-- C26, a counterexample to the claim as stated: with the points `LOC-1` and
`LOCAL-1` and the filter `LOC` active, `getVisiblePoints()` returns `LOC-1`
alone, and the exported text has a row for `LOCAL-1` as well. -/
theorem export_ignores_filter_counterexample :
    Reachable stateLocFiltered ∧
    stateLocFiltered.filterType = "LOC".toList ∧
    stateLocFiltered.points = [0, 1] ∧
    getVisiblePoints stateLocFiltered = [0] ∧
    exportCSV stateLocFiltered
      = some ("point_id,x,y,point_type,original_x,original_y\n".toList ++
          "LOC-1,100,100,LOC,100,100\n".toList ++
          "LOCAL-1,200,200,LOCAL,200,200\n".toList) :=
  ⟨Reachable.step (Action.setFilter "LOC".toList)
      (reachable_run _ _ (Reachable.init defaultSettings) (by decide)) rfl,
    by decide, by decide, by decide, by decide⟩

/-- C26, amended: the exporter serializes the whole point list.  For a
non-empty point list (with an image loaded when original coordinates are
configured) and every active filter, the exported text is the header line
followed by the row of each entry of the point list, in point-list order; the
filter has no influence on it.  The rows are those of `getVisiblePoints()`
under the filter `all`, and whenever no point is hidden. -/
theorem export_serializes_point_list (s : State) (hpts : s.points ≠ [])
    (himg : s.settings.includeOriginalCoords = true → s.currentImage ≠ none) :
    (∀ r ∈ s.points, (csvRow s (s.deref r)).isSome = true) ∧
    exportCSV s
      = some (arrayJoin s.settings.csvDelimiter (csvHeaders s.settings) ++ [newline] ++
          s.points.flatMap (fun r =>
            arrayJoin s.settings.csvDelimiter ((csvRow s (s.deref r)).getD []) ++ [newline])) ∧
    (∀ filter : JSString, exportCSV { s with filterType := filter } = exportCSV s) ∧
    (s.filterType = "all".toList → getVisiblePoints s = s.points) ∧
    ((∀ r ∈ s.points, isVisible s r = true) → getVisiblePoints s = s.points) := by
  refine ⟨?_, ?_, fun _ => rfl, ?_, ?_⟩
  · intro r _
    rw [csvRow_isSome s (s.deref r) himg]
    rfl
  · rw [csvHeaders_eq_spec]
    exact exportCSV_eq s (fun p => (csvRow s p).getD []) hpts
      (fun r _ => csvRow_isSome s (s.deref r) himg)
  · intro hall
    unfold getVisiblePoints
    rw [if_pos hall]
  · intro hvis
    rw [getVisiblePoints_eq_filter, List.filter_eq_self]
    exact hvis

/-- Witness of `export_serializes_point_list`: with the filter `LOC` active on
the points `LOC-1` and `LOCAL-1`, the export is the same text as without the
filter. -/
theorem export_serializes_point_list_witness :
    stateLocFiltered.points ≠ [] ∧
    exportCSV stateLocFiltered = exportCSV stateLocLocal ∧
    (∀ r ∈ stateLocFiltered.points,
      (csvRow stateLocFiltered (stateLocFiltered.deref r)).isSome = true) :=
  ⟨by decide, by decide,
    (export_serializes_point_list stateLocFiltered (by decide) (by decide)).1⟩

/-! ## Prefix registry -/

theorem normalizedPrefix_valid (raw : JSString) (hne : normalizedPrefix raw ≠ [])
    (hlen : (normalizedPrefix raw).length ≤ 10) : ValidPrefix (normalizedPrefix raw) := by
  refine ⟨?_, hlen, ?_⟩
  · exact List.length_pos.mpr hne
  · intro c hc
    unfold normalizedPrefix at hc
    exact (List.mem_filter.mp hc).2

theorem addPrefix_rejected (s : State) (raw : JSString)
    (h : normalizedPrefix raw = [] ∨ 10 < (normalizedPrefix raw).length ∨
      normalizedPrefix raw ∈ s.prefixes) :
    addPrefix s raw = (s, false) := by
  unfold addPrefix
  split
  · rfl
  · simp only
    split
    · rfl
    · rename_i hok
      split
      · rfl
      · rename_i hnew
        rcases h with h | h | h
        · exact absurd (Or.inl (by rw [← List.length_eq_zero] at h; exact h)) hok
        · exact absurd (Or.inr h) hok
        · exact absurd h hnew

theorem addPrefix_accepted (s : State) (raw : JSString)
    (hne : normalizedPrefix raw ≠ []) (hlen : (normalizedPrefix raw).length ≤ 10)
    (hnew : normalizedPrefix raw ∉ s.prefixes) :
    addPrefix s raw = ({ s with prefixes := s.prefixes ++ [normalizedPrefix raw] }, true) := by
  have hraw : raw.isEmpty = false := by
    cases raw with
    | nil => exact absurd rfl hne
    | cons c rest => rfl
  have hlen0 : ¬ ((normalizedPrefix raw).length = 0 ∨ (normalizedPrefix raw).length > 10) := by
    rintro (h | h)
    · exact hne (List.length_eq_zero.mp h)
    · omega
  unfold normalizedPrefix at hlen0 hnew ⊢
  unfold addPrefix
  rw [if_neg (by simp [hraw])]
  simp only
  rw [if_neg hlen0, if_neg hnew]
  unfold setAdd
  rw [if_neg hnew]

theorem registry_saveState (s : State) (action : JSString)
    (h : RegistryValid s.prefixes s.history) :
    RegistryValid (saveState s action).prefixes (saveState s action).history := by
  refine ⟨?_, ?_⟩
  · rw [saveState_prefixes]
    exact h.1
  · intro e he
    rcases mem_saveState_history s action e he with h1 | h1
    · exact h.2 e h1
    · rw [h1]
      exact h.1

theorem registry_undo (s : State) (h : RegistryValid s.prefixes s.history) :
    RegistryValid (undo s).prefixes (undo s).history := by
  unfold undo
  split
  · simp only
    split
    · rename_i e he
      exact ⟨h.2 e (mem_arrayGet _ _ _ he), h.2⟩
    · exact h
  · exact h

theorem registry_redo (s : State) (h : RegistryValid s.prefixes s.history) :
    RegistryValid (redo s).prefixes (redo s).history := by
  unfold redo
  split
  · simp only
    split
    · rename_i e he
      exact ⟨h.2 e (mem_arrayGet _ _ _ he), h.2⟩
    · exact h
  · exact h

theorem registry_addPrefix (s : State) (raw : JSString)
    (h : RegistryValid s.prefixes s.history) :
    RegistryValid (addPrefix s raw).1.prefixes (addPrefix s raw).1.history := by
  by_cases hrej : normalizedPrefix raw = [] ∨ 10 < (normalizedPrefix raw).length ∨
      normalizedPrefix raw ∈ s.prefixes
  · rw [addPrefix_rejected s raw hrej]
    exact h
  · have hne : normalizedPrefix raw ≠ [] := fun hh => hrej (Or.inl hh)
    have hlen : (normalizedPrefix raw).length ≤ 10 := by
      by_contra hh
      exact hrej (Or.inr (Or.inl (by omega)))
    have hnew : normalizedPrefix raw ∉ s.prefixes := fun hh => hrej (Or.inr (Or.inr hh))
    rw [addPrefix_accepted s raw hne hlen hnew]
    refine ⟨?_, h.2⟩
    intro p hp
    rcases List.mem_append.mp hp with hp1 | hp1
    · exact h.1 p hp1
    · rw [List.mem_singleton.mp hp1]
      exact normalizedPrefix_valid raw hne hlen

theorem registry_setDelete (prefixes : List JSString) (history : List HistoryEntry)
    (pfx : JSString) (h : RegistryValid prefixes history) :
    RegistryValid (setDelete prefixes pfx) history := by
  refine ⟨?_, h.2⟩
  intro p hp
  unfold setDelete at hp
  exact h.1 p (List.mem_filter.mp hp).1

theorem registry_removePoints (toRemove : List Nat) (acc : State)
    (h : RegistryValid acc.prefixes acc.history) :
    RegistryValid (removePoints acc toRemove).prefixes (removePoints acc toRemove).history := by
  obtain ⟨f1, _, _, f4, _⟩ := removePoints_fields toRemove acc
  rw [f1, f4]
  exact h

theorem registry_removePrefix (s : State) (pfx : JSString) (answer : Bool)
    (h : RegistryValid s.prefixes s.history) :
    RegistryValid (removePrefix s pfx answer).1.prefixes
      (removePrefix s pfx answer).1.history := by
  unfold removePrefix
  simp only
  split
  · exact h
  · split
    · apply registry_saveState
      apply registry_removePoints
      exact registry_setDelete s.prefixes s.history pfx h
    · exact registry_setDelete s.prefixes s.history pfx h

theorem registry_onCanvasClick (s : State) (ev : MouseEvent)
    (h : RegistryValid s.prefixes s.history) :
    RegistryValid (onCanvasClick s ev).prefixes (onCanvasClick s ev).history := by
  unfold onCanvasClick selectPointsInRange
  simp only []
  repeat' split
  all_goals exact h

theorem registry_onRightClick (s : State) (ev : MouseEvent)
    (h : RegistryValid s.prefixes s.history) :
    RegistryValid (onRightClick s ev).prefixes (onRightClick s ev).history := by
  unfold onRightClick showContextMenu
  simp only []
  repeat' split
  all_goals exact h

theorem registry_onMouseDown (s : State) (ev : MouseEvent)
    (h : RegistryValid s.prefixes s.history) :
    RegistryValid (onMouseDown s ev).prefixes (onMouseDown s ev).history := by
  unfold onMouseDown
  simp only []
  repeat' split
  all_goals exact h

theorem registry_onMouseMove (s : State) (ev : MouseEvent)
    (h : RegistryValid s.prefixes s.history) :
    RegistryValid (onMouseMove s ev).prefixes (onMouseMove s ev).history := by
  unfold onMouseMove updateSelectionBox
  simp only []
  repeat' split
  all_goals exact h

theorem registry_onMouseUp (s : State) (h : RegistryValid s.prefixes s.history) :
    RegistryValid (onMouseUp s).prefixes (onMouseUp s).history := by
  unfold onMouseUp
  simp only
  split
  · exact registry_saveState s _ h
  · exact h

theorem registry_duplicatePoint (s : State) (point : Option Ref)
    (h : RegistryValid s.prefixes s.history) :
    RegistryValid (duplicatePoint s point).prefixes (duplicatePoint s point).history := by
  unfold duplicatePoint
  split
  · exact h
  · exact registry_saveState _ _ h

theorem registry_deletePoint (s : State) (point : Option Ref)
    (h : RegistryValid s.prefixes s.history) :
    RegistryValid (deletePoint s point).prefixes (deletePoint s point).history := by
  unfold deletePoint
  split
  · exact h
  · split
    · exact registry_saveState _ _ h
    · exact h

theorem registry_deleteSelected (s : State) (answer : Bool)
    (h : RegistryValid s.prefixes s.history) :
    RegistryValid (deleteSelected s answer).prefixes (deleteSelected s answer).history := by
  unfold deleteSelected
  split
  · exact h
  · simp only
    split
    · exact registry_saveState _ _ h
    · exact h

theorem registry_clearAll (s : State) (answer : Bool)
    (h : RegistryValid s.prefixes s.history) :
    RegistryValid (clearAll s answer).prefixes (clearAll s answer).history := by
  unfold clearAll
  split
  · exact h
  · split
    · exact registry_saveState _ _ ⟨h.1, fun e he => absurd he (List.not_mem_nil e)⟩
    · exact h

theorem registry_handleContextMenuAction (s : State) (a : MenuAction)
    (h : RegistryValid s.prefixes s.history) :
    RegistryValid (handleContextMenuAction s a).prefixes
      (handleContextMenuAction s a).history := by
  unfold handleContextMenuAction
  have h1 : RegistryValid (hideContextMenu s).prefixes (hideContextMenu s).history := h
  cases a
  · unfold editPoint
    split <;> exact h1
  · exact registry_duplicatePoint _ _ h1
  · exact registry_deletePoint _ _ h1

theorem registry_addPoint (s : State) (pfx rawId : JSString)
    (h : RegistryValid s.prefixes s.history) :
    RegistryValid (addPoint s pfx rawId).prefixes (addPoint s pfx rawId).history := by
  unfold addPoint
  simp only
  split
  · exact h
  · split
    · exact h
    · split
      · split
        · exact h
        · exact registry_saveState _ _ h
      · split
        · exact h
        · split
          · exact h
          · exact registry_saveState _ _ h

theorem registry_step (s : State) (a : Action) (h : RegistryValid s.prefixes s.history) :
    RegistryValid (step s a).prefixes (step s a).history := by
  cases a with
  | addPrefix raw => exact registry_addPrefix s raw h
  | removePrefix pfx answer => exact registry_removePrefix s pfx answer h
  | undo => exact registry_undo s h
  | redo => exact registry_redo s h
  | imageLoaded img w hh =>
    exact registry_saveState _ _ ⟨h.1, fun e he => absurd he (List.not_mem_nil e)⟩
  | canvasClick ev => exact registry_onCanvasClick s ev h
  | rightClick ev => exact registry_onRightClick s ev h
  | mouseDown ev => exact registry_onMouseDown s ev h
  | mouseMove ev => exact registry_onMouseMove s ev h
  | mouseUp => exact registry_onMouseUp s h
  | hideContextMenu => exact h
  | contextMenuAction a => exact registry_handleContextMenuAction s a h
  | editPoint point =>
    show RegistryValid (editPoint s point).prefixes (editPoint s point).history
    unfold editPoint
    split <;> exact h
  | duplicatePoint point => exact registry_duplicatePoint s point h
  | deletePoint point => exact registry_deletePoint s point h
  | selectAll => exact h
  | deselectAll => exact h
  | deleteSelected answer => exact registry_deleteSelected s answer h
  | clearAll answer => exact registry_clearAll s answer h
  | setFilter type => exact h
  | closeModal => exact h
  | addPoint pfx rawId => exact registry_addPoint s pfx rawId h
  | applySettings settings => exact h

theorem reachable_registry (s : State) (h : Reachable s) :
    RegistryValid s.prefixes s.history := by
  induction h with
  | init settings =>
    exact ⟨fun p hp => absurd hp (List.not_mem_nil p),
      fun e he => absurd he (List.not_mem_nil e)⟩
  | step a _ _ ih => exact registry_step _ a ih

/-- C27: `addPrefix(raw)`.  Let `n` be `raw` trimmed, upper-cased and stripped of
every character outside `A-Z` and `0-9`.  If `n` is empty, longer than 10
characters or already in the set, `addPrefix` returns false and the state,
the prefix set included, is unchanged; otherwise it returns true and the only
change is that `n` is added to the prefix set.  A prefix accepted once is
rejected when the same raw prefix is added again, and in every reachable state
every prefix of the registry is a string of 1 to 10 characters from `A-Z0-9`. -/
theorem addPrefix_contract (s : State) (raw : JSString) :
    ((normalizedPrefix raw = [] ∨ 10 < (normalizedPrefix raw).length ∨
        normalizedPrefix raw ∈ s.prefixes) →
      addPrefix s raw = (s, false)) ∧
    (¬ (normalizedPrefix raw = [] ∨ 10 < (normalizedPrefix raw).length ∨
        normalizedPrefix raw ∈ s.prefixes) →
      addPrefix s raw
        = ({ s with prefixes := s.prefixes ++ [normalizedPrefix raw] }, true) ∧
      ValidPrefix (normalizedPrefix raw)) ∧
    ((addPrefix s raw).2 = true →
      addPrefix (addPrefix s raw).1 raw = ((addPrefix s raw).1, false)) ∧
    (Reachable s → ∀ p ∈ s.prefixes, ValidPrefix p) := by
  have hacc : ¬ (normalizedPrefix raw = [] ∨ 10 < (normalizedPrefix raw).length ∨
        normalizedPrefix raw ∈ s.prefixes) →
      addPrefix s raw
        = ({ s with prefixes := s.prefixes ++ [normalizedPrefix raw] }, true) ∧
      ValidPrefix (normalizedPrefix raw) := by
    intro hrej
    have hne : normalizedPrefix raw ≠ [] := fun hh => hrej (Or.inl hh)
    have hlen : (normalizedPrefix raw).length ≤ 10 := by
      by_contra hh
      exact hrej (Or.inr (Or.inl (by omega)))
    have hnew : normalizedPrefix raw ∉ s.prefixes := fun hh => hrej (Or.inr (Or.inr hh))
    exact ⟨addPrefix_accepted s raw hne hlen hnew, normalizedPrefix_valid raw hne hlen⟩
  refine ⟨addPrefix_rejected s raw, hacc, ?_, fun hr => (reachable_registry s hr).1⟩
  intro hok
  by_cases hrej : normalizedPrefix raw = [] ∨ 10 < (normalizedPrefix raw).length ∨
      normalizedPrefix raw ∈ s.prefixes
  · rw [addPrefix_rejected s raw hrej] at hok
    exact absurd hok Bool.false_ne_true
  · apply addPrefix_rejected
    right
    right
    rw [(hacc hrej).1]
    exact List.mem_append_right _ (List.mem_singleton_self _)

/-- Witness of `addPrefix_contract`: the raw prefix ` loc-1 ` is normalized to
`LOC1` and accepted once; adding it again is rejected. -/
theorem addPrefix_contract_witness :
    normalizedPrefix " loc-1 ".toList = "LOC1".toList ∧
    (addPrefix stateTwoPoints " loc-1 ".toList).1.prefixes = ["LOC1".toList] ∧
    (addPrefix stateTwoPoints " loc-1 ".toList).2 = true ∧
    addPrefix (addPrefix stateTwoPoints " loc-1 ".toList).1 " loc-1 ".toList
      = ((addPrefix stateTwoPoints " loc-1 ".toList).1, false) :=
  ⟨by decide, by decide, by decide,
    (addPrefix_contract stateTwoPoints " loc-1 ".toList).2.2.1 (by decide)⟩

/-! ## Removing an unused prefix -/

theorem mem_setDelete {α : Type} [DecidableEq α] (l : List α) (x y : α) :
    y ∈ setDelete l x ↔ y ∈ l ∧ y ≠ x := by
  unfold setDelete
  rw [List.mem_filter]
  simp

/-- C28: removing an unused prefix.  For a prefix that is the namespace of no
point, `removePrefix` returns true whatever the answer to a confirmation would
be (none is asked), the prefix set loses that prefix and nothing else, and the
point list, the point objects, the selection, the history and `historyIndex`
are unchanged. -/
theorem removePrefix_unused (s : State) (pfx : JSString) (answer : Bool)
    (hunused : pfx ∉ s.pointIds.map namespaceOf) :
    removePrefix s pfx answer = ({ s with prefixes := setDelete s.prefixes pfx }, true) ∧
    (∀ q : JSString, q ∈ (removePrefix s pfx answer).1.prefixes ↔ q ∈ s.prefixes ∧ q ≠ pfx) ∧
    (removePrefix s pfx answer).1.points = s.points ∧
    (removePrefix s pfx answer).1.heap = s.heap ∧
    (removePrefix s pfx answer).1.selectedPoints = s.selectedPoints ∧
    (removePrefix s pfx answer).1.history = s.history ∧
    (removePrefix s pfx answer).1.historyIndex = s.historyIndex := by
  have h : removePrefix s pfx answer
      = ({ s with prefixes := setDelete s.prefixes pfx }, true) := by
    unfold removePrefix
    simp only
    rw [if_neg (fun hh => hunused hh.1), if_neg hunused]
  rw [h]
  exact ⟨rfl, fun q => mem_setDelete s.prefixes pfx q, rfl, rfl, rfl, rfl, rfl⟩

/-- Witness of `removePrefix_unused`: with the unprefixed points `1` and `2` and
the prefix `A`, removing `A` empties the prefix set and keeps both points. -/
theorem removePrefix_unused_witness :
    stateTwoPointsPrefixA.prefixes = ["A".toList] ∧
    (removePrefix stateTwoPointsPrefixA "A".toList false).2 = true ∧
    (removePrefix stateTwoPointsPrefixA "A".toList false).1.prefixes = [] ∧
    (removePrefix stateTwoPointsPrefixA "A".toList false).1.points
      = stateTwoPointsPrefixA.points :=
  ⟨by decide, by decide, by decide,
    (removePrefix_unused stateTwoPointsPrefixA "A".toList false (by decide)).2.2.1⟩

/-! ## Press and release without movement -/

theorem onMouseUp_dragging (s : State) (hdrag : s.isDragging = true)
    (hsel : s.selectedPoints ≠ []) :
    onMouseUp s
      = { saveState s (moveLabel s.selectedPoints.length) with
          isDragging := false, isMultiSelecting := false, selectionBox := none } := by
  have hlen : s.selectedPoints.length > 0 := List.length_pos.mpr hsel
  unfold onMouseUp moveLabel
  simp only
  rw [if_pos ⟨hdrag, hlen⟩]

theorem onMouseUp_no_selection (s : State) (hsel : s.selectedPoints = []) :
    onMouseUp s
      = { s with isDragging := false, isMultiSelecting := false, selectionBox := none } := by
  unfold onMouseUp
  simp only
  rw [if_neg (by simp [hsel])]

theorem onMouseDown_on_selected (s : State) (ev : MouseEvent) (p : Nat)
    (himg : s.currentImage.isNone = false) (hbtn : ev.button = 0)
    (hhit : getPointAtPosition s (ev.clientX - ev.rectLeft) (ev.clientY - ev.rectTop)
      = some p)
    (hsel : p ∈ s.selectedPoints) :
    onMouseDown s ev
      = { s with lastMousePos := (ev.clientX, ev.clientY), isDragging := true,
                 dragOffset := (ev.clientX - ev.rectLeft - (s.deref p).x,
                                ev.clientY - ev.rectTop - (s.deref p).y) } := by
  have hhit1 : getPointAtPosition { s with lastMousePos := (ev.clientX, ev.clientY) }
      (ev.clientX - ev.rectLeft) (ev.clientY - ev.rectTop) = some p := hhit
  unfold onMouseDown
  rw [if_neg (by simp [himg, hbtn])]
  simp only
  rw [hhit1]
  simp only
  rw [if_pos hsel]
  rfl

theorem onMouseDown_on_empty (s : State) (ev : MouseEvent)
    (himg : s.currentImage.isNone = false) (hbtn : ev.button = 0)
    (hctrl : ev.ctrlKey = false) (hmeta : ev.metaKey = false)
    (hmiss : getPointAtPosition s (ev.clientX - ev.rectLeft) (ev.clientY - ev.rectTop)
      = none) :
    onMouseDown s ev
      = { s with lastMousePos := (ev.clientX, ev.clientY), isMultiSelecting := true,
                 selectionBox := some { startX := ev.clientX - ev.rectLeft,
                                        startY := ev.clientY - ev.rectTop,
                                        endX := ev.clientX - ev.rectLeft,
                                        endY := ev.clientY - ev.rectTop },
                 selectedPoints := [] } := by
  have hmiss1 : getPointAtPosition { s with lastMousePos := (ev.clientX, ev.clientY) }
      (ev.clientX - ev.rectLeft) (ev.clientY - ev.rectTop) = none := hmiss
  unfold onMouseDown
  rw [if_neg (by simp [himg, hbtn])]
  simp only
  rw [hmiss1]
  simp only
  rw [if_pos ⟨hctrl, hmeta⟩]

/-- C29, a counterexample to the claim as stated: point `1` was dragged from
`(100, 100)` to `(150, 150)` and the drag was given up with Escape, so no
snapshot recorded the move; the click that ends the gesture selected the point
again, and the history still has the two entries `Load image` and
`Add point 1`.  A press and release
on it leaves it at `(150, 150)` and records `Move 1 point(s)` with the point
at `(150, 150)`, while the previous head entry holds it at `(100, 100)`. -/
theorem press_release_counterexample :
    Reachable stateAbandonedDrag ∧
    stateAbandonedDrag.history.length = 2 ∧
    getPointAtPosition stateAbandonedDrag 150 150 = some 0 ∧
    0 ∈ stateAbandonedDrag.selectedPoints ∧
    (arrayGet stateAbandonedDrag.history stateAbandonedDrag.historyIndex).map
        HistoryEntry.points
      = some [{ point_id := "1".toList, x := 100, y := 100 }] ∧
    (onMouseUp (onMouseDown stateAbandonedDrag (mouseAt 150 150))).pointValues
      = stateAbandonedDrag.pointValues ∧
    (arrayGet (onMouseUp (onMouseDown stateAbandonedDrag (mouseAt 150 150))).history
        (onMouseUp (onMouseDown stateAbandonedDrag (mouseAt 150 150))).historyIndex).map
        HistoryEntry.points
      = some [{ point_id := "1".toList, x := 150, y := 150 }] ∧
    (arrayGet (onMouseUp (onMouseDown stateAbandonedDrag (mouseAt 150 150))).history
        (onMouseUp (onMouseDown stateAbandonedDrag (mouseAt 150 150))).historyIndex).map
        HistoryEntry.action
      = some "Move 1 point(s)".toList :=
  ⟨reachable_run _ _ (Reachable.init defaultSettings) (by decide),
    by decide, by decide, by decide, by decide, by decide, by decide, by decide⟩

/-- C29, amended: a press and release on an already-selected point without any
pointer movement still records a move.  With an image loaded, the left button
and a history capacity of at least 1, for every state in which the hit point is
selected, `onMouseDown` followed directly by `onMouseUp` leaves the point list
and every point object unchanged, and the current history entry afterwards is
a snapshot labeled `Move n point(s)` (`n` the selection size) whose point list
is the current point list; it equals that of the previous current entry
whenever the point list was the one recorded there, and at the head of a
history below capacity it is the one entry added. -/
theorem press_release_records_move (s : State) (ev : MouseEvent) (p : Nat)
    (himg : s.currentImage.isNone = false) (hbtn : ev.button = 0)
    (hhit : getPointAtPosition s (ev.clientX - ev.rectLeft) (ev.clientY - ev.rectTop)
      = some p)
    (hsel : p ∈ s.selectedPoints) (hcap : 1 ≤ s.maxHistorySize) :
    (onMouseUp (onMouseDown s ev)).points = s.points ∧
    (onMouseUp (onMouseDown s ev)).heap = s.heap ∧
    (onMouseUp (onMouseDown s ev)).selectedPoints = s.selectedPoints ∧
    ∃ e : HistoryEntry,
      arrayGet (onMouseUp (onMouseDown s ev)).history
          (onMouseUp (onMouseDown s ev)).historyIndex = some e ∧
      e.action = moveLabel s.selectedPoints.length ∧
      e.points = s.pointValues ∧
      (∀ e0 : HistoryEntry, arrayGet s.history s.historyIndex = some e0 →
        e0.points = s.pointValues → e.points = e0.points) ∧
      (s.historyIndex = (s.history.length : Int) - 1 →
        (s.history.length : Int) < s.maxHistorySize →
        (onMouseUp (onMouseDown s ev)).history = s.history ++ [e]) := by
  have hne : s.selectedPoints ≠ [] := fun h => by
    rw [h] at hsel
    exact absurd hsel (List.not_mem_nil p)
  obtain ⟨d, hd⟩ : ∃ d, d = onMouseDown s ev := ⟨_, rfl⟩
  have hdown := onMouseDown_on_selected s ev p himg hbtn hhit hsel
  rw [← hd] at hdown ⊢
  have f1 : d.points = s.points := by rw [hdown]
  have f2 : d.heap = s.heap := by rw [hdown]
  have f3 : d.selectedPoints = s.selectedPoints := by rw [hdown]
  have f4 : d.history = s.history := by rw [hdown]
  have f5 : d.historyIndex = s.historyIndex := by rw [hdown]
  have f6 : d.maxHistorySize = s.maxHistorySize := by rw [hdown]
  have f7 : d.isDragging = true := by rw [hdown]
  have f8 : d.pointValues = s.pointValues := by rw [hdown]; rfl
  rw [onMouseUp_dragging d f7 (by rw [f3]; exact hne)]
  refine ⟨?_, ?_, ?_, snapshot d (moveLabel s.selectedPoints.length), ?_, rfl, f8, ?_, ?_⟩
  · exact (saveState_points d _).trans f1
  · exact (saveState_heap d _).trans f2
  · exact (saveState_selectedPoints d _).trans f3
  · rw [f3]
    exact saveState_current_entry d (moveLabel s.selectedPoints.length) (by rw [f6]; exact hcap)
  · intro e0 _ h0
    exact f8.trans h0.symm
  · intro hhead hbelow
    rw [f3, ← f4]
    exact (saveState_grows d (moveLabel s.selectedPoints.length)
      (by rw [f4, f5]; exact hhead) (by rw [f4, f6]; exact hbelow)).1

/-- Witness of `press_release_records_move`: with the points `1` and `2`, point
`2` selected, a press and release on point `2` adds a fourth history entry
`Move 1 point(s)` and moves nothing. -/
theorem press_release_records_move_witness :
    stateTwoPoints.history.length = 3 ∧
    (onMouseUp (onMouseDown stateTwoPoints (mouseAt 200 200))).history.length = 4 ∧
    (onMouseUp (onMouseDown stateTwoPoints (mouseAt 200 200))).points
      = stateTwoPoints.points ∧
    (onMouseUp (onMouseDown stateTwoPoints (mouseAt 200 200))).heap = stateTwoPoints.heap :=
  have h := press_release_records_move stateTwoPoints (mouseAt 200 200) 1
    (by decide) (by decide) (by decide) (by decide) (by decide)
  ⟨by decide, by decide, h.1, h.2.1⟩

/-! ## Shift-click gesture on empty space -/

theorem onCanvasClick_on_empty (s : State) (ev : MouseEvent)
    (himg : s.currentImage.isNone = false) (hdrag : s.isDragging = false)
    (hctrl : ev.ctrlKey = false) (hmeta : ev.metaKey = false)
    (hnosel : s.selectedPoints = [])
    (hmiss : getPointAtPosition s (ev.clientX - ev.rectLeft) (ev.clientY - ev.rectTop)
      = none) :
    onCanvasClick s ev
      = { s with selectedPoints := [],
                 pendingClick := some (((ev.clientX - ev.rectLeft : Int) : ℚ),
                                       ((ev.clientY - ev.rectTop : Int) : ℚ)) } := by
  unfold onCanvasClick
  rw [if_neg (by simp [himg, hdrag])]
  simp only
  rw [if_neg (by simp [hctrl, hmeta]), if_neg (by simp [hnosel]), hmiss]

/-- C30: a full shift-click gesture on empty space cannot range-select.  With
an image loaded, for every state (whatever its selection) and every location
with no hit point, the sequence `onMouseDown`, `onMouseUp`, `onCanvasClick` at
that location with the left button and neither Ctrl nor Cmd, Shift held or
not, finds the selection empty when the click handler runs, and ends with an
empty selection and `pendingClick` set to that location; the point list, the
point objects and the history are unchanged. -/
theorem shift_click_on_empty_space (s : State) (ev : MouseEvent)
    (himg : s.currentImage.isNone = false) (hbtn : ev.button = 0)
    (hctrl : ev.ctrlKey = false) (hmeta : ev.metaKey = false)
    (hmiss : getPointAtPosition s (ev.clientX - ev.rectLeft) (ev.clientY - ev.rectTop)
      = none) :
    (onMouseUp (onMouseDown s ev)).selectedPoints = [] ∧
    (onCanvasClick (onMouseUp (onMouseDown s ev)) ev).selectedPoints = [] ∧
    (onCanvasClick (onMouseUp (onMouseDown s ev)) ev).pendingClick
      = some (((ev.clientX - ev.rectLeft : Int) : ℚ), ((ev.clientY - ev.rectTop : Int) : ℚ)) ∧
    (onCanvasClick (onMouseUp (onMouseDown s ev)) ev).points = s.points ∧
    (onCanvasClick (onMouseUp (onMouseDown s ev)) ev).heap = s.heap ∧
    (onCanvasClick (onMouseUp (onMouseDown s ev)) ev).history = s.history := by
  obtain ⟨d, hd⟩ : ∃ d, d = onMouseDown s ev := ⟨_, rfl⟩
  have hdown := onMouseDown_on_empty s ev himg hbtn hctrl hmeta hmiss
  rw [← hd] at hdown ⊢
  have g1 : d.selectedPoints = [] := by rw [hdown]
  obtain ⟨u, hu⟩ : ∃ u, u = onMouseUp d := ⟨_, rfl⟩
  have hup := onMouseUp_no_selection d g1
  rw [← hu] at hup ⊢
  rw [hdown] at hup
  have k1 : u.selectedPoints = [] := by rw [hup]
  have k2 : u.currentImage.isNone = false := by rw [hup]; exact himg
  have k3 : u.isDragging = false := by rw [hup]
  have k4 : getPointAtPosition u (ev.clientX - ev.rectLeft) (ev.clientY - ev.rectTop)
      = none := by rw [hup]; exact hmiss
  have k5 : u.points = s.points := by rw [hup]
  have k6 : u.heap = s.heap := by rw [hup]
  have k7 : u.history = s.history := by rw [hup]
  rw [onCanvasClick_on_empty u ev k2 k3 hctrl hmeta k1 k4]
  exact ⟨k1, rfl, rfl, k5, k6, k7⟩

/-- Witness of `shift_click_on_empty_space`: with point `2` selected, a
shift-click gesture on the empty location `(300, 300)` ends with nothing
selected and the add flow pending there; the same gesture on point `1` does
range-select. -/
theorem shift_click_on_empty_space_witness :
    stateTwoPoints.selectedPoints = [1] ∧
    getPointAtPosition stateTwoPoints 300 300 = none ∧
    (onCanvasClick (onMouseUp (onMouseDown stateTwoPoints (shiftAt 300 300)))
        (shiftAt 300 300)).selectedPoints = [] ∧
    (onCanvasClick (onMouseUp (onMouseDown stateTwoPoints (shiftAt 300 300)))
        (shiftAt 300 300)).pendingClick = some (300, 300) ∧
    (onCanvasClick (onMouseUp (onMouseDown stateTwoPoints (shiftAt 100 100)))
        (shiftAt 100 100)).selectedPoints = [1, 0] :=
  have h := shift_click_on_empty_space stateTwoPoints (shiftAt 300 300)
    (by decide) (by decide) (by decide) (by decide) (by decide)
  ⟨by decide, by decide, h.2.1, h.2.2.1, by decide⟩

/-- Witness of `pointer_up`: point `1` is dragged to `(150, 150)`; releasing the
button ends the drag and adds the entry `Move 1 point(s)` with the point at
`(150, 150)`. -/
theorem pointer_up_witness :
    stateDragged.isDragging = true ∧ stateDragged.selectedPoints = [0] ∧
    stateDragged.history.length = 2 ∧
    (onMouseUp stateDragged).history.length = 3 ∧
    (arrayGet (onMouseUp stateDragged).history (onMouseUp stateDragged).historyIndex).map
        HistoryEntry.points
      = some [{ point_id := "1".toList, x := 150, y := 150 }] ∧
    (onMouseUp stateDragged).isDragging = false ∧
    (onMouseUp stateDragged).isMultiSelecting = false ∧
    (onMouseUp stateDragged).selectionBox = none :=
  ⟨by decide, by decide, by decide, by decide, by decide, (pointer_up stateDragged).1⟩

end ImagePointMapper
